import Mathlib

/-!
# bedToEnrichments: interval algebra and region expansion

A shallow embedding of the sorted interval sweeps and of the region expansion
transforms of `bedToEnrichments.c` and `bedLong.c`, with the properties of the
written specification stated and proved over it.

Modelling conventions:

* a `struct bedLong *` linked list is a `List bedLong`; the `next` link is the list
  structure itself, and a `NULL` list is `[]`;
* `long` coordinates are integers (`Int`); in the region expansion and in the base counts
  every sum, difference and product of `long` values is reduced to 64 bits by `wrapLong`;
  the definitions with the suffix `Exact` are the same loops over exact integers, and the
  program is proved to agree with them as long as no result leaves the range of `long`;
  `int` counters are natural numbers;
* a `while` loop over list cursors is a recursive function whose arguments are the
  loop variables;
* a function that dereferences its list head before testing it for `NULL` returns
  `none` on the empty list.
-/

namespace BedToEnrichments

/-! ## Data model -/

/-- The record `struct bedLong` of `bedLong.h` without its `next` link. A `NULL` name is
`none`, the `slName` list of GO terms is a list of strings. -/
structure bedLong where
  chrom : String
  chromStart : Int
  chromEnd : Int
  name : Option String
  goTerms : List String
  strand : Char
  deriving DecidableEq, Repr

/-! ## Library primitives used by the source -/

/-- Character by character comparison behind `strcmp`: negative, zero or positive as the
first differing position decides, a proper prefix being smaller. -/
def strcmpAux : List Char → List Char → Int
  | [], [] => 0
  | [], _ :: _ => -1
  | _ :: _, [] => 1
  | a :: as, b :: bs =>
    if a.toNat < b.toNat then -1
    else if b.toNat < a.toNat then 1
    else strcmpAux as bs

/-- The C library `strcmp`, up to the magnitude of its result (the source only ever tests
the sign). Characters are compared by code point, which orders UTF-8 text the same way
as the byte comparison of C. -/
def strcmp (a b : String) : Int := strcmpAux a.data b.data

/-- Modelled from the spec: the `max` of `common.h` (a header that is not part of the
sources at hand), the larger of two numbers as in `max(0, start - d)`. -/
def maxLong (a b : Int) : Int := if a > b then a else b

/-- Modelled from the spec: the `min` of `common.h` (a header that is not part of the
sources at hand), the smaller of two numbers as in `min(a.end, b.end)`. -/
def minLong (a b : Int) : Int := if a < b then a else b

/-- The value a `long` holds after an operation whose exact result is `x`: the result is
reduced to 64 bits, two's complement. -/
def wrapLong (x : Int) : Int := (x + 9223372036854775808) % 18446744073709551616 - 9223372036854775808

/-! ## Comparators and the overlap predicate -/

/-- `bedLongCmp`: the order used to sort every list, by chromosome and then start. -/
def bedLongCmp (a b : bedLong) : Int :=
  let dif := strcmp a.chrom b.chrom
  if dif ≠ 0 then dif
  else if a.chromStart > b.chromStart then 1
  else if a.chromStart = b.chromStart then 0
  else -1

/-- `bedLongCmpEnd`: order by chromosome and then end coordinate. -/
def bedLongCmpEnd (futon bunk : bedLong) : Int :=
  let diff := strcmp futon.chrom bunk.chrom
  if diff = 0 then
    if futon.chromEnd < bunk.chromEnd then -1
    else if futon.chromEnd > bunk.chromEnd then 1
    else 0
  else diff

/-- `bedLongOverlap`: same chromosome and a shared span of positive length. -/
def bedLongOverlap (futon bunk : bedLong) : Bool :=
  if strcmp futon.chrom bunk.chrom = 0 then
    if minLong futon.chromEnd bunk.chromEnd - maxLong futon.chromStart bunk.chromStart > 0 then
      true
    else false
  else false

/-! ## Sweeps -/

/-- The `while` loop of `bedLongIntersectCount`; `count` is the running counter and the two
lists are what the cursors `futon` and `bunk` still have ahead of them. -/
def bedLongIntersectCountLoop (count : Nat) : List bedLong → List bedLong → Nat
  | [], _ => count
  | _ :: _, [] => count
  | futon :: fs, bunk :: bs =>
    if bedLongOverlap futon bunk then
      bedLongIntersectCountLoop (count + 1) fs (bunk :: bs)
    else if bedLongCmpEnd futon bunk < 0 then
      bedLongIntersectCountLoop count fs (bunk :: bs)
    else
      bedLongIntersectCountLoop count (futon :: fs) bs
termination_by l1 l2 => l1.length + l2.length

/-- `bedLongIntersectCount`: the number of elements of list one with any overlap in list
two, computed by the two cursor sweep. -/
def bedLongIntersectCount (listOne listTwo : List bedLong) : Nat :=
  bedLongIntersectCountLoop 0 listOne listTwo

/-- The local variables `prevChr`, `sum` and `prevEnd` shared by the base counting loops. -/
structure baseCounter where
  prevChr : String
  sum : Int
  prevEnd : Int
  deriving DecidableEq, Repr

/-- The chromosome check at the top of the base counting loops: when the cursor has moved to
another chromosome than `prevChr`, `prevChr` takes the new name and the watermark `prevEnd`
goes back to `0`. -/
def resetWatermark (st : baseCounter) (chrom : String) : baseCounter :=
  if strcmp st.prevChr chrom ≠ 0 then { st with prevChr := chrom, prevEnd := 0 } else st

/-- The accounting of one overlapping pair in `bedLongIntersectBases` and
`bedLongIntersectGoBases`: add the part of `[overlapStart, overlapEnd)` that lies beyond the
watermark and raise the watermark. The difference and the sum are `long` results. -/
def addOverlap (st : baseCounter) (overlapStart overlapEnd : Int) : baseCounter :=
  { st with
    sum :=
      if overlapStart ≥ st.prevEnd then
        wrapLong (st.sum + wrapLong (overlapEnd - overlapStart))
      else if overlapEnd > st.prevEnd then
        wrapLong (st.sum + wrapLong (overlapEnd - st.prevEnd))
      else st.sum
    prevEnd := maxLong st.prevEnd overlapEnd }

/-- The part of the body of the `bedLongIntersectBases` loop that comes before the cursor
moves: chromosome check, then the accounting of the pair when it overlaps. -/
def intersectBasesBody (st : baseCounter) (futon bunk : bedLong) : baseCounter :=
  if bedLongOverlap futon bunk then
    addOverlap (resetWatermark st futon.chrom)
      (maxLong futon.chromStart bunk.chromStart) (minLong futon.chromEnd bunk.chromEnd)
  else resetWatermark st futon.chrom

/-- The `while` loop of `bedLongIntersectBases`; the two lists are what the cursors `futon`
and `bunk` still have ahead of them. -/
def bedLongIntersectBasesLoop (st : baseCounter) : List bedLong → List bedLong → Int
  | [], _ => st.sum
  | _ :: _, [] => st.sum
  | futon :: fs, bunk :: bs =>
    if bedLongCmpEnd futon bunk ≤ 0 then
      bedLongIntersectBasesLoop (intersectBasesBody st futon bunk) fs (bunk :: bs)
    else
      bedLongIntersectBasesLoop (intersectBasesBody st futon bunk) (futon :: fs) bs
termination_by l1 l2 => l1.length + l2.length

/-- `bedLongIntersectBases`: the number of bases in the intersection of the two lists. The
source reads `bedLongListA->chrom` before the loop, so an empty first list has no result. -/
def bedLongIntersectBases (bedLongListA bedLongListB : List bedLong) : Option Int :=
  match bedLongListA with
  | [] => none
  | futon :: _ =>
    some (bedLongIntersectBasesLoop ⟨futon.chrom, 0, 0⟩ bedLongListA bedLongListB)

/-- The body of the `for` loop of `bedLongBases`: chromosome check, then the part of the
interval beyond the watermark is added and the watermark raised. The difference and the sum
are `long` results. -/
def basesBody (st : baseCounter) (futon : bedLong) : baseCounter :=
  { resetWatermark st futon.chrom with
    sum :=
      if futon.chromStart > (resetWatermark st futon.chrom).prevEnd then
        wrapLong ((resetWatermark st futon.chrom).sum +
          wrapLong (futon.chromEnd - futon.chromStart))
      else if futon.chromEnd > (resetWatermark st futon.chrom).prevEnd then
        wrapLong ((resetWatermark st futon.chrom).sum +
          wrapLong (futon.chromEnd - (resetWatermark st futon.chrom).prevEnd))
      else (resetWatermark st futon.chrom).sum
    prevEnd := maxLong (resetWatermark st futon.chrom).prevEnd futon.chromEnd }

/-- The `for` loop of `bedLongBases`. -/
def bedLongBasesLoop (st : baseCounter) : List bedLong → Int
  | [] => st.sum
  | futon :: rest => bedLongBasesLoop (basesBody st futon) rest

/-- `bedLongBases`: the summed length of a list with overlap counted once. The source reads
`bedLongList->chrom` before the loop, so an empty list has no result. -/
def bedLongBases (bedLongList : List bedLong) : Option Int :=
  match bedLongList with
  | [] => none
  | futon :: _ => some (bedLongBasesLoop ⟨futon.chrom, 0, 0⟩ bedLongList)

/-! ## GO term membership -/

/-- Modelled from the spec: `slNameInList` of the kent library (`common.h`, not part of the
sources at hand), the membership test behind `hasTerm`: true iff the term is a member of
the term set. -/
def slNameInList (list : List String) (string : String) : Bool :=
  list.contains string

/-- `bedLongHasGoTerm`: whether the record carries the GO term. -/
def bedLongHasGoTerm (bedLong : bedLong) (goTerm : String) : Bool :=
  slNameInList bedLong.goTerms goTerm

/-- The test `(goTerm == NULL) || bedLongHasGoTerm(b, goTerm)` of the term filtered sweeps;
a `NULL` term is `none`. -/
def termAllows (goTerm : Option String) (b : bedLong) : Bool :=
  match goTerm with
  | none => true
  | some t => bedLongHasGoTerm b t

/-- The `while` loop of `bedLongIntersectThreeGoCount` with its three cursors. -/
def bedLongIntersectThreeGoCountLoop (goTermOne goTermTwo goTermThree : Option String)
    (count : Nat) : List bedLong → List bedLong → List bedLong → Nat
  | [], _, _ => count
  | _ :: _, [], _ => count
  | _ :: _, _ :: _, [] => count
  | bedLongOne :: r1, bedLongTwo :: r2, bedLongThree :: r3 =>
    if termAllows goTermOne bedLongOne then
      if termAllows goTermTwo bedLongTwo then
        if termAllows goTermThree bedLongThree then
          if bedLongOverlap bedLongOne bedLongTwo && bedLongOverlap bedLongOne bedLongThree then
            bedLongIntersectThreeGoCountLoop goTermOne goTermTwo goTermThree (count + 1)
              r1 (bedLongTwo :: r2) (bedLongThree :: r3)
          else if bedLongCmpEnd bedLongOne bedLongTwo < 0 ∧
              bedLongCmpEnd bedLongOne bedLongThree < 0 then
            bedLongIntersectThreeGoCountLoop goTermOne goTermTwo goTermThree count
              r1 (bedLongTwo :: r2) (bedLongThree :: r3)
          else if bedLongCmpEnd bedLongTwo bedLongThree < 0 then
            bedLongIntersectThreeGoCountLoop goTermOne goTermTwo goTermThree count
              (bedLongOne :: r1) r2 (bedLongThree :: r3)
          else
            bedLongIntersectThreeGoCountLoop goTermOne goTermTwo goTermThree count
              (bedLongOne :: r1) (bedLongTwo :: r2) r3
        else
          bedLongIntersectThreeGoCountLoop goTermOne goTermTwo goTermThree count
            (bedLongOne :: r1) (bedLongTwo :: r2) r3
      else
        bedLongIntersectThreeGoCountLoop goTermOne goTermTwo goTermThree count
          (bedLongOne :: r1) r2 (bedLongThree :: r3)
    else
      bedLongIntersectThreeGoCountLoop goTermOne goTermTwo goTermThree count
        r1 (bedLongTwo :: r2) (bedLongThree :: r3)
termination_by l1 l2 l3 => l1.length + l2.length + l3.length

/-- `bedLongIntersectThreeGoCount`: meant to return the number of elements of list one that
overlap both something in list two and something in list three. -/
def bedLongIntersectThreeGoCount (listOne : List bedLong) (goTermOne : Option String)
    (listTwo : List bedLong) (goTermTwo : Option String)
    (listThree : List bedLong) (goTermThree : Option String) : Nat :=
  bedLongIntersectThreeGoCountLoop goTermOne goTermTwo goTermThree 0 listOne listTwo listThree

/-! ## Region expansion -/

/-- `expandBedLongListByDistance`: the `for` loop over the list; the list is returned with the
coordinates the source writes in place, `start - distance` and `end + distance` being `long`
results. -/
def expandBedLongListByDistance (bedLongList : List bedLong) (distance : Int) : List bedLong :=
  match bedLongList with
  | [] => []
  | futon :: rest =>
    { futon with
      chromStart := maxLong 0 (wrapLong (futon.chromStart - distance))
      chromEnd := wrapLong (futon.chromEnd + distance) } ::
        expandBedLongListByDistance rest distance

/-- The state of the `expandBedLongListToNeighbor` loop between two turns. The part of the
list the cursor `curr` has passed is `before ++ p :: between` when `prev` points at the
record `p` (`prev = some (p, between)`; `between` are the records passed since, which did
not become `prev`), and just `before` when `prev` is `NULL`. -/
structure neighborSweep where
  before : List bedLong
  prev : Option (bedLong × List bedLong)
  deriving DecidableEq, Repr

/-- The records a sweep state stands for, in list order. -/
def neighborSweep.toList (st : neighborSweep) : List bedLong :=
  match st.prev with
  | none => st.before
  | some (p, between) => st.before ++ p :: between

/-- The first `if` of the loop body: when `prev` is on another chromosome than `curr`, its
end grows by `distance` and `prev` becomes `NULL`. -/
def neighborChromCheck (distance : Int) (st : neighborSweep) (curr : bedLong) : neighborSweep :=
  match st.prev with
  | none => st
  | some (p, between) =>
    if strcmp p.chrom curr.chrom ≠ 0 then
      { before := st.before ++ { p with chromEnd := wrapLong (p.chromEnd + distance) } :: between
        prev := none }
    else st

/-- The statement `if(curr->next == NULL){curr->chromEnd += distance;}` that ends every
branch of the loop body. -/
def trailingEdge (distance : Int) (isLast : Bool) (curr : bedLong) : bedLong :=
  if isLast then { curr with chromEnd := wrapLong (curr.chromEnd + distance) } else curr

/-- The body of the `expandBedLongListToNeighbor` loop for the record `curr`; `isLast` is
`curr->next == NULL`. Every sum, difference and the product `2 * distance` is a `long`
result; the division by 2 truncates. The final `else` of the source is the `errAbort`. -/
def neighborBody (distance : Int) (st : neighborSweep) (curr : bedLong) (isLast : Bool) :
    Except String neighborSweep :=
  match (neighborChromCheck distance st curr).prev with
  | none =>
    .ok { before := (neighborChromCheck distance st curr).before
          prev := some (trailingEdge distance isLast
            { curr with chromStart := maxLong 0 (wrapLong (curr.chromStart - distance)) }, []) }
  | some (p, between) =>
    if wrapLong (curr.chromStart - p.chromEnd) ≥ wrapLong (2 * distance) then
      .ok { before := (neighborChromCheck distance st curr).before ++
              { p with chromEnd := wrapLong (p.chromEnd + distance) } :: between
            prev := some (trailingEdge distance isLast
              { curr with
                chromStart := maxLong 0 (wrapLong (curr.chromStart - distance)) }, []) }
    else if wrapLong (curr.chromStart - p.chromEnd) ≥ 0 then
      .ok { before := (neighborChromCheck distance st curr).before ++
              { p with
                chromEnd := Int.tdiv (wrapLong (curr.chromStart + p.chromEnd)) 2 } :: between
            prev := some (trailingEdge distance isLast
              { curr with
                chromStart := Int.tdiv (wrapLong (curr.chromStart + p.chromEnd)) 2 }, []) }
    else if wrapLong (curr.chromEnd - p.chromEnd) ≥ 0 then
      .ok { before := (neighborChromCheck distance st curr).before ++ p :: between
            prev := some (trailingEdge distance isLast curr, []) }
    else if curr.chromEnd < p.chromEnd then
      .ok { before := (neighborChromCheck distance st curr).before
            prev := some (p, between ++ [trailingEdge distance isLast curr]) }
    else
      .error "should not exhaust this if statement"

/-- The `for` loop of `expandBedLongListToNeighbor` over what the cursor `curr` still has
ahead. -/
def expandBedLongListToNeighborLoop (distance : Int) (st : neighborSweep) :
    List bedLong → Except String (List bedLong)
  | [] => .ok st.toList
  | curr :: rest =>
    match neighborBody distance st curr rest.isEmpty with
    | .error e => .error e
    | .ok st1 => expandBedLongListToNeighborLoop distance st1 rest

/-- `expandBedLongListToNeighbor`: the list with the coordinates the source writes in place,
or the message of the `errAbort`. -/
def expandBedLongListToNeighbor (bedLongList : List bedLong) (distance : Int) :
    Except String (List bedLong) :=
  expandBedLongListToNeighborLoop distance { before := [], prev := none } bedLongList

/-- The record `struct slNameDouble` without its `next` link: a term and its p-value. The
`double` is an exact rational number here; rounding, infinities and NaN are not part of
the model. -/
structure slNameDouble where
  name : String
  number : ℚ
  deriving DecidableEq, Repr

/-- `slNameDoubleCmp`: the comparator handed to `slSort`, by p-value. -/
def slNameDoubleCmp (a b : slNameDouble) : Int :=
  if a.number > b.number then 1
  else if a.number = b.number then 0
  else -1

/-- `bonferroniCorrection`: the `for` loop over the result list; the list is returned with
the numbers the source writes in place. -/
def bonferroniCorrection (head : List slNameDouble) (numberOfTests : Int) :
    List slNameDouble :=
  match head with
  | [] => []
  | curr :: rest =>
    { curr with
      number :=
        if curr.number * (numberOfTests : ℚ) > 1 then 1
        else curr.number * (numberOfTests : ℚ) } :: bonferroniCorrection rest numberOfTests

/-- The `while` loop of `bedLongIntersectGoBases`: the loop of `bedLongIntersectBases` with
the genes that lack the term stepped over. -/
def bedLongIntersectGoBasesLoop (goTerm : String) (st : baseCounter) :
    List bedLong → List bedLong → Int
  | [], _ => st.sum
  | _ :: _, [] => st.sum
  | gene :: gs, sequenced :: ss =>
    if bedLongHasGoTerm gene goTerm then
      if bedLongCmpEnd gene sequenced ≤ 0 then
        bedLongIntersectGoBasesLoop goTerm (intersectBasesBody st gene sequenced) gs
          (sequenced :: ss)
      else
        bedLongIntersectGoBasesLoop goTerm (intersectBasesBody st gene sequenced) (gene :: gs) ss
    else
      bedLongIntersectGoBasesLoop goTerm st gs (sequenced :: ss)
termination_by l1 l2 => l1.length + l2.length

/-- `bedLongIntersectGoBases`: the bases shared by the allowed regions and the genes that
carry the term. The source reads `geneList->chrom` before the loop, so an empty gene list
has no result. -/
def bedLongIntersectGoBases (geneList : List bedLong) (goTerm : String)
    (allowedRegionsList : List bedLong) : Option Int :=
  match geneList with
  | [] => none
  | gene :: _ =>
    some (bedLongIntersectGoBasesLoop goTerm ⟨gene.chrom, 0, 0⟩ geneList allowedRegionsList)

/-- Modelled from the spec: `hashAdd` of the kent library (`hash.h`, not part of the sources
at hand) on a table of hit names; the table is kept as the list of its (term, name)
entries, the latest first. -/
def hashAdd (hash : List (String × String)) (name val : String) : List (String × String) :=
  (name, val) :: hash

/-- The recording of one hit in `bedLongIntersectGoCount`: nothing when the table is `NULL`,
the `errAbort` when the record has no name, else the name is added under the term. A table
without a term never gets here: the check ahead of the loop aborts first. -/
def addHit (retHitsHash : Option (List (String × String))) (goTerm : Option String)
    (b : bedLong) : Except String (Option (List (String × String))) :=
  match retHitsHash with
  | none => .ok none
  | some hash =>
    match b.name, goTerm with
    | none, _ => .error "Error: told to list names, but hit has not name"
    | some n, some t => .ok (some (hashAdd hash t n))
    | some _, none => .error "request for names hit, but no go term to use as key"

/-- The counter and the two hit tables that the `bedLongIntersectGoCount` loop updates. -/
structure goCounter where
  count : Nat
  hitsOne : Option (List (String × String))
  hitsTwo : Option (List (String × String))
  deriving DecidableEq, Repr

/-- The `while` loop of `bedLongIntersectGoCount`. -/
def bedLongIntersectGoCountLoop (goTermOne goTermTwo : Option String) (st : goCounter) :
    List bedLong → List bedLong → Except String goCounter
  | [], _ => .ok st
  | _ :: _, [] => .ok st
  | bedLongOne :: r1, bedLongTwo :: r2 =>
    if termAllows goTermOne bedLongOne then
      if termAllows goTermTwo bedLongTwo then
        if bedLongOverlap bedLongOne bedLongTwo then
          match addHit st.hitsOne goTermOne bedLongOne with
          | .error e => .error e
          | .ok h1 =>
            match addHit st.hitsTwo goTermTwo bedLongTwo with
            | .error e => .error e
            | .ok h2 =>
              bedLongIntersectGoCountLoop goTermOne goTermTwo ⟨st.count + 1, h1, h2⟩
                r1 (bedLongTwo :: r2)
        else if bedLongCmpEnd bedLongOne bedLongTwo < 0 then
          bedLongIntersectGoCountLoop goTermOne goTermTwo st r1 (bedLongTwo :: r2)
        else
          bedLongIntersectGoCountLoop goTermOne goTermTwo st (bedLongOne :: r1) r2
      else
        bedLongIntersectGoCountLoop goTermOne goTermTwo st (bedLongOne :: r1) r2
    else
      bedLongIntersectGoCountLoop goTermOne goTermTwo st r1 (bedLongTwo :: r2)
termination_by l1 l2 => l1.length + l2.length

/-- `bedLongIntersectGoCount`: the count of the elements of list one that carry term one and
overlap an element of list two carrying term two, together with the hit tables after the
call; the `errAbort`s give the error. -/
def bedLongIntersectGoCount (listOne : List bedLong) (goTermOne : Option String)
    (listTwo : List bedLong) (goTermTwo : Option String)
    (retHitsOneHash retHitsTwoHash : Option (List (String × String))) :
    Except String goCounter :=
  if (retHitsOneHash ≠ none ∧ goTermOne = none) ∨ (retHitsTwoHash ≠ none ∧ goTermTwo = none) then
    .error "request for names hit, but no go term to use as key"
  else
    bedLongIntersectGoCountLoop goTermOne goTermTwo ⟨0, retHitsOneHash, retHitsTwoHash⟩
      listOne listTwo

/-- `countGoTermAppearanceInBedLong`: the number of records that carry the term. -/
def countGoTermAppearanceInBedLong (head : List bedLong) (goTerm : String) : Nat :=
  match head with
  | [] => 0
  | gene :: rest =>
    (if bedLongHasGoTerm gene goTerm then 1 else 0) + countGoTermAppearanceInBedLong rest goTerm

/-- Modelled from the spec: `slCount` of the kent library (`common.h`, not part of the sources
at hand), the number of elements of a list, as in `totalBalls = |genes|`. -/
def slCount (list : List bedLong) : Nat := list.length

/-- The conversion `(unsigned int)` of the arguments handed to the tail functions. -/
def toUnsigned (x : Int) : Nat := (x % 4294967296).toNat

/-- The local variables of the term loops of the three test styles that live across turns:
the result list `termAndPvalue`, which `slAddHead` grows at the front, and the hit table. -/
structure styleState where
  termAndPvalue : List slNameDouble
  retHitsHash : Option (List (String × String))
  deriving DecidableEq, Repr

/-- The `for` loop over the terms in `binomialStyle`. The tail function
`gsl_cdf_binomial_Q` of the GSL is a parameter, and the report strings written to
`paramsHash` are left out. An empty gene list, whose head `bedLongIntersectGoBases` reads,
gives an error. -/
def binomialStyleLoop (gsl_cdf_binomial_Q : Nat → ℚ → Nat → ℚ)
    (elementsList genesList okRegionsList : List bedLong) (totalBalls : Int)
    (totalPicks : Nat) (st : styleState) : List String → Except String styleState
  | [] => .ok st
  | term :: rest =>
    match bedLongIntersectGoBases genesList term okRegionsList with
    | none => .error "NULL gene list"
    | some whiteBalls =>
      match bedLongIntersectGoCount elementsList none genesList (some term) none
          st.retHitsHash with
      | .error e => .error e
      | .ok counted =>
        binomialStyleLoop gsl_cdf_binomial_Q elementsList genesList okRegionsList totalBalls
          totalPicks
          { termAndPvalue :=
              { name := term
                number :=
                  if counted.count = 0 then 1
                  else gsl_cdf_binomial_Q (toUnsigned ((counted.count : Int) - 1))
                    ((whiteBalls : ℚ) / (totalBalls : ℚ)) (toUnsigned totalPicks) } ::
                st.termAndPvalue
            retHitsHash := counted.hitsTwo }
          rest

/-- `binomialStyle`: the result list and the hit table after the call. The global flag
`optCountUnassigned` is a parameter. An empty list of allowed regions, whose head
`bedLongBases` reads, gives an error. -/
def binomialStyle (gsl_cdf_binomial_Q : Nat → ℚ → Nat → ℚ) (optCountUnassigned : Bool)
    (elementsList genesList : List bedLong) (goTerms : List String)
    (okRegionsList : List bedLong) (retHitsHash : Option (List (String × String))) :
    Except String styleState :=
  match bedLongBases okRegionsList with
  | none => .error "NULL list of allowed regions"
  | some totalBalls =>
    binomialStyleLoop gsl_cdf_binomial_Q elementsList genesList okRegionsList totalBalls
      (if optCountUnassigned then slCount elementsList
       else bedLongIntersectCount elementsList genesList)
      { termAndPvalue := [], retHitsHash := retHitsHash } goTerms

/-- The `for` loop over the terms in `hypergeometricStyle`. The tail function
`gsl_cdf_hypergeometric_Q` of the GSL is a parameter, and the report strings written to
`paramsHash` are left out. -/
def hypergeometricStyleLoop (gsl_cdf_hypergeometric_Q : Nat → Nat → Nat → Nat → ℚ)
    (elementsList genesList : List bedLong) (totalBalls : Nat) (st : styleState) :
    List String → Except String styleState
  | [] => .ok st
  | term :: rest =>
    match bedLongIntersectGoCount genesList (some term) elementsList none st.retHitsHash
        none with
    | .error e => .error e
    | .ok counted =>
      hypergeometricStyleLoop gsl_cdf_hypergeometric_Q elementsList genesList totalBalls
        { termAndPvalue :=
            { name := term
              number :=
                if counted.count = 0 then 1
                else gsl_cdf_hypergeometric_Q (toUnsigned ((counted.count : Int) - 1))
                  (toUnsigned (countGoTermAppearanceInBedLong genesList term))
                  (toUnsigned ((totalBalls : Int) -
                    (countGoTermAppearanceInBedLong genesList term : Int)))
                  (toUnsigned (bedLongIntersectCount genesList elementsList)) } ::
              st.termAndPvalue
          retHitsHash := counted.hitsOne }
        rest

/-- `hypergeometricStyle`: the result list and the hit table after the call. -/
def hypergeometricStyle (gsl_cdf_hypergeometric_Q : Nat → Nat → Nat → Nat → ℚ)
    (elementsList genesList : List bedLong) (goTerms : List String)
    (retHitsHash : Option (List (String × String))) : Except String styleState :=
  hypergeometricStyleLoop gsl_cdf_hypergeometric_Q elementsList genesList (slCount genesList)
    { termAndPvalue := [], retHitsHash := retHitsHash } goTerms

/-- The `for` loop over the terms in `hypergeometricNullModelStyle`; no hit table is handed
to the sweeps here. The tail function of the GSL is a parameter, and the report strings
written to `paramsHash` are left out. -/
def hypergeometricNullModelStyleLoop (gsl_cdf_hypergeometric_Q : Nat → Nat → Nat → Nat → ℚ)
    (elementsList largeSetList genesList : List bedLong) (totalBalls totalPicks : Nat)
    (termAndPvalue : List slNameDouble) : List String → Except String (List slNameDouble)
  | [] => .ok termAndPvalue
  | term :: rest =>
    match bedLongIntersectGoCount largeSetList none genesList (some term) none none with
    | .error e => .error e
    | .ok whiteBalls =>
      hypergeometricNullModelStyleLoop gsl_cdf_hypergeometric_Q elementsList largeSetList
        genesList totalBalls totalPicks
        ({ name := term
           number :=
             if bedLongIntersectThreeGoCount largeSetList none genesList (some term)
                 elementsList none = 0 then 1
             else gsl_cdf_hypergeometric_Q
               (toUnsigned ((bedLongIntersectThreeGoCount largeSetList none genesList
                 (some term) elementsList none : Int) - 1))
               (toUnsigned whiteBalls.count)
               (toUnsigned ((totalBalls : Int) - (whiteBalls.count : Int)))
               (toUnsigned totalPicks) } :: termAndPvalue)
        rest

/-- `hypergeometricNullModelStyle`: the result list. -/
def hypergeometricNullModelStyle (gsl_cdf_hypergeometric_Q : Nat → Nat → Nat → Nat → ℚ)
    (elementsList largeSetList genesList : List bedLong) (goTerms : List String) :
    Except String (List slNameDouble) :=
  hypergeometricNullModelStyleLoop gsl_cdf_hypergeometric_Q elementsList largeSetList genesList
    (slCount largeSetList) (bedLongIntersectCount largeSetList elementsList) [] goTerms

/-- Modelled from the spec: `gsl_cdf_binomial_Q` of the GSL (not part of the sources at hand),
the upper tail `1 - CDF(k; n, p)` of the binomial distribution, that is `P(X > k)` for `n`
trials of success probability `p`. -/
def binomialUpperTail (k : Nat) (p : ℚ) (n : Nat) : ℚ :=
  1 - ((List.range (k + 1)).map (fun i => (Nat.choose n i : ℚ) * p ^ i * (1 - p) ^ (n - i))).sum

/-! ## Output -/

/-- Modelled from the spec: `slSort` of the kent library (`common.h`, not part of the sources
at hand), which sorts a list ascending by the comparator it is given; ties keep their
order here, the library leaves their order open. -/
def slSort (compare : slNameDouble → slNameDouble → Int) (list : List slNameDouble) :
    List slNameDouble :=
  list.insertionSort (fun a b => compare a b ≤ 0)

/-- Modelled from the spec: `hashMustFindVal` of the kent library (`hash.h`, not part of the
sources at hand) on a table kept as the list of its (key, value) entries, the latest first:
the value stored under the key, which a row carries as a column, and the `errAbort` of the
library when the key is absent. -/
def hashMustFindVal (hash : List (String × String)) (name : String) : Except String String :=
  match hash.find? (fun kv => decide (kv.1 = name)) with
  | some kv => .ok kv.2
  | none => .error ("hashMustFindVal: '" ++ name ++ "' not found")

/-- The column that `if(hash != NULL){... hashMustFindVal(hash, curr->name) ...}` adds to a
row: nothing for a `NULL` table, else the value under the term or the `errAbort`. -/
def mustFindColumn (hash : Option (List (String × String))) (name : String) :
    Except String (Option String) :=
  match hash with
  | none => .ok none
  | some table =>
    match hashMustFindVal table name with
    | .error e => .error e
    | .ok val => .ok (some val)

/-- `hashKeyToString`: the names stored under the key, which the source joins with commas,
and `none` for the `NULL` it returns when the key is absent. It has no `errAbort`; the
order in which the names are joined is not part of the model. -/
def hashKeyToString (hash : List (String × String)) (key : String) : Option (List String) :=
  match (hash.filter (fun kv => decide (kv.1 = key))).map (fun kv => kv.2) with
  | [] => none
  | names => some names

/-- One line of the output of `displayResults` as data: term and p-value, then the columns
that are present: the report string, the English text, and the hit names (`some none` when
the hit table has no entry for the term). -/
structure resultRow where
  name : String
  number : ℚ
  params : Option String
  english : Option String
  hits : Option (Option (List String))
  deriving DecidableEq, Repr

/-- The `for` loop of `displayResults`; `printed` are the lines written so far. The columns of
a line are computed before the line is written, so an `errAbort` of `hashMustFindVal` leaves
the line out and ends the run. -/
def displayResultsLoop (optMaxPvalue : ℚ)
    (goToEnglishHash hitsHash paramsHash : Option (List (String × String)))
    (printed : List resultRow) : List slNameDouble → Except String (List resultRow)
  | [] => .ok printed
  | curr :: rest =>
    if curr.number ≤ optMaxPvalue then
      match mustFindColumn paramsHash curr.name with
      | .error e => .error e
      | .ok params =>
        match mustFindColumn goToEnglishHash curr.name with
        | .error e => .error e
        | .ok english =>
          displayResultsLoop optMaxPvalue goToEnglishHash hitsHash paramsHash
            (printed ++ [⟨curr.name, curr.number, params, english,
              hitsHash.map (fun table => hashKeyToString table curr.name)⟩]) rest
    else displayResultsLoop optMaxPvalue goToEnglishHash hitsHash paramsHash printed rest

/-- `displayResults`: sort by `slNameDoubleCmp`, then print the rows within the threshold; the
lines written, or the message of the `errAbort` that ended the run. The global option
`optMaxPvalue` is a parameter, and so is the table `goToEnglishHash` that `fileLoadHash` reads
from the file named by `optGoTermToEnglish` (`none` when the option is `NULL`). -/
def displayResults (optMaxPvalue : ℚ) (goToEnglishHash : Option (List (String × String)))
    (head : List slNameDouble) (hitsHash paramsHash : Option (List (String × String))) :
    Except String (List resultRow) :=
  displayResultsLoop optMaxPvalue goToEnglishHash hitsHash paramsHash []
    (slSort slNameDoubleCmp head)

/-! ## Gene assignments -/

/-- The `while` loop of `stringToLong`: it reads decimal digits from what `p` still has ahead
and returns `res` together with what is left, the end of the list being the terminating
`'\0'`. -/
def stringToLongLoop (res : Int) : List Char → Int × List Char
  | [] => (res, [])
  | c :: rest =>
    if '0' ≤ c ∧ c ≤ '9' then
      stringToLongLoop (wrapLong (wrapLong (res * 10) + ((c.toNat : Int) - ('0'.toNat : Int)))) rest
    else (res, c :: rest)

/-- What `p0` points at after `if (*p0 == '-') p0++`: the text without one leading `-`. -/
def afterSign : List Char → List Char
  | '-' :: rest => rest
  | l => l

/-- `stringToLong`: the number read, or the message of the `errAbort`. The pointer test
`p == p0` holds exactly when the loop has read nothing. -/
def stringToLong (s : String) : Except String Int :=
  if (stringToLongLoop 0 (afterSign s.data)).2 ≠ [] ∨
      (stringToLongLoop 0 (afterSign s.data)).2.length = (afterSign s.data).length then
    .error ("invalid signed number: \"" ++ s ++ "\"")
  else if s.data.head? = some '-' then
    .ok (wrapLong (-(stringToLongLoop 0 (afterSign s.data)).1))
  else
    .ok (stringToLongLoop 0 (afterSign s.data)).1

/-- Modelled from the spec: `slCat` of the kent library (`common.h`, not part of the sources at
hand), the concatenation of two lists, as in the union of the term sets. -/
def slCat (a b : List String) : List String := a ++ b

/-- Modelled from the spec: `slNameCloneList` of the kent library (`common.h`, not part of the
sources at hand), a copy of a list of names. -/
def slNameCloneList (list : List String) : List String := list

/-- Modelled from the spec: `slUniqify` of the kent library (`common.h`, not part of the
sources at hand), called with `slNameCmp`: it removes duplicates. The order of the result
is not part of the model. -/
def slUniqify (list : List String) : List String := list.dedup

/-- The `for` loop of `extractUniqGoTermsFromBedLong`: the terms of each record are put in
front of the terms collected so far. -/
def extractUniqGoTermsLoop (allTerms : List String) : List bedLong → List String
  | [] => allTerms
  | futon :: rest =>
    extractUniqGoTermsLoop (slCat (slNameCloneList futon.goTerms) allTerms) rest

/-- `extractUniqGoTermsFromBedLong`: the terms of all records, duplicates removed. -/
def extractUniqGoTermsFromBedLong (bedLongList : List bedLong) : List String :=
  slUniqify (extractUniqGoTermsLoop [] bedLongList)

/-- The exact value of `res * 10 + digit`, one turn of the `stringToLong` loop without the
reduction to 64 bits. -/
def appendDigit (res : Int) (digit : Nat) : Int := res * 10 + (digit : Int)

/-- The character of a decimal digit `d < 10`. -/
def digitChar (d : Nat) : Char := Char.ofNat (48 + d)

/-- The decimal text of a natural number: its digits, most significant first, `0` for
zero. -/
def decimalText (n : Nat) : List Char :=
  if n = 0 then ['0'] else (Nat.digits 10 n).reverse.map digitChar

/-- A decimal text of an integer: a `-` sign when it is negative, then `zeros` leading
zeros, then the digits of its magnitude. -/
def signedDecimalText (zeros : Nat) (n : Int) : String :=
  ⟨(if n < 0 then ['-'] else []) ++ (List.replicate zeros '0' ++ decimalText n.natAbs)⟩

/-- The strings `stringToLong` is meant to accept: an optional single leading `-`, then one
or more decimal digits, and nothing else. -/
def signedDecimal (s : String) : Prop :=
  ∃ ds : List Char, ds ≠ [] ∧ (∀ c ∈ ds, '0' ≤ c ∧ c ≤ '9') ∧
    (s.data = ds ∨ s.data = '-' :: ds)

/-! ## The sweeps over exact integers -/

/-- The accounting of `addOverlap` over exact integers: the sum grows by the exact length. -/
def addOverlapExact (st : baseCounter) (overlapStart overlapEnd : Int) : baseCounter :=
  { st with
    sum :=
      if overlapStart ≥ st.prevEnd then st.sum + (overlapEnd - overlapStart)
      else if overlapEnd > st.prevEnd then st.sum + (overlapEnd - st.prevEnd)
      else st.sum
    prevEnd := maxLong st.prevEnd overlapEnd }

/-- The part of the loop body of `bedLongIntersectBases` before the cursor moves, over exact
integers. -/
def intersectBasesBodyExact (st : baseCounter) (futon bunk : bedLong) : baseCounter :=
  if bedLongOverlap futon bunk then
    addOverlapExact (resetWatermark st futon.chrom)
      (maxLong futon.chromStart bunk.chromStart) (minLong futon.chromEnd bunk.chromEnd)
  else resetWatermark st futon.chrom

/-- The `while` loop of `bedLongIntersectBases` over exact integers. -/
def bedLongIntersectBasesLoopExact (st : baseCounter) : List bedLong → List bedLong → Int
  | [], _ => st.sum
  | _ :: _, [] => st.sum
  | futon :: fs, bunk :: bs =>
    if bedLongCmpEnd futon bunk ≤ 0 then
      bedLongIntersectBasesLoopExact (intersectBasesBodyExact st futon bunk) fs (bunk :: bs)
    else
      bedLongIntersectBasesLoopExact (intersectBasesBodyExact st futon bunk) (futon :: fs) bs
termination_by l1 l2 => l1.length + l2.length

/-- The sweep of `bedLongIntersectBases` over exact integers: what the program returns as long
as the sum stays within the range of `long`. -/
def bedLongIntersectBasesExact (bedLongListA bedLongListB : List bedLong) : Option Int :=
  match bedLongListA with
  | [] => none
  | futon :: _ =>
    some (bedLongIntersectBasesLoopExact ⟨futon.chrom, 0, 0⟩ bedLongListA bedLongListB)

/-- The body of the `for` loop of `bedLongBases` over exact integers. -/
def basesBodyExact (st : baseCounter) (futon : bedLong) : baseCounter :=
  { resetWatermark st futon.chrom with
    sum :=
      if futon.chromStart > (resetWatermark st futon.chrom).prevEnd then
        (resetWatermark st futon.chrom).sum + (futon.chromEnd - futon.chromStart)
      else if futon.chromEnd > (resetWatermark st futon.chrom).prevEnd then
        (resetWatermark st futon.chrom).sum +
          (futon.chromEnd - (resetWatermark st futon.chrom).prevEnd)
      else (resetWatermark st futon.chrom).sum
    prevEnd := maxLong (resetWatermark st futon.chrom).prevEnd futon.chromEnd }

/-- The `for` loop of `bedLongBases` over exact integers. -/
def bedLongBasesLoopExact (st : baseCounter) : List bedLong → Int
  | [] => st.sum
  | futon :: rest => bedLongBasesLoopExact (basesBodyExact st futon) rest

/-- The sweep of `bedLongBases` over exact integers: what the program returns as long as the
sum stays within the range of `long`. -/
def bedLongBasesExact (bedLongList : List bedLong) : Option Int :=
  match bedLongList with
  | [] => none
  | futon :: _ => some (bedLongBasesLoopExact ⟨futon.chrom, 0, 0⟩ bedLongList)

/-- The loop of `expandBedLongListByDistance` over exact integers: what the program writes as
long as `start - distance` and `end + distance` stay within the range of `long`. -/
def expandBedLongListByDistanceExact (bedLongList : List bedLong) (distance : Int) : List bedLong :=
  match bedLongList with
  | [] => []
  | futon :: rest =>
    { futon with
      chromStart := maxLong 0 (futon.chromStart - distance)
      chromEnd := futon.chromEnd + distance } :: expandBedLongListByDistanceExact rest distance

/-- The first `if` of the loop body of `expandBedLongListToNeighbor` over exact integers. -/
def neighborChromCheckExact (distance : Int) (st : neighborSweep) (curr : bedLong) : neighborSweep :=
  match st.prev with
  | none => st
  | some (p, between) =>
    if strcmp p.chrom curr.chrom ≠ 0 then
      { before := st.before ++ { p with chromEnd := p.chromEnd + distance } :: between
        prev := none }
    else st

/-- The statement `if(curr->next == NULL){curr->chromEnd += distance;}` over exact integers. -/
def trailingEdgeExact (distance : Int) (isLast : Bool) (curr : bedLong) : bedLong :=
  if isLast then { curr with chromEnd := curr.chromEnd + distance } else curr

/-- The body of the `expandBedLongListToNeighbor` loop with its sums, differences and the
product `2 * distance` taken over exact integers. The final `else` of the source is the
`errAbort`. -/
def neighborBodyExact (distance : Int) (st : neighborSweep) (curr : bedLong) (isLast : Bool) :
    Except String neighborSweep :=
  match (neighborChromCheckExact distance st curr).prev with
  | none =>
    .ok { before := (neighborChromCheckExact distance st curr).before
          prev := some (trailingEdgeExact distance isLast
            { curr with chromStart := maxLong 0 (curr.chromStart - distance) }, []) }
  | some (p, between) =>
    if curr.chromStart - p.chromEnd ≥ 2 * distance then
      .ok { before := (neighborChromCheckExact distance st curr).before ++
              { p with chromEnd := p.chromEnd + distance } :: between
            prev := some (trailingEdgeExact distance isLast
              { curr with chromStart := maxLong 0 (curr.chromStart - distance) }, []) }
    else if curr.chromStart - p.chromEnd ≥ 0 then
      .ok { before := (neighborChromCheckExact distance st curr).before ++
              { p with chromEnd := Int.tdiv (curr.chromStart + p.chromEnd) 2 } :: between
            prev := some (trailingEdgeExact distance isLast
              { curr with chromStart := Int.tdiv (curr.chromStart + p.chromEnd) 2 }, []) }
    else if curr.chromEnd - p.chromEnd ≥ 0 then
      .ok { before := (neighborChromCheckExact distance st curr).before ++ p :: between
            prev := some (trailingEdgeExact distance isLast curr, []) }
    else if curr.chromEnd < p.chromEnd then
      .ok { before := (neighborChromCheckExact distance st curr).before
            prev := some (p, between ++ [trailingEdgeExact distance isLast curr]) }
    else
      .error "should not exhaust this if statement"

/-- The `for` loop of `expandBedLongListToNeighbor` over exact integers. -/
def expandBedLongListToNeighborLoopExact (distance : Int) (st : neighborSweep) :
    List bedLong → Except String (List bedLong)
  | [] => .ok st.toList
  | curr :: rest =>
    match neighborBodyExact distance st curr rest.isEmpty with
    | .error e => .error e
    | .ok st1 => expandBedLongListToNeighborLoopExact distance st1 rest

/-- The sweep of `expandBedLongListToNeighbor` with coordinates as exact integers: what the
program writes as long as no sum leaves the range of `long`. -/
def expandBedLongListToNeighborExact (bedLongList : List bedLong) (distance : Int) :
    Except String (List bedLong) :=
  expandBedLongListToNeighborLoopExact distance { before := [], prev := none } bedLongList

/-! ## Preconditions of the sweeps -/

/-- Sorted ascending by `(chrom, start)`: `bedLongCmp` never puts an element after its successor. -/
def sortedByStart (l : List bedLong) : Prop :=
  List.Chain' (fun a b => bedLongCmp a b ≤ 0) l

instance (l : List bedLong) : Decidable (sortedByStart l) :=
  inferInstanceAs (Decidable (List.Chain' (fun a b => bedLongCmp a b ≤ 0) l))

/-- Every interval has positive length. -/
def positiveLength (l : List bedLong) : Prop := ∀ a ∈ l, a.chromStart < a.chromEnd

instance (l : List bedLong) : Decidable (positiveLength l) :=
  inferInstanceAs (Decidable (∀ a ∈ l, a.chromStart < a.chromEnd))

/-- Every interval starts at a non-negative coordinate. -/
def nonNegStart (l : List bedLong) : Prop := ∀ a ∈ l, 0 ≤ a.chromStart

instance (l : List bedLong) : Decidable (nonNegStart l) :=
  inferInstanceAs (Decidable (∀ a ∈ l, 0 ≤ a.chromStart))

/-- The gap rule of the neighbour bounded expansion at position `i`: if the records at
positions `i` and `i + 1` lie on one chromosome with gap `g = curr.start - prev.end >= 0`,
the expansion returns a list whose records at these positions are `g - 2 * d` apart when
`g >= 2 * d`, and otherwise meet at `(curr.start + prev.end) / 2`. -/
def gapRule (l : List bedLong) (d : Int) (i : Nat) : Prop :=
  ∀ p c : bedLong, l[i]? = some p → l[i + 1]? = some c → p.chrom = c.chrom →
    0 ≤ c.chromStart - p.chromEnd →
    ∃ (r : List bedLong) (p1 c1 : bedLong),
      expandBedLongListToNeighbor l d = .ok r ∧ r[i]? = some p1 ∧ r[i + 1]? = some c1 ∧
      (if c.chromStart - p.chromEnd ≥ 2 * d then
        c1.chromStart - p1.chromEnd = c.chromStart - p.chromEnd - 2 * d
       else
        p1.chromEnd = (c.chromStart + p.chromEnd) / 2 ∧
          c1.chromStart = (c.chromStart + p.chromEnd) / 2)

/-- The gap rule at position `i` for the sweep over exact integers. -/
def gapRuleExact (l : List bedLong) (d : Int) (i : Nat) : Prop :=
  ∀ p c : bedLong, l[i]? = some p → l[i + 1]? = some c → p.chrom = c.chrom →
    0 ≤ c.chromStart - p.chromEnd →
    ∃ (r : List bedLong) (p1 c1 : bedLong),
      expandBedLongListToNeighborExact l d = .ok r ∧ r[i]? = some p1 ∧ r[i + 1]? = some c1 ∧
      (if c.chromStart - p.chromEnd ≥ 2 * d then
        c1.chromStart - p1.chromEnd = c.chromStart - p.chromEnd - 2 * d
       else
        p1.chromEnd = (c.chromStart + p.chromEnd) / 2 ∧
          c1.chromStart = (c.chromStart + p.chromEnd) / 2)

/-- The trailing edge rule of the neighbour bounded expansion at position `i`: if the record
at position `i` is the last of the list, or the last before the chromosome changes, the
expansion returns a list whose record at that position ends at `end + d`. -/
def trailingRule (l : List bedLong) (d : Int) (i : Nat) : Prop :=
  ∀ p : bedLong, l[i]? = some p →
    (l[i + 1]? = none ∨ ∃ c : bedLong, l[i + 1]? = some c ∧ c.chrom ≠ p.chrom) →
    ∃ (r : List bedLong) (p1 : bedLong),
      expandBedLongListToNeighbor l d = .ok r ∧ r[i]? = some p1 ∧
        p1.chromEnd = p.chromEnd + d

/-- The trailing edge rule at position `i` for the sweep over exact integers. -/
def trailingRuleExact (l : List bedLong) (d : Int) (i : Nat) : Prop :=
  ∀ p : bedLong, l[i]? = some p →
    (l[i + 1]? = none ∨ ∃ c : bedLong, l[i + 1]? = some c ∧ c.chrom ≠ p.chrom) →
    ∃ (r : List bedLong) (p1 : bedLong),
      expandBedLongListToNeighborExact l d = .ok r ∧ r[i]? = some p1 ∧
        p1.chromEnd = p.chromEnd + d

/-- The sort key of a record: chromosome and start, all that `bedLongCmp` looks at. -/
def bedKey (x : bedLong) : String × Int := (x.chrom, x.chromStart)

/-- The order of `bedLongCmp` on sort keys: an earlier chromosome, or the same chromosome and
a start that is not larger. -/
def keyLe (a b : String × Int) : Prop :=
  strcmp a.1 b.1 < 0 ∨ (a.1 = b.1 ∧ a.2 ≤ b.2)

/-- What the neighbour expansion loop keeps true of its state `st` and of the records `rest`
still ahead when it runs on a sorted list: the records passed are sorted, they precede the
records ahead, `prev` is `NULL` only before the first record, the record `prev` points at
has `start <= end`, `0 <= end`, and the records passed since lie on its chromosome and
start before its end. -/
def sortedSweep (st : neighborSweep) (rest : List bedLong) : Prop :=
  (st.toList.map bedKey).Pairwise keyLe ∧
  (∀ k ∈ st.toList.map bedKey, ∀ y ∈ rest, keyLe k (bedKey y)) ∧
  (st.prev = none → st.before = []) ∧
  (∀ p bt, st.prev = some (p, bt) →
    p.chromStart ≤ p.chromEnd ∧ 0 ≤ p.chromEnd ∧
      ∀ x ∈ bt, x.chrom = p.chrom ∧ x.chromStart ≤ p.chromEnd) ∧
  rest.Pairwise (fun a b => bedLongCmp a b ≤ 0) ∧ positiveLength rest ∧ nonNegStart rest

/-- The record `a` lies wholly before the record `b`: on an earlier chromosome, or on the
same chromosome and ending where `b` starts or earlier. -/
def sepBefore (a b : bedLong) : Prop :=
  strcmp a.chrom b.chrom < 0 ∨ (a.chrom = b.chrom ∧ a.chromEnd ≤ b.chromStart)

/-- What the neighbour expansion loop keeps true of its state `st` and of the records `rest`
still ahead when it runs on a sorted list without overlaps: each record passed lies wholly
before the later ones and has `start <= end`, `prev` is `NULL` only before the first record,
no record was skipped since `prev`, and the record `prev` points at lies wholly before the
records ahead. -/
def apartSweep (st : neighborSweep) (rest : List bedLong) : Prop :=
  st.toList.Pairwise sepBefore ∧
  (∀ x ∈ st.toList, x.chromStart ≤ x.chromEnd) ∧
  (st.prev = none → st.before = []) ∧
  (∀ p bt, st.prev = some (p, bt) → bt = [] ∧ 0 ≤ p.chromEnd ∧ ∀ y ∈ rest, sepBefore p y) ∧
  rest.Pairwise sepBefore ∧ positiveLength rest ∧ nonNegStart rest

/-- Two records that differ at most in how often a term is written in the term list. -/
def sameUpToTermRepeats (b c : bedLong) : Prop :=
  b.chrom = c.chrom ∧ b.chromStart = c.chromStart ∧ b.chromEnd = c.chromEnd ∧
    b.name = c.name ∧ b.strand = c.strand ∧ ∀ t, t ∈ b.goTerms ↔ t ∈ c.goTerms

/-- Two gene lists that differ at most in the order of the records and in how often a record
or a term is repeated: each record of one list is, up to repeated terms, a record of the
other. -/
def sameUpToRepeats (l1 l2 : List bedLong) : Prop :=
  (∀ b ∈ l1, ∃ c ∈ l2, sameUpToTermRepeats b c) ∧
    (∀ c ∈ l2, ∃ b ∈ l1, sameUpToTermRepeats b c)

/-- The sublist, order kept, of the records that carry the term; an absent term filters
nothing. -/
def carrying (goTerm : Option String) (l : List bedLong) : List bedLong :=
  match goTerm with
  | none => l
  | some t => l.filter (fun b => decide (t ∈ b.goTerms))

/-- The record `x1` is the record `x` with its boundaries moved outwards by at most `d`, the
start not below `0`: same chromosome, `max(0, start - d) <= start1 <= start` and
`end <= end1 <= end + d`. -/
def withinReach (d : Int) (x x1 : bedLong) : Prop :=
  x1.chrom = x.chrom ∧ max 0 (x.chromStart - d) ≤ x1.chromStart ∧
    x1.chromStart ≤ x.chromStart ∧ x.chromEnd ≤ x1.chromEnd ∧ x1.chromEnd ≤ x.chromEnd + d

/-- The interval of `x1` lies within the interval of `y`, on the same chromosome. -/
def containedIn (x1 y : bedLong) : Prop :=
  x1.chrom = y.chrom ∧ y.chromStart ≤ x1.chromStart ∧ x1.chromEnd ≤ y.chromEnd

/-- What the neighbour expansion loop keeps true of its state `st` and of the records `rest`
still ahead when it runs on the list `l`: the records passed are, one by one, the records of
`l` before `rest` with boundaries moved outwards by at most `d`, and while records are ahead
the record `prev` points at still has the end it had in `l`. -/
def reachSweep (l : List bedLong) (d : Int) (st : neighborSweep) (rest : List bedLong) : Prop :=
  ∃ pre, l = pre ++ rest ∧
    (st.prev = none → List.Forall₂ (withinReach d) pre st.before) ∧
    (∀ p bt, st.prev = some (p, bt) →
      ∃ pre1 o pre2, pre = pre1 ++ o :: pre2 ∧
        List.Forall₂ (withinReach d) pre1 st.before ∧ withinReach d o p ∧
        (rest ≠ [] → p.chromEnd = o.chromEnd) ∧ List.Forall₂ (withinReach d) pre2 bt)

/-- The number `x` is a value of a `long`: `-2^63 <= x < 2^63`. -/
def inLongRange (x : Int) : Prop := -9223372036854775808 ≤ x ∧ x < 9223372036854775808

instance (x : Int) : Decidable (inLongRange x) :=
  inferInstanceAs (Decidable (-9223372036854775808 ≤ x ∧ x < 9223372036854775808))

/-- Every coordinate of the list lies strictly between `-2^62` and `2^62`, so that no sum or
difference of two of them leaves the range of `long`. -/
def smallCoordinates (l : List bedLong) : Prop :=
  ∀ a ∈ l, -4611686018427387904 < a.chromStart ∧ a.chromStart < 4611686018427387904 ∧
    -4611686018427387904 < a.chromEnd ∧ a.chromEnd < 4611686018427387904

instance (l : List bedLong) : Decidable (smallCoordinates l) :=
  inferInstanceAs (Decidable (∀ a ∈ l,
    -4611686018427387904 < a.chromStart ∧ a.chromStart < 4611686018427387904 ∧
    -4611686018427387904 < a.chromEnd ∧ a.chromEnd < 4611686018427387904))

/-- The term can be looked up in the table when there is a table: some entry of the table has
the term as its key. -/
def hasKey (hash : Option (List (String × String))) (name : String) : Prop :=
  ∀ table, hash = some table → ∃ val, (name, val) ∈ table

/-! ## Covered bases -/

/-- The bases of one interval: the pairs `(chrom, position)` with
`chromStart ≤ position < chromEnd`. -/
def basesOf (a : bedLong) : Finset (String × Int) :=
  ({a.chrom} : Finset String) ×ˢ Finset.Ico a.chromStart a.chromEnd

/-- The set of distinct `(chrom, position)` bases covered by at least one interval of a
list. -/
def coveredBases : List bedLong → Finset (String × Int)
  | [] => ∅
  | a :: rest => basesOf a ∪ coveredBases rest

/-- The bases already behind the watermark of a counter: those on chromosome `prevChr` at a
position below `prevEnd`. -/
def behind (st : baseCounter) (x : String × Int) : Prop :=
  x.1 = st.prevChr ∧ x.2 < st.prevEnd

instance (st : baseCounter) (x : String × Int) : Decidable (behind st x) :=
  inferInstanceAs (Decidable (x.1 = st.prevChr ∧ x.2 < st.prevEnd))

/-- No two intervals of the list overlap each other. -/
def noSelfOverlap (l : List bedLong) : Prop :=
  l.Pairwise (fun a b => bedLongOverlap a b = false)

theorem strcmpAux_eq_zero : ∀ (a b : List Char), strcmpAux a b = 0 ↔ a = b
  | [], [] => by simp [strcmpAux]
  | [], _ :: _ => by simp [strcmpAux]
  | _ :: _, [] => by simp [strcmpAux]
  | a :: as, b :: bs => by
    have ih := strcmpAux_eq_zero as bs
    simp only [strcmpAux, List.cons.injEq]
    by_cases h1 : a.toNat < b.toNat
    · have : a ≠ b := by rintro rfl; omega
      simp [h1, this]
    · by_cases h2 : b.toNat < a.toNat
      · have : a ≠ b := by rintro rfl; omega
        simp [h1, h2, this]
      · have hab : a = b := by
          apply Char.ext
          apply UInt32.ext
          have : a.toNat = b.toNat := by omega
          exact this
        simp [h1, h2, hab, ih]

theorem strcmpAux_neg : ∀ (a b : List Char), strcmpAux b a = - strcmpAux a b
  | [], [] => by simp [strcmpAux]
  | [], _ :: _ => by simp [strcmpAux]
  | _ :: _, [] => by simp [strcmpAux]
  | a :: as, b :: bs => by
    have ih := strcmpAux_neg as bs
    simp only [strcmpAux]
    split_ifs <;> omega

theorem strcmpAux_le_trans : ∀ (a b c : List Char),
    strcmpAux a b ≤ 0 → strcmpAux b c ≤ 0 → strcmpAux a c ≤ 0
  | [], _, [] => by simp [strcmpAux]
  | [], _, _ :: _ => by simp [strcmpAux]
  | _ :: _, [], _ => by simp [strcmpAux]
  | _ :: _, _ :: _, [] => by simp [strcmpAux]
  | a :: as, b :: bs, c :: cs => by
    have ih := strcmpAux_le_trans as bs cs
    simp only [strcmpAux]
    split_ifs <;> omega

theorem strcmp_eq_zero (a b : String) : strcmp a b = 0 ↔ a = b := by
  unfold strcmp
  rw [strcmpAux_eq_zero]
  constructor
  · intro h; exact String.ext h
  · intro h; rw [h]

theorem strcmp_self (a : String) : strcmp a a = 0 := (strcmp_eq_zero a a).2 rfl

theorem strcmp_neg (a b : String) : strcmp b a = - strcmp a b := strcmpAux_neg _ _

theorem strcmp_le_trans {a b c : String} (h1 : strcmp a b ≤ 0) (h2 : strcmp b c ≤ 0) :
    strcmp a c ≤ 0 := strcmpAux_le_trans _ _ _ h1 h2

theorem strcmp_lt_of_lt_of_le {a b c : String} (h1 : strcmp a b < 0) (h2 : strcmp b c ≤ 0) :
    strcmp a c < 0 := by
  have h3 := strcmp_le_trans (le_of_lt h1) h2
  rcases lt_or_eq_of_le h3 with h | h
  · exact h
  · exfalso
    rw [strcmp_eq_zero] at h
    subst h
    have := strcmp_neg a b
    omega

theorem strcmp_lt_of_le_of_lt {a b c : String} (h1 : strcmp a b ≤ 0) (h2 : strcmp b c < 0) :
    strcmp a c < 0 := by
  have h3 := strcmp_le_trans h1 (le_of_lt h2)
  rcases lt_or_eq_of_le h3 with h | h
  · exact h
  · exfalso
    rw [strcmp_eq_zero] at h
    subst h
    have := strcmp_neg a b
    omega

theorem bedLongCmp_le_iff (a b : bedLong) :
    bedLongCmp a b ≤ 0 ↔
      strcmp a.chrom b.chrom < 0 ∨ (a.chrom = b.chrom ∧ a.chromStart ≤ b.chromStart) := by
  unfold bedLongCmp
  by_cases h : strcmp a.chrom b.chrom = 0
  · have hc := (strcmp_eq_zero _ _).1 h
    simp only [h, ne_eq, not_true_eq_false, if_false, lt_self_iff_false, false_or]
    simp only [hc, true_and]
    split_ifs <;> omega
  · have hc : a.chrom ≠ b.chrom := fun e => h ((strcmp_eq_zero _ _).2 e)
    simp only [ne_eq, h, not_false_eq_true, if_true, hc, false_and, or_false]
    omega

theorem bedLongCmp_le_trans {a b c : bedLong} (h1 : bedLongCmp a b ≤ 0)
    (h2 : bedLongCmp b c ≤ 0) : bedLongCmp a c ≤ 0 := by
  rw [bedLongCmp_le_iff] at *
  rcases h1 with h1 | ⟨e1, s1⟩
  · rcases h2 with h2 | ⟨e2, _⟩
    · exact Or.inl (strcmp_lt_of_lt_of_le h1 (le_of_lt h2))
    · rw [← e2]; exact Or.inl h1
  · rcases h2 with h2 | ⟨e2, s2⟩
    · rw [e1]; exact Or.inl h2
    · exact Or.inr ⟨e1.trans e2, le_trans s1 s2⟩

theorem sortedByStart_pairwise {l : List bedLong} (h : sortedByStart l) :
    l.Pairwise (fun a b => bedLongCmp a b ≤ 0) := by
  haveI : IsTrans bedLong (fun a b => bedLongCmp a b ≤ 0) := ⟨fun _ _ _ => bedLongCmp_le_trans⟩
  exact List.chain'_iff_pairwise.1 h

theorem bedLongOverlap_iff (a b : bedLong) :
    bedLongOverlap a b = true ↔
      a.chrom = b.chrom ∧ a.chromStart < a.chromEnd ∧ a.chromStart < b.chromEnd ∧
        b.chromStart < a.chromEnd ∧ b.chromStart < b.chromEnd := by
  unfold bedLongOverlap minLong maxLong
  by_cases h : strcmp a.chrom b.chrom = 0
  · have hc := (strcmp_eq_zero _ _).1 h
    simp only [h, if_true]
    simp only [hc, true_and]
    split_ifs <;> simp <;> omega
  · have hc : a.chrom ≠ b.chrom := fun e => h ((strcmp_eq_zero _ _).2 e)
    simp [h, hc]

theorem pairwise_head_le {a : bedLong} {l : List bedLong}
    (h : (a :: l).Pairwise (fun a b => bedLongCmp a b ≤ 0)) :
    ∀ x ∈ l, strcmp a.chrom x.chrom < 0 ∨ (a.chrom = x.chrom ∧ a.chromStart ≤ x.chromStart) := by
  intro x hx
  exact (bedLongCmp_le_iff a x).1 ((List.pairwise_cons.1 h).1 x hx)

theorem strcmp_lt_ne {a b : String} (h : strcmp a b < 0) : a ≠ b := by
  intro e
  have := (strcmp_eq_zero a b).2 e
  omega

theorem maxLong_eq (a b : Int) : maxLong a b = max a b := by
  unfold maxLong; split_ifs <;> omega

theorem minLong_eq (a b : Int) : minLong a b = min a b := by
  unfold minLong; split_ifs <;> omega

theorem mem_basesOf (a : bedLong) (x : String × Int) :
    x ∈ basesOf a ↔ x.1 = a.chrom ∧ a.chromStart ≤ x.2 ∧ x.2 < a.chromEnd := by
  rw [basesOf, Finset.mem_product, Finset.mem_singleton, Finset.mem_Ico]

theorem mem_coveredBases (l : List bedLong) (x : String × Int) :
    x ∈ coveredBases l ↔ ∃ a ∈ l, x ∈ basesOf a := by
  induction l with
  | nil => simp [coveredBases]
  | cons a rest ih => simp [coveredBases, ih]

theorem card_span (c : String) (lo hi : Int) :
    ((({c} : Finset String) ×ˢ Finset.Ico lo hi).card : Int) = (hi - lo).toNat := by
  simp [Finset.card_product]

theorem resetWatermark_prevChr (st : baseCounter) (c : String) :
    (resetWatermark st c).prevChr = c := by
  unfold resetWatermark
  split_ifs with h
  · rfl
  · simp only [ne_eq, not_not] at h
    exact (strcmp_eq_zero _ _).1 h

theorem resetWatermark_sum (st : baseCounter) (c : String) :
    (resetWatermark st c).sum = st.sum := by
  unfold resetWatermark
  split_ifs <;> rfl

theorem resetWatermark_prevEnd (st : baseCounter) (c : String) :
    (resetWatermark st c).prevEnd = if st.prevChr = c then st.prevEnd else 0 := by
  unfold resetWatermark
  by_cases h : strcmp st.prevChr c = 0
  · rw [if_neg (by simpa using h), if_pos ((strcmp_eq_zero _ _).1 h)]
  · rw [if_pos h, if_neg (fun e => h ((strcmp_eq_zero _ _).2 e))]

/-- The bases of one interval that are not behind a watermark on its own chromosome. -/
theorem card_basesOf_not_behind (a : bedLong) (st : baseCounter) (hc : st.prevChr = a.chrom) :
    (((basesOf a).filter (fun x => ¬ behind st x)).card : Int) =
      (a.chromEnd - max a.chromStart st.prevEnd).toNat := by
  have : (basesOf a).filter (fun x => ¬ behind st x) =
      ({a.chrom} : Finset String) ×ˢ Finset.Ico (max a.chromStart st.prevEnd) a.chromEnd := by
    ext x
    simp only [Finset.mem_filter, mem_basesOf, behind, Finset.mem_product, Finset.mem_singleton,
      Finset.mem_Ico, hc]
    constructor
    · rintro ⟨⟨h1, h2, h3⟩, h4⟩
      have : ¬ x.2 < st.prevEnd := fun h => h4 ⟨h1, h⟩
      exact ⟨h1, by omega, h3⟩
    · rintro ⟨h1, h2, h3⟩
      exact ⟨⟨h1, by omega, h3⟩, fun h => by omega⟩
  rw [this, card_span]

/-! ## The single list base count -/

theorem strcmp_antisymm {a b : String} (h1 : strcmp a b ≤ 0) (h2 : strcmp b a ≤ 0) : a = b := by
  have := strcmp_neg a b
  exact (strcmp_eq_zero a b).1 (by omega)

theorem covered_head {a : bedLong} {rest : List bedLong} {x : String × Int}
    (hs : (a :: rest).Pairwise (fun a b => bedLongCmp a b ≤ 0))
    (hx : x ∈ coveredBases (a :: rest)) :
    strcmp a.chrom x.1 ≤ 0 ∧ (x.1 = a.chrom → a.chromStart ≤ x.2) := by
  rw [mem_coveredBases] at hx
  obtain ⟨r, hr, hxr⟩ := hx
  rw [mem_basesOf] at hxr
  rcases List.mem_cons.1 hr with rfl | hr
  · rw [hxr.1]
    exact ⟨le_of_eq (strcmp_self _), fun _ => hxr.2.1⟩
  · rcases pairwise_head_le hs r hr with h | ⟨h, hs⟩
    · rw [hxr.1]
      exact ⟨le_of_lt h, fun e => absurd e.symm (strcmp_lt_ne h)⟩
    · rw [hxr.1, ← h]
      exact ⟨le_of_eq (strcmp_self _), fun _ => le_trans hs hxr.2.1⟩

theorem covered_nonneg {l : List bedLong} {x : String × Int} (h0 : nonNegStart l)
    (hx : x ∈ coveredBases l) : 0 ≤ x.2 := by
  rw [mem_coveredBases] at hx
  obtain ⟨r, hr, hxr⟩ := hx
  rw [mem_basesOf] at hxr
  exact le_trans (h0 r hr) hxr.2.1

theorem behind_reset (st : baseCounter) (c : String) (x : String × Int)
    (hst : strcmp st.prevChr c ≤ 0) (hx : strcmp c x.1 ≤ 0) (hp : 0 ≤ x.2) :
    behind (resetWatermark st c) x ↔ behind st x := by
  unfold behind
  rw [resetWatermark_prevChr, resetWatermark_prevEnd]
  by_cases h : st.prevChr = c
  · rw [if_pos h, h]
  · rw [if_neg h]
    constructor
    · rintro ⟨_, h2⟩; omega
    · rintro ⟨h1, _⟩
      rw [h1] at hx
      exact absurd (strcmp_antisymm hst hx) h

theorem bedLongBasesLoop_spec : ∀ (l : List bedLong) (st : baseCounter),
    l.Pairwise (fun a b => bedLongCmp a b ≤ 0) → positiveLength l → nonNegStart l →
    (∀ a ∈ l.head?, strcmp st.prevChr a.chrom ≤ 0) →
    bedLongBasesLoopExact st l =
      st.sum + (((coveredBases l).filter (fun x => ¬ behind st x)).card : Int)
  | [], st => by
    intro _ _ _ _
    simp [bedLongBasesLoopExact, coveredBases]
  | a :: rest, st => by
    intro hs hv h0 hst
    have hst : strcmp st.prevChr a.chrom ≤ 0 := hst a (by simp)
    have hs2 := (List.pairwise_cons.1 hs).2
    have hpos := hv a (List.mem_cons_self _ _)
    have hnn := h0 a (List.mem_cons_self _ _)
    have hhead : ∀ r ∈ rest.head?, strcmp (basesBodyExact st a).prevChr r.chrom ≤ 0 := by
      intro r hr
      have hr_mem : r ∈ rest := List.mem_of_mem_head? hr
      have hchr : (basesBodyExact st a).prevChr = a.chrom := by
        simp only [basesBodyExact]; exact resetWatermark_prevChr st a.chrom
      rw [hchr]
      rcases pairwise_head_le hs r hr_mem with h | ⟨h, _⟩
      · exact le_of_lt h
      · rw [h]; exact le_of_eq (strcmp_self _)
    rw [bedLongBasesLoopExact, bedLongBasesLoop_spec rest (basesBodyExact st a) hs2
      (fun x hx => hv x (List.mem_cons_of_mem _ hx))
      (fun x hx => h0 x (List.mem_cons_of_mem _ hx)) hhead]
    -- the counter right after the chromosome check
    have hc1 : (resetWatermark st a.chrom).prevChr = a.chrom := resetWatermark_prevChr _ _
    have hfirst := card_basesOf_not_behind a (resetWatermark st a.chrom) hc1
    have hsum : (basesBodyExact st a).sum = st.sum +
        (((basesOf a).filter (fun x => ¬ behind (resetWatermark st a.chrom) x)).card : Int) := by
      rw [hfirst]
      simp only [basesBodyExact, resetWatermark_sum]
      split_ifs <;> omega
    -- split the covered bases beyond the watermark
    have hsplit := Finset.filter_card_add_filter_neg_card_eq_card
      (s := (coveredBases (a :: rest)).filter (fun x => ¬ behind st x)) (fun x => x ∈ basesOf a)
    have hA : ((coveredBases (a :: rest)).filter (fun x => ¬ behind st x)).filter
        (fun x => x ∈ basesOf a) =
        (basesOf a).filter (fun x => ¬ behind (resetWatermark st a.chrom) x) := by
      ext x
      simp only [Finset.mem_filter]
      constructor
      · rintro ⟨⟨hx, hb⟩, hxa⟩
        have hh := covered_head hs hx
        exact ⟨hxa, fun hb1 => hb ((behind_reset st a.chrom x hst hh.1 (covered_nonneg h0 hx)).1 hb1)⟩
      · rintro ⟨hxa, hb⟩
        have hx : x ∈ coveredBases (a :: rest) := by
          simp only [coveredBases, Finset.mem_union]; exact Or.inl hxa
        have hh := covered_head hs hx
        exact ⟨⟨hx, fun hb1 => hb ((behind_reset st a.chrom x hst hh.1 (covered_nonneg h0 hx)).2 hb1)⟩, hxa⟩
    have hB : ((coveredBases (a :: rest)).filter (fun x => ¬ behind st x)).filter
        (fun x => ¬ x ∈ basesOf a) =
        (coveredBases rest).filter (fun x => ¬ behind (basesBodyExact st a) x) := by
      ext x
      have hbody : behind (basesBodyExact st a) x ↔
          x.1 = a.chrom ∧ x.2 < max (resetWatermark st a.chrom).prevEnd a.chromEnd := by
        simp only [behind, basesBodyExact, maxLong_eq, hc1]
      simp only [Finset.mem_filter, hbody]
      constructor
      · rintro ⟨⟨hx, hb⟩, hxa⟩
        have hh := covered_head hs hx
        have hb1 : ¬ behind (resetWatermark st a.chrom) x := fun hb1 =>
          hb ((behind_reset st a.chrom x hst hh.1 (covered_nonneg h0 hx)).1 hb1)
        simp only [coveredBases, Finset.mem_union] at hx
        rcases hx with hx | hx
        · exact absurd hx hxa
        · refine ⟨hx, ?_⟩
          rintro ⟨e1, e2⟩
          have h3 := hh.2 e1
          rw [mem_basesOf] at hxa
          simp only [behind, hc1] at hb1
          have : ¬ x.2 < (resetWatermark st a.chrom).prevEnd := fun h => hb1 ⟨e1, h⟩
          have : ¬ x.2 < a.chromEnd := fun h => hxa ⟨e1, h3, h⟩
          omega
      · rintro ⟨hx, hb⟩
        have hx2 : x ∈ coveredBases (a :: rest) := by
          simp only [coveredBases, Finset.mem_union]; exact Or.inr hx
        have hh := covered_head hs hx2
        refine ⟨⟨hx2, ?_⟩, ?_⟩
        · intro hb0
          have hb1 := (behind_reset st a.chrom x hst hh.1 (covered_nonneg h0 hx2)).2 hb0
          simp only [behind, hc1] at hb1
          exact hb ⟨hb1.1, by have := hb1.2; omega⟩
        · intro hxa
          rw [mem_basesOf] at hxa
          exact hb ⟨hxa.1, by have := hxa.2.2; omega⟩
    rw [hA, hB] at hsplit
    rw [hsum]
    have := congrArg (fun n : Nat => (n : Int)) hsplit
    simp only [Nat.cast_add] at this
    omega

theorem bedLongBases_eq_card {L : List bedLong} (hne : L ≠ [])
    (hs : sortedByStart L) (hv : positiveLength L) (h0 : nonNegStart L) :
    bedLongBasesExact L = some ((coveredBases L).card : Int) := by
  cases L with
  | nil => exact absurd rfl hne
  | cons a rest =>
    simp only [bedLongBasesExact]
    rw [bedLongBasesLoop_spec (a :: rest) ⟨a.chrom, 0, 0⟩ (sortedByStart_pairwise hs) hv h0
      (by intro r hr; simp at hr; subst hr; exact le_of_eq (strcmp_self _))]
    have : (coveredBases (a :: rest)).filter (fun x => ¬ behind ⟨a.chrom, 0, 0⟩ x) =
        coveredBases (a :: rest) := by
      apply Finset.filter_true_of_mem
      intro x hx hb
      have := covered_nonneg h0 hx
      simp only [behind] at hb
      omega
    rw [this]
    simp

theorem card_basesOf (a : bedLong) :
    ((basesOf a).card : Int) = (a.chromEnd - a.chromStart).toNat := card_span _ _ _

theorem card_coveredBases_of_disjoint : ∀ (L : List bedLong), positiveLength L →
    L.Pairwise (fun a b => bedLongOverlap a b = false) →
    ((coveredBases L).card : Int) = (L.map (fun a => a.chromEnd - a.chromStart)).sum
  | [], _, _ => by simp [coveredBases]
  | a :: rest, hv, hd => by
    have ih := card_coveredBases_of_disjoint rest
      (fun x hx => hv x (List.mem_cons_of_mem _ hx)) (List.pairwise_cons.1 hd).2
    have hdis : Disjoint (basesOf a) (coveredBases rest) := by
      rw [Finset.disjoint_left]
      intro x hxa hxr
      rw [mem_coveredBases] at hxr
      obtain ⟨r, hr, hxr⟩ := hxr
      have hno := (List.pairwise_cons.1 hd).1 r hr
      rw [Bool.eq_false_iff] at hno
      apply hno
      rw [bedLongOverlap_iff]
      rw [mem_basesOf] at hxa hxr
      refine ⟨hxa.1.symm.trans hxr.1, ?_, ?_, ?_, ?_⟩ <;> omega
    have hpos := hv a (List.mem_cons_self _ _)
    simp only [coveredBases, List.map_cons, List.sum_cons]
    rw [Finset.card_union_of_disjoint hdis, Nat.cast_add, ih, card_basesOf]
    omega

theorem coveredBases_contained {X Y : bedLong} (hc : X.chrom = Y.chrom)
    (h1 : Y.chromStart ≤ X.chromStart) (h2 : X.chromEnd ≤ Y.chromEnd) :
    coveredBases [Y, X] = basesOf Y ∧ coveredBases [X, Y] = basesOf Y := by
  have hsub : basesOf X ⊆ basesOf Y := by
    intro x hx
    rw [mem_basesOf] at *
    exact ⟨hx.1.trans hc, by omega, by omega⟩
  simp only [coveredBases, Finset.union_empty]
  exact ⟨Finset.union_eq_left.2 hsub, Finset.union_eq_right.2 hsub⟩

/-- Over exact integers the sum of `bedLongBases` is the number of distinct bases covered; it
is the sum of the lengths when no two intervals overlap, and the length of `Y` alone for `Y`
and an interval `X` contained in `Y`. -/
theorem bedLongBasesExact_eq_covered (L : List bedLong) (hne : L ≠ [])
    (hs : sortedByStart L) (hv : positiveLength L) (h0 : nonNegStart L) :
    bedLongBasesExact L = some ((coveredBases L).card : Int) ∧
    (L.Pairwise (fun a b => bedLongOverlap a b = false) →
      bedLongBasesExact L = some ((L.map (fun a => a.chromEnd - a.chromStart)).sum)) ∧
    (∀ X Y : bedLong, (L = [Y, X] ∨ L = [X, Y]) → X.chrom = Y.chrom →
      Y.chromStart ≤ X.chromStart → X.chromEnd ≤ Y.chromEnd →
      bedLongBasesExact L = some (Y.chromEnd - Y.chromStart)) := by
  have hmain := bedLongBases_eq_card hne hs hv h0
  refine ⟨hmain, ?_, ?_⟩
  · intro hd
    rw [hmain, card_coveredBases_of_disjoint L hv hd]
  · intro X Y hL hc h1 h2
    have hY : Y.chromStart < Y.chromEnd := by
      rcases hL with rfl | rfl <;> exact hv Y (by simp)
    have hcov : coveredBases L = basesOf Y := by
      rcases hL with rfl | rfl
      · exact (coveredBases_contained hc h1 h2).1
      · exact (coveredBases_contained hc h1 h2).2
    rw [hmain, hcov, card_basesOf]
    congr 1
    omega

/-! ## The two list base count -/

theorem bedLongCmpEnd_le_iff (a b : bedLong) :
    bedLongCmpEnd a b ≤ 0 ↔
      strcmp a.chrom b.chrom < 0 ∨ (a.chrom = b.chrom ∧ a.chromEnd ≤ b.chromEnd) := by
  unfold bedLongCmpEnd
  by_cases h : strcmp a.chrom b.chrom = 0
  · have hc := (strcmp_eq_zero _ _).1 h
    simp only [h, if_true, lt_self_iff_false, false_or]
    simp only [hc, true_and]
    split_ifs <;> omega
  · have hc : a.chrom ≠ b.chrom := fun e => h ((strcmp_eq_zero _ _).2 e)
    simp only [h, if_false, hc, false_and, or_false]
    omega

/-- When the first cursor is the one to move, every base its interval shares with the rest
of the second list is already shared with the head of the second list. -/
theorem shared_with_head_of_cmpEnd_le {a b : bedLong} {bs : List bedLong} {x : String × Int}
    (hB : (b :: bs).Pairwise (fun a b => bedLongCmp a b ≤ 0))
    (hcmp : bedLongCmpEnd a b ≤ 0) (hxa : x ∈ basesOf a) (hxB : x ∈ coveredBases (b :: bs)) :
    x ∈ basesOf b := by
  have hh := covered_head hB hxB
  rw [bedLongCmpEnd_le_iff] at hcmp
  rw [mem_basesOf] at hxa ⊢
  rcases hcmp with h | ⟨hc, he⟩
  · rw [← hxa.1] at h
    have := strcmp_neg x.1 b.chrom
    omega
  · have e : x.1 = b.chrom := hxa.1.trans hc
    exact ⟨e, hh.2 e, by omega⟩

/-- When the second cursor is the one to move, every base its interval shares with the rest
of the first list is already shared with the head of the first list. -/
theorem shared_with_head_of_cmpEnd_gt {a b : bedLong} {as : List bedLong} {x : String × Int}
    (hA : (a :: as).Pairwise (fun a b => bedLongCmp a b ≤ 0))
    (hcmp : ¬ bedLongCmpEnd a b ≤ 0) (hxb : x ∈ basesOf b) (hxA : x ∈ coveredBases (a :: as)) :
    x ∈ basesOf a := by
  have hh := covered_head hA hxA
  rw [bedLongCmpEnd_le_iff] at hcmp
  push_neg at hcmp
  rw [mem_basesOf] at hxb ⊢
  by_cases hc : a.chrom = b.chrom
  · have e : x.1 = a.chrom := hxb.1.trans hc.symm
    have := hcmp.2 hc
    exact ⟨e, hh.2 e, by omega⟩
  · exfalso
    have h1 := hcmp.1
    rw [← hxb.1] at h1
    have h2 := strcmp_neg a.chrom x.1
    have h3 : strcmp a.chrom x.1 = 0 := by omega
    rw [strcmp_eq_zero] at h3
    exact hc (h3.trans hxb.1)

theorem card_inter_not_behind (a b : bedLong) (st : baseCounter) (hc : st.prevChr = a.chrom) :
    ((((basesOf a ∩ basesOf b).filter (fun x => ¬ behind st x)).card : Nat) : Int) =
      if a.chrom = b.chrom then
        (min a.chromEnd b.chromEnd - max (max a.chromStart b.chromStart) st.prevEnd).toNat
      else 0 := by
  by_cases hab : a.chrom = b.chrom
  · rw [if_pos hab]
    have : (basesOf a ∩ basesOf b).filter (fun x => ¬ behind st x) =
        ({a.chrom} : Finset String) ×ˢ
          Finset.Ico (max (max a.chromStart b.chromStart) st.prevEnd)
            (min a.chromEnd b.chromEnd) := by
      ext x
      simp only [Finset.mem_filter, Finset.mem_inter, mem_basesOf, behind, Finset.mem_product,
        Finset.mem_singleton, Finset.mem_Ico, hc, ← hab]
      constructor
      · rintro ⟨⟨⟨h1, h2, h3⟩, _, h5, h6⟩, h4⟩
        have : ¬ x.2 < st.prevEnd := fun h => h4 ⟨h1, h⟩
        exact ⟨h1, by omega, by omega⟩
      · rintro ⟨h1, h2, h3⟩
        exact ⟨⟨⟨h1, by omega, by omega⟩, h1, by omega, by omega⟩, fun h => by omega⟩
    rw [this, card_span]
  · rw [if_neg hab]
    have : (basesOf a ∩ basesOf b).filter (fun x => ¬ behind st x) = ∅ := by
      ext x
      simp only [Finset.mem_filter, Finset.mem_inter, mem_basesOf, Finset.not_mem_empty,
        iff_false]
      rintro ⟨⟨⟨h1, _⟩, h2, _⟩, _⟩
      exact hab (h1.symm.trans h2)
    rw [this]
    simp

theorem intersectBasesBody_prevChr (st : baseCounter) (a b : bedLong) :
    (intersectBasesBodyExact st a b).prevChr = a.chrom := by
  unfold intersectBasesBodyExact addOverlapExact
  split_ifs <;> exact resetWatermark_prevChr _ _

theorem intersectBasesBody_sum (st : baseCounter) (a b : bedLong)
    (ha : a.chromStart < a.chromEnd) (hb : b.chromStart < b.chromEnd) :
    (intersectBasesBodyExact st a b).sum = st.sum +
      (((basesOf a ∩ basesOf b).filter
        (fun x => ¬ behind (resetWatermark st a.chrom) x)).card : Int) := by
  rw [card_inter_not_behind a b _ (resetWatermark_prevChr _ _)]
  unfold intersectBasesBodyExact addOverlapExact
  by_cases hov : bedLongOverlap a b = true
  · rw [if_pos hov]
    rw [bedLongOverlap_iff] at hov
    simp only [resetWatermark_sum, maxLong_eq, minLong_eq, if_pos hov.1]
    split_ifs <;> omega
  · rw [if_neg hov, resetWatermark_sum]
    rw [bedLongOverlap_iff] at hov
    split_ifs with hc
    · have : ¬ (a.chromStart < b.chromEnd ∧ b.chromStart < a.chromEnd) :=
        fun h => hov ⟨hc, ha, h.1, h.2, hb⟩
      omega
    · omega

theorem intersectBasesBody_behind (st : baseCounter) (a b : bedLong) (x : String × Int)
    (ha : a.chromStart < a.chromEnd) (hb : b.chromStart < b.chromEnd) :
    behind (intersectBasesBodyExact st a b) x ↔
      behind (resetWatermark st a.chrom) x ∨
        (x.1 = a.chrom ∧ a.chrom = b.chrom ∧ a.chromStart < b.chromEnd ∧
          b.chromStart < a.chromEnd ∧ x.2 < min a.chromEnd b.chromEnd) := by
  unfold intersectBasesBodyExact addOverlapExact
  by_cases hov : bedLongOverlap a b = true
  · rw [if_pos hov]
    rw [bedLongOverlap_iff] at hov
    simp only [behind, resetWatermark_prevChr, maxLong_eq, minLong_eq]
    constructor
    · rintro ⟨h1, h2⟩
      by_cases h3 : x.2 < (resetWatermark st a.chrom).prevEnd
      · exact Or.inl ⟨h1, h3⟩
      · exact Or.inr ⟨h1, hov.1, hov.2.2.1, hov.2.2.2.1, by omega⟩
    · rintro (⟨h1, h2⟩ | ⟨h1, _, _, _, h2⟩)
      · exact ⟨h1, by omega⟩
      · exact ⟨h1, by omega⟩
  · rw [if_neg hov]
    rw [bedLongOverlap_iff] at hov
    constructor
    · intro h; exact Or.inl h
    · rintro (h | ⟨_, h1, h2, h3, _⟩)
      · exact h
      · exact absurd ⟨h1, ha, h2, h3, hb⟩ hov

/-- One turn of the `bedLongIntersectBasesExact` loop, on sets: the shared bases beyond the old
watermark are those of the current pair beyond the watermark after the chromosome check,
together with the shared bases `S'` still ahead beyond the new watermark. -/
theorem intersect_step {st : baseCounter} {a b : bedLong} {as bs : List bedLong}
    (hA : (a :: as).Pairwise (fun a b => bedLongCmp a b ≤ 0))
    (hB : (b :: bs).Pairwise (fun a b => bedLongCmp a b ≤ 0))
    (ha : a.chromStart < a.chromEnd) (hb : b.chromStart < b.chromEnd)
    (h0 : nonNegStart (a :: as)) (hst : strcmp st.prevChr a.chrom ≤ 0)
    (S' : Finset (String × Int))
    (hsub : S' ⊆ coveredBases (a :: as) ∩ coveredBases (b :: bs))
    (hrest : ∀ x ∈ coveredBases (a :: as) ∩ coveredBases (b :: bs),
      x ∉ basesOf a ∩ basesOf b → x ∈ S') :
    ((coveredBases (a :: as) ∩ coveredBases (b :: bs)).filter (fun x => ¬ behind st x)).card =
      ((basesOf a ∩ basesOf b).filter
          (fun x => ¬ behind (resetWatermark st a.chrom) x)).card +
        (S'.filter (fun x => ¬ behind (intersectBasesBodyExact st a b) x)).card := by
  have hreset : ∀ x ∈ coveredBases (a :: as),
      (behind (resetWatermark st a.chrom) x ↔ behind st x) := fun x hx =>
    behind_reset st a.chrom x hst (covered_head hA hx).1 (covered_nonneg h0 hx)
  have hO : basesOf a ∩ basesOf b ⊆ coveredBases (a :: as) ∩ coveredBases (b :: bs) := by
    intro x hx
    simp only [Finset.mem_inter, coveredBases, Finset.mem_union] at hx ⊢
    exact ⟨Or.inl hx.1, Or.inl hx.2⟩
  have hsplit := Finset.filter_card_add_filter_neg_card_eq_card
    (s := (coveredBases (a :: as) ∩ coveredBases (b :: bs)).filter (fun x => ¬ behind st x))
    (fun x => x ∈ basesOf a ∩ basesOf b)
  have h1 : ((coveredBases (a :: as) ∩ coveredBases (b :: bs)).filter
      (fun x => ¬ behind st x)).filter (fun x => x ∈ basesOf a ∩ basesOf b) =
      (basesOf a ∩ basesOf b).filter (fun x => ¬ behind (resetWatermark st a.chrom) x) := by
    ext x
    simp only [Finset.mem_filter]
    constructor
    · rintro ⟨⟨hx, hbh⟩, hxO⟩
      exact ⟨hxO, fun h => hbh ((hreset x (Finset.mem_inter.1 hx).1).1 h)⟩
    · rintro ⟨hxO, hbh⟩
      have hx := hO hxO
      exact ⟨⟨hx, fun h => hbh ((hreset x (Finset.mem_inter.1 hx).1).2 h)⟩, hxO⟩
  have h2 : ((coveredBases (a :: as) ∩ coveredBases (b :: bs)).filter
      (fun x => ¬ behind st x)).filter (fun x => ¬ x ∈ basesOf a ∩ basesOf b) =
      S'.filter (fun x => ¬ behind (intersectBasesBodyExact st a b) x) := by
    ext x
    simp only [Finset.mem_filter, intersectBasesBody_behind st a b x ha hb]
    constructor
    · rintro ⟨⟨hx, hbh⟩, hxO⟩
      refine ⟨hrest x hx hxO, ?_⟩
      have hxA := (Finset.mem_inter.1 hx).1
      have hxB := (Finset.mem_inter.1 hx).2
      rintro (h | ⟨e1, e2, _, _, h3⟩)
      · exact hbh ((hreset x hxA).1 h)
      · apply hxO
        have hsa := (covered_head hA hxA).2 e1
        have hsb := (covered_head hB hxB).2 (e1.trans e2)
        simp only [Finset.mem_inter, mem_basesOf]
        exact ⟨⟨e1, hsa, by omega⟩, e1.trans e2, hsb, by omega⟩
    · rintro ⟨hx, hbh⟩
      have hxS := hsub hx
      have hxA := (Finset.mem_inter.1 hxS).1
      refine ⟨⟨hxS, fun h => hbh (Or.inl ((hreset x hxA).2 h))⟩, ?_⟩
      intro hxO
      simp only [Finset.mem_inter, mem_basesOf] at hxO
      obtain ⟨⟨e1, s1, t1⟩, e2, s2, t2⟩ := hxO
      exact hbh (Or.inr ⟨e1, e1.symm.trans e2, by omega, by omega, by omega⟩)
  rw [h1, h2] at hsplit
  exact hsplit.symm

theorem bedLongIntersectBasesLoop_spec (st : baseCounter) (A B : List bedLong) :
    A.Pairwise (fun a b => bedLongCmp a b ≤ 0) → B.Pairwise (fun a b => bedLongCmp a b ≤ 0) →
    positiveLength A → positiveLength B → nonNegStart A →
    (∀ a ∈ A.head?, strcmp st.prevChr a.chrom ≤ 0) →
    bedLongIntersectBasesLoopExact st A B =
      st.sum + (((coveredBases A ∩ coveredBases B).filter (fun x => ¬ behind st x)).card : Int) := by
  induction st, A, B using bedLongIntersectBasesLoopExact.induct with
  | case1 st B =>
    intro _ _ _ _ _ _
    simp [bedLongIntersectBasesLoopExact, coveredBases]
  | case2 st a as =>
    intro _ _ _ _ _ _
    simp [bedLongIntersectBasesLoopExact, coveredBases]
  | case3 st a as b bs hcmp ih =>
    intro hA hB hvA hvB h0 hst
    have hst : strcmp st.prevChr a.chrom ≤ 0 := hst a (by simp)
    have ha := hvA a (List.mem_cons_self _ _)
    have hb := hvB b (List.mem_cons_self _ _)
    have hhead : ∀ r ∈ as.head?, strcmp (intersectBasesBodyExact st a b).prevChr r.chrom ≤ 0 := by
      intro r hr
      rw [intersectBasesBody_prevChr]
      rcases pairwise_head_le hA r (List.mem_of_mem_head? hr) with h | ⟨h, _⟩
      · exact le_of_lt h
      · rw [h]; exact le_of_eq (strcmp_self _)
    rw [bedLongIntersectBasesLoopExact, if_pos hcmp,
      ih (List.pairwise_cons.1 hA).2 hB (fun x hx => hvA x (List.mem_cons_of_mem _ hx)) hvB
        (fun x hx => h0 x (List.mem_cons_of_mem _ hx)) hhead,
      intersectBasesBody_sum st a b ha hb,
      intersect_step hA hB ha hb h0 hst (coveredBases as ∩ coveredBases (b :: bs))
        (by
          intro x hx
          simp only [Finset.mem_inter, coveredBases, Finset.mem_union] at hx ⊢
          exact ⟨Or.inr hx.1, hx.2⟩)
        (by
          intro x hx hxO
          have hxA := (Finset.mem_inter.1 hx).1
          have hxB := (Finset.mem_inter.1 hx).2
          refine Finset.mem_inter.2 ⟨?_, hxB⟩
          simp only [coveredBases, Finset.mem_union] at hxA
          rcases hxA with hxa | hxa
          · exact absurd (Finset.mem_inter.2
              ⟨hxa, shared_with_head_of_cmpEnd_le hB hcmp hxa hxB⟩) hxO
          · exact hxa)]
    push_cast
    omega
  | case4 st a as b bs hcmp ih =>
    intro hA hB hvA hvB h0 hst
    have hst1 : strcmp st.prevChr a.chrom ≤ 0 := hst a (by simp)
    have ha := hvA a (List.mem_cons_self _ _)
    have hb := hvB b (List.mem_cons_self _ _)
    have hhead : ∀ r ∈ (a :: as).head?,
        strcmp (intersectBasesBodyExact st a b).prevChr r.chrom ≤ 0 := by
      intro r hr
      simp only [List.head?_cons, Option.mem_def, Option.some.injEq] at hr
      subst hr
      rw [intersectBasesBody_prevChr]
      exact le_of_eq (strcmp_self _)
    rw [bedLongIntersectBasesLoopExact, if_neg hcmp,
      ih hA (List.pairwise_cons.1 hB).2 hvA (fun x hx => hvB x (List.mem_cons_of_mem _ hx))
        h0 hhead,
      intersectBasesBody_sum st a b ha hb,
      intersect_step hA hB ha hb h0 hst1 (coveredBases (a :: as) ∩ coveredBases bs)
        (by
          intro x hx
          simp only [Finset.mem_inter, coveredBases, Finset.mem_union] at hx ⊢
          exact ⟨hx.1, Or.inr hx.2⟩)
        (by
          intro x hx hxO
          have hxA := (Finset.mem_inter.1 hx).1
          have hxB := (Finset.mem_inter.1 hx).2
          refine Finset.mem_inter.2 ⟨hxA, ?_⟩
          simp only [coveredBases, Finset.mem_union] at hxB
          rcases hxB with hxb | hxb
          · exact absurd (Finset.mem_inter.2
              ⟨shared_with_head_of_cmpEnd_gt hA hcmp hxb hxA, hxb⟩) hxO
          · exact hxb)]
    push_cast
    omega

theorem bedLongIntersectBases_eq_card (A B : List bedLong) (hne : A ≠ [])
    (hA : sortedByStart A) (hB : sortedByStart B)
    (hvA : positiveLength A) (hvB : positiveLength B)
    (h0A : nonNegStart A) :
    bedLongIntersectBasesExact A B = some (((coveredBases A ∩ coveredBases B).card : Nat) : Int) := by
  cases A with
  | nil => exact absurd rfl hne
  | cons a rest =>
    simp only [bedLongIntersectBasesExact]
    rw [bedLongIntersectBasesLoop_spec ⟨a.chrom, 0, 0⟩ (a :: rest) B (sortedByStart_pairwise hA)
      (sortedByStart_pairwise hB) hvA hvB h0A
      (by intro r hr; simp at hr; subst hr; exact le_of_eq (strcmp_self _))]
    have : (coveredBases (a :: rest) ∩ coveredBases B).filter
        (fun x => ¬ behind ⟨a.chrom, 0, 0⟩ x) = coveredBases (a :: rest) ∩ coveredBases B := by
      apply Finset.filter_true_of_mem
      intro x hx hb
      have := covered_nonneg h0A (Finset.mem_inter.1 hx).1
      simp only [behind] at hb
      omega
    rw [this]
    simp

/-! ## The three list count -/

/-- C4 (evaluation at the failing input): with list one `[chr1 10 100], [chr1 25 250]`, list
two `[chr1 20 30]`, list three `[chr1 200 300]` and no term filter, all three lists sorted by
(chrom, start) with start < end, the second element of list one overlaps an element of list
two and an element of list three, so one element qualifies, yet the sweep returns 0: it
drops `[chr1 20 30]` while the first element still holds the cursor of list one. -/
theorem bedLongIntersectThreeGoCount_misses_later_overlap :
    sortedByStart [⟨"chr1", 10, 100, none, [], '+'⟩, ⟨"chr1", 25, 250, none, [], '+'⟩] ∧
    positiveLength [⟨"chr1", 10, 100, none, [], '+'⟩, ⟨"chr1", 25, 250, none, [], '+'⟩] ∧
    bedLongIntersectThreeGoCount
        [⟨"chr1", 10, 100, none, [], '+'⟩, ⟨"chr1", 25, 250, none, [], '+'⟩] none
        [⟨"chr1", 20, 30, none, [], '+'⟩] none
        [⟨"chr1", 200, 300, none, [], '+'⟩] none = 0 ∧
    List.countP
        (fun a => termAllows none a &&
          (List.any [⟨"chr1", 20, 30, none, [], '+'⟩]
            (fun b => termAllows none b && bedLongOverlap a b) &&
           List.any [⟨"chr1", 200, 300, none, [], '+'⟩]
            (fun c => termAllows none c && bedLongOverlap a c)))
        [⟨"chr1", 10, 100, none, [], '+'⟩, ⟨"chr1", 25, 250, none, [], '+'⟩] = 1 := by
  refine ⟨by simp [sortedByStart, bedLongCmp, strcmp, strcmpAux], by decide, ?_, by decide⟩
  simp [bedLongIntersectThreeGoCount, bedLongIntersectThreeGoCountLoop, termAllows,
    bedLongOverlap, bedLongCmpEnd, strcmp, strcmpAux, minLong, maxLong]

/-! ## Counts against list lengths -/

theorem expandBedLongListByDistance_length (l : List bedLong) (d : Int) :
    (expandBedLongListByDistanceExact l d).length = l.length := by
  induction l with
  | nil => rfl
  | cons a rest ih => simp [expandBedLongListByDistanceExact, ih]

theorem expandBedLongListByDistance_getElem? (d : Int) : ∀ (l : List bedLong) (i : Nat),
    (expandBedLongListByDistanceExact l d)[i]? =
      (l[i]?).map (fun a =>
        { a with chromStart := maxLong 0 (a.chromStart - d), chromEnd := a.chromEnd + d })
  | [], i => by simp [expandBedLongListByDistanceExact]
  | a :: rest, 0 => by simp [expandBedLongListByDistanceExact]
  | a :: rest, i + 1 => by
    simp only [expandBedLongListByDistanceExact, List.getElem?_cons_succ]
    exact expandBedLongListByDistance_getElem? d rest i

/-- Over exact integers each interval comes out with start `max 0 (start - d)` and end
`end + d`, number, order and the other fields unchanged. -/
theorem expandBedLongListByDistanceExact_spec (l : List bedLong) (d : Int) :
    (expandBedLongListByDistanceExact l d).length = l.length ∧
    ∀ (i : Nat) (a : bedLong), l[i]? = some a →
      ∃ a1 : bedLong, (expandBedLongListByDistanceExact l d)[i]? = some a1 ∧
        a1.chromStart = max 0 (a.chromStart - d) ∧ a1.chromEnd = a.chromEnd + d ∧
        a1.chrom = a.chrom ∧ a1.name = a.name ∧ a1.goTerms = a.goTerms ∧
        a1.strand = a.strand := by
  refine ⟨expandBedLongListByDistance_length l d, ?_⟩
  intro i a hi
  refine ⟨{ a with chromStart := maxLong 0 (a.chromStart - d), chromEnd := a.chromEnd + d },
    by rw [expandBedLongListByDistance_getElem?, hi]; rfl, ?_, rfl, rfl, rfl, rfl, rfl⟩
  exact maxLong_eq _ _

/-- Over exact integers the expansion by distance 0 returns a list with `0 <= start` as it
was. -/
theorem expandBedLongListByDistanceExact_zero (l : List bedLong) (h0 : nonNegStart l) :
    expandBedLongListByDistanceExact l 0 = l := by
  induction l with
  | nil => rfl
  | cons a rest ih =>
    have ha := h0 a (List.mem_cons_self _ _)
    have hmax : maxLong 0 (a.chromStart - 0) = a.chromStart := by
      rw [maxLong_eq]; omega
    simp only [expandBedLongListByDistanceExact, hmax, add_zero,
      ih (fun x hx => h0 x (List.mem_cons_of_mem _ hx))]

/-- C10: with `d = 20` the two gene list `[chr1 0 10], [chr1 30 40]` becomes
`[chr1 0 20], [chr1 20 60]`: the shared boundary is the midpoint `(30 + 10) / 2 = 20` and
the last interval gets the trailing `+ 20`. -/
theorem expandBedLongListToNeighbor_two_genes :
    expandBedLongListToNeighbor
        [⟨"chr1", 0, 10, none, [], '+'⟩, ⟨"chr1", 30, 40, none, [], '+'⟩] 20 =
      .ok [⟨"chr1", 0, 20, none, [], '+'⟩, ⟨"chr1", 20, 60, none, [], '+'⟩] := by
  rfl

/-! ## Neighbour bounded expansion -/

theorem neighborBody_none (d : Int) (before : List bedLong) (x : bedLong) (isLast : Bool) :
    neighborBodyExact d ⟨before, none⟩ x isLast =
      .ok ⟨before, some (trailingEdgeExact d isLast
        { x with chromStart := maxLong 0 (x.chromStart - d) }, [])⟩ := by
  simp [neighborBodyExact, neighborChromCheckExact]

theorem neighborBody_diff (d : Int) (before : List bedLong) (q : bedLong)
    (bt : List bedLong) (x : bedLong) (isLast : Bool) (h : q.chrom ≠ x.chrom) :
    neighborBodyExact d ⟨before, some (q, bt)⟩ x isLast =
      .ok ⟨before ++ { q with chromEnd := q.chromEnd + d } :: bt,
        some (trailingEdgeExact d isLast
          { x with chromStart := maxLong 0 (x.chromStart - d) }, [])⟩ := by
  have h1 : strcmp q.chrom x.chrom ≠ 0 := fun e => h ((strcmp_eq_zero _ _).1 e)
  simp [neighborBodyExact, neighborChromCheckExact, h1]

theorem neighborBody_same (d : Int) (before : List bedLong) (q : bedLong)
    (bt : List bedLong) (x : bedLong) (isLast : Bool) (h : q.chrom = x.chrom) :
    neighborBodyExact d ⟨before, some (q, bt)⟩ x isLast =
      if x.chromStart - q.chromEnd ≥ 2 * d then
        .ok ⟨before ++ { q with chromEnd := q.chromEnd + d } :: bt,
          some (trailingEdgeExact d isLast
            { x with chromStart := maxLong 0 (x.chromStart - d) }, [])⟩
      else if x.chromStart - q.chromEnd ≥ 0 then
        .ok ⟨before ++ { q with chromEnd := Int.tdiv (x.chromStart + q.chromEnd) 2 } :: bt,
          some (trailingEdgeExact d isLast
            { x with chromStart := Int.tdiv (x.chromStart + q.chromEnd) 2 }, [])⟩
      else if x.chromEnd - q.chromEnd ≥ 0 then
        .ok ⟨before ++ q :: bt, some (trailingEdgeExact d isLast x, [])⟩
      else
        .ok ⟨before, some (q, bt ++ [trailingEdgeExact d isLast x])⟩ := by
  have h1 : strcmp q.chrom x.chrom = 0 := (strcmp_eq_zero _ _).2 h
  simp only [neighborBodyExact, neighborChromCheckExact, h1, ne_eq, not_true_eq_false, if_false]
  split_ifs <;> first | rfl | omega

theorem trailingEdge_chromStart (d : Int) (isLast : Bool) (x : bedLong) :
    (trailingEdgeExact d isLast x).chromStart = x.chromStart := by
  unfold trailingEdgeExact; split_ifs <;> rfl

theorem trailingEdge_false (d : Int) (x : bedLong) : trailingEdgeExact d false x = x := rfl

theorem getElem?_at_end_of_before {b bt r : List bedLong} {q : bedLong}
    (h : (b ++ q :: bt) <+: r) : b <+: r ∧ r[b.length]? = some q := by
  obtain ⟨t, rfl⟩ := h
  refine ⟨⟨q :: bt ++ t, by simp⟩, ?_⟩
  rw [List.append_assoc, List.getElem?_append_right (le_refl _)]
  simp

/-- The rest of the loop never fails, keeps the records already in `before`, and keeps the
start of the record `prev` points at. -/
theorem neighborLoop_tail (d : Int) : ∀ (post : List bedLong) (st : neighborSweep),
    ∃ r, expandBedLongListToNeighborLoopExact d st post = .ok r ∧ st.before <+: r ∧
      ∀ q bt, st.prev = some (q, bt) →
        ∃ q1, r[st.before.length]? = some q1 ∧ q1.chromStart = q.chromStart
  | [], ⟨before, none⟩ => by
    refine ⟨before, rfl, List.prefix_refl _, ?_⟩
    intro q bt h; simp at h
  | [], ⟨before, some (q, bt)⟩ => by
    refine ⟨before ++ q :: bt, rfl, List.prefix_append _ _, ?_⟩
    intro q1 bt1 h
    simp only [Option.some.injEq, Prod.mk.injEq] at h
    obtain ⟨rfl, rfl⟩ := h
    exact ⟨q, (getElem?_at_end_of_before (List.prefix_refl _)).2, rfl⟩
  | x :: xs, ⟨before, none⟩ => by
    obtain ⟨r, hr, hp, _⟩ := neighborLoop_tail d xs
      ⟨before, some (trailingEdgeExact d xs.isEmpty
        { x with chromStart := maxLong 0 (x.chromStart - d) }, [])⟩
    refine ⟨r, ?_, hp, ?_⟩
    · simp only [expandBedLongListToNeighborLoopExact, neighborBody_none]; exact hr
    · intro q bt h; simp at h
  | x :: xs, ⟨before, some (q, bt)⟩ => by
    have key : ∀ st1 : neighborSweep, neighborBodyExact d ⟨before, some (q, bt)⟩ x xs.isEmpty = .ok st1 →
        ((∃ q1 bt1, (before ++ q1 :: bt1) <+: st1.before ∧ q1.chromStart = q.chromStart) ∨
          (st1.before = before ∧ ∃ bt1, st1.prev = some (q, bt1))) →
        ∃ r, expandBedLongListToNeighborLoopExact d ⟨before, some (q, bt)⟩ (x :: xs) = .ok r ∧
          before <+: r ∧ ∃ q1, r[before.length]? = some q1 ∧ q1.chromStart = q.chromStart := by
      intro st1 hst1 hcase
      obtain ⟨r, hr, hp, hq⟩ := neighborLoop_tail d xs st1
      refine ⟨r, ?_, ?_⟩
      · simp only [expandBedLongListToNeighborLoopExact, hst1]; exact hr
      · rcases hcase with ⟨q1, bt1, hpre, hs⟩ | ⟨hb, bt1, hprev⟩
        · have := getElem?_at_end_of_before (List.IsPrefix.trans hpre hp)
          exact ⟨this.1, q1, this.2, hs⟩
        · rw [hb] at hp hq
          exact ⟨hp, hq q bt1 hprev⟩
    have : ∃ r, expandBedLongListToNeighborLoopExact d ⟨before, some (q, bt)⟩ (x :: xs) = .ok r ∧
          before <+: r ∧ ∃ q1, r[before.length]? = some q1 ∧ q1.chromStart = q.chromStart := by
      by_cases hc : q.chrom = x.chrom
      · by_cases h1 : x.chromStart - q.chromEnd ≥ 2 * d
        · exact key _ (by rw [neighborBody_same d before q bt x _ hc, if_pos h1])
            (Or.inl ⟨{ q with chromEnd := q.chromEnd + d }, bt, List.prefix_refl _, rfl⟩)
        · by_cases h2 : x.chromStart - q.chromEnd ≥ 0
          · exact key _ (by rw [neighborBody_same d before q bt x _ hc, if_neg h1, if_pos h2])
              (Or.inl ⟨{ q with chromEnd := Int.tdiv (x.chromStart + q.chromEnd) 2 }, bt,
                List.prefix_refl _, rfl⟩)
          · by_cases h3 : x.chromEnd - q.chromEnd ≥ 0
            · exact key _
                (by rw [neighborBody_same d before q bt x _ hc, if_neg h1, if_neg h2, if_pos h3])
                (Or.inl ⟨q, bt, List.prefix_refl _, rfl⟩)
            · exact key _
                (by rw [neighborBody_same d before q bt x _ hc, if_neg h1, if_neg h2, if_neg h3])
                (Or.inr ⟨rfl, _, rfl⟩)
      · exact key _ (neighborBody_diff d before q bt x _ hc)
          (Or.inl ⟨{ q with chromEnd := q.chromEnd + d }, bt, List.prefix_refl _, rfl⟩)
    obtain ⟨r, hr, hp, hq⟩ := this
    refine ⟨r, hr, hp, ?_⟩
    intro q1 bt1 h
    simp only [Option.some.injEq, Prod.mk.injEq] at h
    obtain ⟨rfl, rfl⟩ := h
    exact hq

/-- One turn of the loop on a record that is not the last one: it never fails, passes one
more record, and `prev` afterwards is either the old `prev` or the record itself with its
end untouched. -/
theorem neighborBody_not_last (d : Int) (st : neighborSweep) (x : bedLong) :
    ∃ st1, neighborBodyExact d st x false = .ok st1 ∧
      st1.toList.length = st.toList.length + 1 ∧
      ∀ q1 bt1, st1.prev = some (q1, bt1) →
        (∃ bt, st.prev = some (q1, bt)) ∨ (q1.chrom = x.chrom ∧ q1.chromEnd = x.chromEnd) := by
  obtain ⟨before, prev⟩ := st
  cases prev with
  | none =>
    refine ⟨_, neighborBody_none d before x false, by simp [neighborSweep.toList], ?_⟩
    intro q1 bt1 h
    simp only [Option.some.injEq, Prod.mk.injEq, trailingEdge_false] at h
    obtain ⟨rfl, _⟩ := h
    exact Or.inr ⟨rfl, rfl⟩
  | some qb =>
    obtain ⟨q, bt⟩ := qb
    by_cases hc : q.chrom = x.chrom
    · rw [neighborBody_same d before q bt x _ hc]
      split_ifs
      · refine ⟨_, rfl, by simp [neighborSweep.toList]; omega, ?_⟩
        intro q1 bt1 h
        simp only [Option.some.injEq, Prod.mk.injEq, trailingEdge_false] at h
        obtain ⟨rfl, _⟩ := h
        exact Or.inr ⟨rfl, rfl⟩
      · refine ⟨_, rfl, by simp [neighborSweep.toList]; omega, ?_⟩
        intro q1 bt1 h
        simp only [Option.some.injEq, Prod.mk.injEq, trailingEdge_false] at h
        obtain ⟨rfl, _⟩ := h
        exact Or.inr ⟨rfl, rfl⟩
      · refine ⟨_, rfl, by simp [neighborSweep.toList]; omega, ?_⟩
        intro q1 bt1 h
        simp only [Option.some.injEq, Prod.mk.injEq, trailingEdge_false] at h
        obtain ⟨rfl, _⟩ := h
        exact Or.inr ⟨rfl, rfl⟩
      · refine ⟨_, rfl, by simp [neighborSweep.toList]; omega, ?_⟩
        intro q1 bt1 h
        simp only [Option.some.injEq, Prod.mk.injEq] at h
        obtain ⟨rfl, _⟩ := h
        exact Or.inl ⟨bt, rfl⟩
    · refine ⟨_, neighborBody_diff d before q bt x false hc, by simp [neighborSweep.toList]; omega, ?_⟩
      intro q1 bt1 h
      simp only [Option.some.injEq, Prod.mk.injEq, trailingEdge_false] at h
      obtain ⟨rfl, _⟩ := h
      exact Or.inr ⟨rfl, rfl⟩

/-- One turn of the loop on a record `p` that is not the last one and reaches at least as
far as `prev` does: `p` becomes `prev`, its end untouched. -/
theorem neighborBody_becomes_prev (d : Int) (st : neighborSweep) (p : bedLong)
    (hinv : ∀ q bt, st.prev = some (q, bt) → q.chrom = p.chrom → q.chromEnd ≤ p.chromEnd) :
    ∃ b1 p1, neighborBodyExact d st p false = .ok ⟨b1, some (p1, [])⟩ ∧
      b1.length = st.toList.length ∧ p1.chrom = p.chrom ∧ p1.chromEnd = p.chromEnd := by
  obtain ⟨before, prev⟩ := st
  cases prev with
  | none =>
    exact ⟨_, _, neighborBody_none d before p false, by simp [neighborSweep.toList], rfl, rfl⟩
  | some qb =>
    obtain ⟨q, bt⟩ := qb
    by_cases hc : q.chrom = p.chrom
    · have hle := hinv q bt rfl hc
      rw [neighborBody_same d before q bt p _ hc]
      split_ifs with h1 h2 h3
      · exact ⟨_, _, rfl, by simp [neighborSweep.toList], rfl, rfl⟩
      · exact ⟨_, _, rfl, by simp [neighborSweep.toList], rfl, rfl⟩
      · exact ⟨_, _, rfl, by simp [neighborSweep.toList], rfl, rfl⟩
      · omega
    · exact ⟨_, _, neighborBody_diff d before q bt p false hc, by simp [neighborSweep.toList],
        rfl, rfl⟩

/-- One turn of the loop on a record `c` that follows `prev` on the same chromosome at a
gap `g >= 0`: the two boundaries end `g - 2 * d` apart when `g >= 2 * d`, and meet at the
midpoint otherwise. -/
theorem neighborBody_gap (d : Int) (b1 : List bedLong) (p1 c : bedLong) (isLast : Bool)
    (hp : 0 < p1.chromEnd) (hc : p1.chrom = c.chrom)
    (hg : 0 ≤ c.chromStart - p1.chromEnd) :
    ∃ p2 c2, neighborBodyExact d ⟨b1, some (p1, [])⟩ c isLast = .ok ⟨b1 ++ [p2], some (c2, [])⟩ ∧
      (if c.chromStart - p1.chromEnd ≥ 2 * d then
        c2.chromStart - p2.chromEnd = c.chromStart - p1.chromEnd - 2 * d
       else
        p2.chromEnd = (c.chromStart + p1.chromEnd) / 2 ∧
          c2.chromStart = (c.chromStart + p1.chromEnd) / 2) := by
  rw [neighborBody_same d b1 p1 [] c isLast hc]
  by_cases h1 : c.chromStart - p1.chromEnd ≥ 2 * d
  · rw [if_pos h1]
    refine ⟨_, _, rfl, ?_⟩
    rw [if_pos h1, trailingEdge_chromStart]
    simp only [maxLong_eq]
    omega
  · rw [if_neg h1, if_pos hg]
    refine ⟨_, _, rfl, ?_⟩
    rw [if_neg h1, trailingEdge_chromStart]
    have : Int.tdiv (c.chromStart + p1.chromEnd) 2 = (c.chromStart + p1.chromEnd) / 2 :=
      Int.tdiv_eq_ediv (by omega) (by omega)
    exact ⟨this, this⟩

theorem neighborLoop_gap (d : Int) (p c : bedLong) (post : List bedLong)
    (hp : 0 < p.chromEnd) (hc : p.chrom = c.chrom)
    (hg : 0 ≤ c.chromStart - p.chromEnd) :
    ∀ (pre : List bedLong) (st : neighborSweep),
      (∀ q bt, st.prev = some (q, bt) → q.chrom = p.chrom → q.chromEnd ≤ p.chromEnd) →
      (∀ q ∈ pre, q.chrom = p.chrom → q.chromEnd ≤ p.chromEnd) →
      ∃ r p1 c1, expandBedLongListToNeighborLoopExact d st (pre ++ p :: c :: post) = .ok r ∧
        r[st.toList.length + pre.length]? = some p1 ∧
        r[st.toList.length + pre.length + 1]? = some c1 ∧
        (if c.chromStart - p.chromEnd ≥ 2 * d then
          c1.chromStart - p1.chromEnd = c.chromStart - p.chromEnd - 2 * d
         else
          p1.chromEnd = (c.chromStart + p.chromEnd) / 2 ∧
            c1.chromStart = (c.chromStart + p.chromEnd) / 2)
  | [], st => by
    intro hinv _
    obtain ⟨b1, p1, hstep1, hlen, hchr, hend⟩ := neighborBody_becomes_prev d st p hinv
    obtain ⟨p2, c2, hstep2, hrule⟩ := neighborBody_gap d b1 p1 c post.isEmpty
      (by rw [hend]; exact hp) (hchr.trans hc) (by rw [hend]; exact hg)
    obtain ⟨r, hr, hpre, hq⟩ := neighborLoop_tail d post ⟨b1 ++ [p2], some (c2, [])⟩
    obtain ⟨c1, hc1, hc1s⟩ := hq c2 [] rfl
    have hp2 := (getElem?_at_end_of_before hpre).2
    refine ⟨r, p2, c1, ?_, ?_, ?_, ?_⟩
    · simp only [List.nil_append, expandBedLongListToNeighborLoopExact, List.isEmpty_cons, hstep1,
        hstep2]
      exact hr
    · simpa [hlen] using hp2
    · simpa [hlen] using hc1
    · rw [hend] at hrule
      rw [hc1s]
      exact hrule
  | q :: pre, st => by
    intro hinv hpre
    obtain ⟨st1, hstep, hlen, hprev⟩ := neighborBody_not_last d st q
    have hinv1 : ∀ q1 bt1, st1.prev = some (q1, bt1) → q1.chrom = p.chrom →
        q1.chromEnd ≤ p.chromEnd := by
      intro q1 bt1 h1 hch
      rcases hprev q1 bt1 h1 with ⟨bt, hb⟩ | ⟨e1, e2⟩
      · exact hinv q1 bt hb hch
      · rw [e2]; exact hpre q (List.mem_cons_self _ _) (e1.symm.trans hch)
    obtain ⟨r, p1, c1, hr, h1, h2, h3⟩ := neighborLoop_gap d p c post hp hc hg pre st1 hinv1
      (fun x hx => hpre x (List.mem_cons_of_mem _ hx))
    refine ⟨r, p1, c1, ?_, ?_, ?_, h3⟩
    · have hne : (pre ++ p :: c :: post).isEmpty = false := by
        cases pre <;> rfl
      rw [List.cons_append, expandBedLongListToNeighborLoopExact, hne, hstep]
      exact hr
    · rw [hlen] at h1
      rw [List.length_cons, ← h1]
      congr 1
      omega
    · rw [hlen] at h2
      rw [List.length_cons, ← h2]
      congr 1
      omega

theorem split_at_pair {l : List bedLong} {i : Nat} {p c : bedLong}
    (hp : l[i]? = some p) (hc : l[i + 1]? = some c) :
    l = l.take i ++ p :: c :: l.drop (i + 2) ∧ (l.take i).length = i := by
  obtain ⟨h1, e1⟩ := List.getElem?_eq_some.1 hp
  obtain ⟨h2, e2⟩ := List.getElem?_eq_some.1 hc
  refine ⟨?_, by simp; omega⟩
  have hd1 : l.drop i = p :: l.drop (i + 1) := by
    rw [← e1]; exact List.drop_eq_getElem_cons h1
  have hd2 : l.drop (i + 1) = c :: l.drop (i + 2) := by
    rw [← e2]; exact List.drop_eq_getElem_cons h2
  rw [← hd2, ← hd1, List.take_append_drop]

/-- In the sorted list `[chr1 0 100], [chr1 10 20], [chr1 30 40]` with `d = 5` the records
`[chr1 10 20]` and `[chr1 30 40]` have gap `10 >= 2 * 5`, but the second lies inside
`[chr1 0 100]`, which stays `prev`: the sweep returns `[chr1 0 100], [chr1 10 20],
[chr1 30 45]`, where the two are still 10 apart. -/
theorem gapRuleExact_fails_behind_longer_interval :
    sortedByStart [⟨"chr1", 0, 100, none, [], '+'⟩, ⟨"chr1", 10, 20, none, [], '+'⟩,
      ⟨"chr1", 30, 40, none, [], '+'⟩] ∧
    positiveLength [⟨"chr1", 0, 100, none, [], '+'⟩, ⟨"chr1", 10, 20, none, [], '+'⟩,
      ⟨"chr1", 30, 40, none, [], '+'⟩] ∧
    nonNegStart [⟨"chr1", 0, 100, none, [], '+'⟩, ⟨"chr1", 10, 20, none, [], '+'⟩,
      ⟨"chr1", 30, 40, none, [], '+'⟩] ∧
    expandBedLongListToNeighborExact [⟨"chr1", 0, 100, none, [], '+'⟩,
      ⟨"chr1", 10, 20, none, [], '+'⟩, ⟨"chr1", 30, 40, none, [], '+'⟩] 5 =
      .ok [⟨"chr1", 0, 100, none, [], '+'⟩, ⟨"chr1", 10, 20, none, [], '+'⟩,
        ⟨"chr1", 30, 45, none, [], '+'⟩] ∧
    ¬ gapRuleExact [⟨"chr1", 0, 100, none, [], '+'⟩, ⟨"chr1", 10, 20, none, [], '+'⟩,
      ⟨"chr1", 30, 40, none, [], '+'⟩] 5 1 := by
  refine ⟨by simp [sortedByStart, bedLongCmp, strcmp, strcmpAux], by decide, by decide, rfl, ?_⟩
  intro h
  obtain ⟨r, p1, c1, hr, hp1, hc1, hrule⟩ := h ⟨"chr1", 10, 20, none, [], '+'⟩
    ⟨"chr1", 30, 40, none, [], '+'⟩ rfl rfl rfl (by decide)
  have hval : expandBedLongListToNeighborExact [⟨"chr1", 0, 100, none, [], '+'⟩,
      ⟨"chr1", 10, 20, none, [], '+'⟩, ⟨"chr1", 30, 40, none, [], '+'⟩] 5 =
      .ok [⟨"chr1", 0, 100, none, [], '+'⟩, ⟨"chr1", 10, 20, none, [], '+'⟩,
        ⟨"chr1", 30, 45, none, [], '+'⟩] := rfl
  rw [hval] at hr
  injection hr with hr
  subst hr
  simp only [List.getElem?_cons_succ, List.getElem?_cons_zero, Option.some.injEq] at hp1 hc1
  subst hp1 hc1
  simp at hrule

/-- Over exact integers the gap rule holds at a position whose record `prev` is reached by no
earlier record of its chromosome, in every list with `0 <= start < end`. -/
theorem gapRuleExact_of_prev_reaching_furthest (l : List bedLong) (d : Int) (i : Nat)
    (hv : positiveLength l) (h0 : nonNegStart l)
    (hfar : ∀ p, l[i]? = some p →
      ∀ q ∈ l.take i, q.chrom = p.chrom → q.chromEnd ≤ p.chromEnd) :
    gapRuleExact l d i := by
  intro p c hp hc hchrom hg
  obtain ⟨hl, hlen⟩ := split_at_pair hp hc
  have hpmem : p ∈ l := List.getElem?_mem hp
  have hpos : 0 < p.chromEnd := lt_of_le_of_lt (h0 p hpmem) (hv p hpmem)
  obtain ⟨r, p1, c1, hr, h1, h2, h3⟩ := neighborLoop_gap d p c (l.drop (i + 2)) hpos hchrom hg
    (l.take i) ⟨[], none⟩ (by intro q bt h; simp at h) (hfar p hp)
  refine ⟨r, p1, c1, ?_, ?_, ?_, h3⟩
  · unfold expandBedLongListToNeighborExact
    rw [← hl] at hr
    exact hr
  · rw [hlen] at h1
    simpa [neighborSweep.toList] using h1
  · rw [hlen] at h2
    simpa [neighborSweep.toList] using h2

/-! ## Trailing edge of the neighbour bounded expansion -/

theorem trailingEdge_true_chromEnd (d : Int) (x : bedLong) :
    (trailingEdgeExact d true x).chromEnd = x.chromEnd + d := rfl

/-- The turn of the loop on the last record of the list never fails and leaves that record,
with `distance` added to its end, as the last record passed. -/
theorem neighborBody_last (d : Int) (st : neighborSweep) (x : bedLong) :
    ∃ st1 x1, neighborBodyExact d st x true = .ok st1 ∧
      st1.toList[st.toList.length]? = some x1 ∧ x1.chromEnd = x.chromEnd + d := by
  obtain ⟨before, prev⟩ := st
  cases prev with
  | none =>
    exact ⟨_, trailingEdgeExact d true { x with chromStart := maxLong 0 (x.chromStart - d) },
      neighborBody_none d before x true, by simp [neighborSweep.toList], rfl⟩
  | some qb =>
    obtain ⟨q, bt⟩ := qb
    by_cases hc : q.chrom = x.chrom
    · rw [neighborBody_same d before q bt x _ hc]
      split_ifs
      · refine ⟨_, trailingEdgeExact d true { x with chromStart := maxLong 0 (x.chromStart - d) },
          rfl, ?_, rfl⟩
        simp only [neighborSweep.toList]
        rw [List.getElem?_append_right (by simp)]
        simp
      · refine ⟨_, trailingEdgeExact d true
          { x with chromStart := Int.tdiv (x.chromStart + q.chromEnd) 2 }, rfl, ?_, rfl⟩
        simp only [neighborSweep.toList]
        rw [List.getElem?_append_right (by simp)]
        simp
      · refine ⟨_, trailingEdgeExact d true x, rfl, ?_, rfl⟩
        simp only [neighborSweep.toList]
        rw [List.getElem?_append_right (by simp)]
        simp
      · refine ⟨_, trailingEdgeExact d true x, rfl, ?_, rfl⟩
        simp only [neighborSweep.toList]
        rw [List.getElem?_append_right (by simp)]
        simp
    · refine ⟨_, trailingEdgeExact d true { x with chromStart := maxLong 0 (x.chromStart - d) },
        neighborBody_diff d before q bt x true hc, ?_, rfl⟩
      simp only [neighborSweep.toList]
      rw [List.getElem?_append_right (by simp)]
      simp

theorem neighborLoop_last (d : Int) (p : bedLong) :
    ∀ (pre : List bedLong) (st : neighborSweep),
      ∃ r p1, expandBedLongListToNeighborLoopExact d st (pre ++ [p]) = .ok r ∧
        r[st.toList.length + pre.length]? = some p1 ∧ p1.chromEnd = p.chromEnd + d
  | [], st => by
    obtain ⟨st1, x1, hstep, hget, hend⟩ := neighborBody_last d st p
    refine ⟨st1.toList, x1, ?_, by simpa using hget, hend⟩
    simp only [List.nil_append, expandBedLongListToNeighborLoopExact, List.isEmpty_nil, hstep]
  | q :: pre, st => by
    obtain ⟨st1, hstep, hlen, _⟩ := neighborBody_not_last d st q
    obtain ⟨r, p1, hr, h1, h2⟩ := neighborLoop_last d p pre st1
    refine ⟨r, p1, ?_, ?_, h2⟩
    · have hne : (pre ++ [p]).isEmpty = false := by cases pre <;> rfl
      rw [List.cons_append, expandBedLongListToNeighborLoopExact, hne, hstep]
      exact hr
    · rw [hlen] at h1
      rw [List.length_cons, ← h1]
      congr 1
      omega

/-- Running the loop up to a record `p` that is not the last one and reaches at least as far
as every record passed on its chromosome: `p` is then what `prev` points at, its end
untouched. -/
theorem neighborLoop_reach (d : Int) (p c : bedLong) (post : List bedLong) :
    ∀ (pre : List bedLong) (st : neighborSweep),
      (∀ q bt, st.prev = some (q, bt) → q.chrom = p.chrom → q.chromEnd ≤ p.chromEnd) →
      (∀ q ∈ pre, q.chrom = p.chrom → q.chromEnd ≤ p.chromEnd) →
      ∃ b1 p1, expandBedLongListToNeighborLoopExact d st (pre ++ p :: c :: post) =
          expandBedLongListToNeighborLoopExact d ⟨b1, some (p1, [])⟩ (c :: post) ∧
        b1.length = st.toList.length + pre.length ∧ p1.chrom = p.chrom ∧
        p1.chromEnd = p.chromEnd
  | [], st => by
    intro hinv _
    obtain ⟨b1, p1, hstep1, hlen, hchr, hend⟩ := neighborBody_becomes_prev d st p hinv
    refine ⟨b1, p1, ?_, by simpa using hlen, hchr, hend⟩
    rw [List.nil_append, expandBedLongListToNeighborLoopExact, List.isEmpty_cons, hstep1]
  | q :: pre, st => by
    intro hinv hpre
    obtain ⟨st1, hstep, hlen, hprev⟩ := neighborBody_not_last d st q
    have hinv1 : ∀ q1 bt1, st1.prev = some (q1, bt1) → q1.chrom = p.chrom →
        q1.chromEnd ≤ p.chromEnd := by
      intro q1 bt1 h1 hch
      rcases hprev q1 bt1 h1 with ⟨bt, hb⟩ | ⟨e1, e2⟩
      · exact hinv q1 bt hb hch
      · rw [e2]; exact hpre q (List.mem_cons_self _ _) (e1.symm.trans hch)
    obtain ⟨b1, p1, hr, h1, h2, h3⟩ := neighborLoop_reach d p c post pre st1 hinv1
      (fun x hx => hpre x (List.mem_cons_of_mem _ hx))
    refine ⟨b1, p1, ?_, ?_, h2, h3⟩
    · have hne : (pre ++ p :: c :: post).isEmpty = false := by cases pre <;> rfl
      rw [List.cons_append, expandBedLongListToNeighborLoopExact, hne, hstep]
      exact hr
    · rw [h1, hlen, List.length_cons]; omega

theorem neighborLoop_chrom_last (d : Int) (p c : bedLong) (post pre : List bedLong)
    (hc : c.chrom ≠ p.chrom)
    (hpre : ∀ q ∈ pre, q.chrom = p.chrom → q.chromEnd ≤ p.chromEnd) :
    ∃ r p1, expandBedLongListToNeighborLoopExact d ⟨[], none⟩ (pre ++ p :: c :: post) = .ok r ∧
      r[pre.length]? = some p1 ∧ p1.chromEnd = p.chromEnd + d := by
  obtain ⟨b1, p1, hrun, hlen, hchr, hend⟩ := neighborLoop_reach d p c post pre ⟨[], none⟩
    (by intro q bt h; simp at h) hpre
  have hne : p1.chrom ≠ c.chrom := fun e => hc (e.symm.trans hchr)
  obtain ⟨r, hr, hpfx, _⟩ := neighborLoop_tail d post
    ⟨b1 ++ { p1 with chromEnd := p1.chromEnd + d } :: [],
      some (trailingEdgeExact d post.isEmpty
        { c with chromStart := maxLong 0 (c.chromStart - d) }, [])⟩
  refine ⟨r, { p1 with chromEnd := p1.chromEnd + d }, ?_, ?_, by simp [hend]⟩
  · rw [hrun, expandBedLongListToNeighborLoopExact, neighborBody_diff d b1 p1 [] c _ hne]
    exact hr
  · have := (getElem?_at_end_of_before hpfx).2
    simpa [hlen, neighborSweep.toList] using this

theorem split_at_last {l : List bedLong} {i : Nat} {p : bedLong}
    (hp : l[i]? = some p) (hn : l[i + 1]? = none) :
    l = l.take i ++ [p] ∧ (l.take i).length = i := by
  obtain ⟨h1, e1⟩ := List.getElem?_eq_some.1 hp
  have h2 : l.length ≤ i + 1 := List.getElem?_eq_none_iff.1 hn
  refine ⟨?_, by simp; omega⟩
  have hd1 : l.drop i = p :: l.drop (i + 1) := by
    rw [← e1]; exact List.drop_eq_getElem_cons h1
  have hd2 : l.drop (i + 1) = [] := List.drop_eq_nil_of_le h2
  rw [← hd2, ← hd1, List.take_append_drop]

/-- In the sorted list `[chr1 0 100], [chr1 10 20], [chr2 30 40]` with `d = 20` the record
`[chr1 10 20]` is the last of `chr1` but lies inside `[chr1 0 100]`, which stays `prev` and
receives the `+ 20`: the second record still ends at 20. -/
theorem trailingRuleExact_fails_behind_longer_interval :
    sortedByStart [⟨"chr1", 0, 100, none, [], '+'⟩, ⟨"chr1", 10, 20, none, [], '+'⟩,
      ⟨"chr2", 30, 40, none, [], '+'⟩] ∧
    expandBedLongListToNeighborExact [⟨"chr1", 0, 100, none, [], '+'⟩,
      ⟨"chr1", 10, 20, none, [], '+'⟩, ⟨"chr2", 30, 40, none, [], '+'⟩] 20 =
      .ok [⟨"chr1", 0, 120, none, [], '+'⟩, ⟨"chr1", 10, 20, none, [], '+'⟩,
        ⟨"chr2", 10, 60, none, [], '+'⟩] ∧
    ¬ trailingRuleExact [⟨"chr1", 0, 100, none, [], '+'⟩, ⟨"chr1", 10, 20, none, [], '+'⟩,
      ⟨"chr2", 30, 40, none, [], '+'⟩] 20 1 := by
  refine ⟨by simp [sortedByStart, bedLongCmp, strcmp, strcmpAux], rfl, ?_⟩
  intro h
  obtain ⟨r, p1, hr, hp1, hend⟩ := h ⟨"chr1", 10, 20, none, [], '+'⟩ rfl
    (Or.inr ⟨⟨"chr2", 30, 40, none, [], '+'⟩, rfl, by decide⟩)
  have hval : expandBedLongListToNeighborExact [⟨"chr1", 0, 100, none, [], '+'⟩,
      ⟨"chr1", 10, 20, none, [], '+'⟩, ⟨"chr2", 30, 40, none, [], '+'⟩] 20 =
      .ok [⟨"chr1", 0, 120, none, [], '+'⟩, ⟨"chr1", 10, 20, none, [], '+'⟩,
        ⟨"chr2", 10, 60, none, [], '+'⟩] := rfl
  rw [hval] at hr
  injection hr with hr
  subst hr
  simp only [List.getElem?_cons_succ, List.getElem?_cons_zero, Option.some.injEq] at hp1
  subst hp1
  simp at hend

/-- Over exact integers the last interval of the list comes out with `end + d`, and so does
an interval followed by another chromosome that no earlier interval of its chromosome
reaches beyond. -/
theorem trailingRuleExact_of_reaching_furthest (l : List bedLong) (d : Int) (i : Nat)
    (hfar : ∀ p, l[i]? = some p → l[i + 1]? ≠ none →
      ∀ q ∈ l.take i, q.chrom = p.chrom → q.chromEnd ≤ p.chromEnd) :
    trailingRuleExact l d i := by
  intro p hp hnext
  rcases hnext with hn | ⟨c, hc, hne⟩
  · obtain ⟨hl, hlen⟩ := split_at_last hp hn
    obtain ⟨r, p1, hr, h1, h2⟩ := neighborLoop_last d p (l.take i) ⟨[], none⟩
    refine ⟨r, p1, ?_, ?_, h2⟩
    · unfold expandBedLongListToNeighborExact
      rw [← hl] at hr
      exact hr
    · rw [hlen] at h1
      simpa [neighborSweep.toList] using h1
  · obtain ⟨hl, hlen⟩ := split_at_pair hp hc
    obtain ⟨r, p1, hr, h1, h2⟩ := neighborLoop_chrom_last d p c (l.drop (i + 2)) (l.take i) hne
      (hfar p hp (by rw [hc]; simp))
    refine ⟨r, p1, ?_, ?_, h2⟩
    · unfold expandBedLongListToNeighborExact
      rw [← hl] at hr
      exact hr
    · rw [hlen] at h1
      exact h1

/-! ## Sortedness after expansion -/

theorem neighborBody_total (d : Int) (st : neighborSweep) (x : bedLong) (isLast : Bool) :
    ∃ st1, neighborBodyExact d st x isLast = .ok st1 := by
  cases isLast with
  | false => obtain ⟨st1, h, _⟩ := neighborBody_not_last d st x; exact ⟨st1, h⟩
  | true => obtain ⟨st1, _, h, _⟩ := neighborBody_last d st x; exact ⟨st1, h⟩

/-- Invariant rule for the neighbour expansion loop: a property of the sweep state and of
the records still ahead that every turn of the loop keeps holds at the end, and the loop
returns the records of the final state. -/
theorem neighborLoop_invariant (d : Int) (I : neighborSweep → List bedLong → Prop)
    (hstep : ∀ st c rest st1, I st (c :: rest) →
      neighborBodyExact d st c rest.isEmpty = .ok st1 → I st1 rest) :
    ∀ (rest : List bedLong) (st : neighborSweep), I st rest →
      ∃ stf, expandBedLongListToNeighborLoopExact d st rest = .ok stf.toList ∧ I stf []
  | [], st => fun h => ⟨st, rfl, h⟩
  | c :: rest, st => by
    intro h
    obtain ⟨st1, hst1⟩ := neighborBody_total d st c rest.isEmpty
    obtain ⟨stf, hf, hI⟩ := neighborLoop_invariant d I hstep rest st1 (hstep st c rest st1 h hst1)
    refine ⟨stf, ?_, hI⟩
    rw [expandBedLongListToNeighborLoopExact, hst1]
    exact hf

theorem bedLongCmp_le_iff_keyLe (a b : bedLong) :
    bedLongCmp a b ≤ 0 ↔ keyLe (bedKey a) (bedKey b) := bedLongCmp_le_iff a b

theorem pairwise_cmp_iff_keys (l : List bedLong) :
    l.Pairwise (fun a b => bedLongCmp a b ≤ 0) ↔ (l.map bedKey).Pairwise keyLe := by
  rw [List.pairwise_map]
  simp only [bedLongCmp_le_iff_keyLe]

theorem keyLe_trans {a b c : String × Int} (h1 : keyLe a b) (h2 : keyLe b c) : keyLe a c := by
  unfold keyLe at *
  rcases h1 with h1 | ⟨e1, s1⟩
  · rcases h2 with h2 | ⟨e2, _⟩
    · exact Or.inl (strcmp_lt_of_lt_of_le h1 (le_of_lt h2))
    · rw [← e2]; exact Or.inl h1
  · rcases h2 with h2 | ⟨e2, s2⟩
    · rw [e1]; exact Or.inl h2
    · exact Or.inr ⟨e1.trans e2, le_trans s1 s2⟩

/-- Appending a key to a sorted key list keeps it sorted when the new key is on the
chromosome of a key `c` that every old key precedes, with a start not below the starts of
the old keys on that chromosome. -/
theorem pairwise_keys_append {ks : List (String × Int)} {chrom : String} {s s1 : Int}
    (hks : ks.Pairwise keyLe) (hle : ∀ k ∈ ks, keyLe k (chrom, s))
    (hs1 : ∀ k ∈ ks, k.1 = chrom → k.2 ≤ s1) :
    (ks ++ [(chrom, s1)]).Pairwise keyLe := by
  rw [List.pairwise_append]
  refine ⟨hks, List.pairwise_singleton _ _, ?_⟩
  intro k hk y hy
  rw [List.mem_singleton] at hy
  subst hy
  rcases hle k hk with h | ⟨e, _⟩
  · exact Or.inl h
  · exact Or.inr ⟨e, hs1 k hk e⟩

theorem trailingEdge_chrom (d : Int) (isLast : Bool) (x : bedLong) :
    (trailingEdgeExact d isLast x).chrom = x.chrom := by
  unfold trailingEdgeExact; split_ifs <;> rfl

theorem trailingEdge_bedKey (d : Int) (isLast : Bool) (x : bedLong) :
    bedKey (trailingEdgeExact d isLast x) = bedKey x := by
  unfold trailingEdgeExact bedKey; split_ifs <;> rfl

theorem trailingEdge_chromEnd_ge (d : Int) (isLast : Bool) (x : bedLong) (hd : 0 ≤ d) :
    x.chromEnd ≤ (trailingEdgeExact d isLast x).chromEnd := by
  unfold trailingEdgeExact; split_ifs
  · show x.chromEnd ≤ x.chromEnd + d; omega
  · exact le_refl _

theorem tdiv_two_between {a b : Int} (ha : 0 ≤ a) (hab : a ≤ b) :
    a ≤ Int.tdiv (b + a) 2 ∧ Int.tdiv (b + a) 2 ≤ b := by
  rw [Int.tdiv_eq_ediv (by omega) (by omega)]
  omega

/-- One turn of the loop on the keys of the records passed: the key of `curr` is appended,
with a start that is not above the old start of `curr` and not below the start of any record
passed on the chromosome of `curr`. -/
theorem neighborBody_keys (d : Int) (hd : 0 ≤ d) (st : neighborSweep) (c : bedLong)
    (isLast : Bool) (st1 : neighborSweep)
    (hks : (st.toList.map bedKey).Pairwise keyLe)
    (hle : ∀ k ∈ st.toList.map bedKey, keyLe k (bedKey c))
    (hnone : st.prev = none → st.before = [])
    (hprev : ∀ p bt, st.prev = some (p, bt) →
      p.chromStart ≤ p.chromEnd ∧ 0 ≤ p.chromEnd ∧
        ∀ x ∈ bt, x.chrom = p.chrom ∧ x.chromStart ≤ p.chromEnd)
    (hc0 : 0 ≤ c.chromStart) (hcv : c.chromStart < c.chromEnd)
    (hstep : neighborBodyExact d st c isLast = .ok st1) :
    ∃ s1, st1.toList.map bedKey = st.toList.map bedKey ++ [(c.chrom, s1)] ∧
      s1 ≤ c.chromStart ∧ (∀ k ∈ st.toList.map bedKey, k.1 = c.chrom → k.2 ≤ s1) ∧
      (st1.prev = none → st1.before = []) ∧
      (∀ p bt, st1.prev = some (p, bt) →
        p.chromStart ≤ p.chromEnd ∧ 0 ≤ p.chromEnd ∧
          ∀ x ∈ bt, x.chrom = p.chrom ∧ x.chromStart ≤ p.chromEnd) := by
  obtain ⟨before, prev⟩ := st
  have hmax : maxLong 0 (c.chromStart - d) ≤ c.chromStart := by rw [maxLong_eq]; omega
  have hte := trailingEdge_chromEnd_ge d isLast
  cases prev with
  | none =>
    have hb : before = [] := hnone rfl
    subst hb
    rw [neighborBody_none] at hstep
    injection hstep with hstep
    subst hstep
    refine ⟨maxLong 0 (c.chromStart - d), ?_, hmax, by simp [neighborSweep.toList], by simp, ?_⟩
    · simp [neighborSweep.toList, bedKey, trailingEdge_chrom, trailingEdge_chromStart]
    · intro p bt h
      simp only [Option.some.injEq, Prod.mk.injEq] at h
      obtain ⟨rfl, rfl⟩ := h
      have := hte { c with chromStart := maxLong 0 (c.chromStart - d) } hd
      rw [trailingEdge_chromStart]
      simp only at this ⊢
      exact ⟨by omega, by omega, by simp⟩
  | some qb =>
    obtain ⟨q, bt⟩ := qb
    obtain ⟨hq1, hq2, hq3⟩ := hprev q bt rfl
    simp only [neighborSweep.toList, List.map_append, List.map_cons] at hks hle ⊢
    -- every record passed on the chromosome of `prev` starts before the end of `prev`
    have hA : ∀ k ∈ before.map bedKey ++ bedKey q :: bt.map bedKey,
        k.1 = q.chrom → k.2 ≤ q.chromEnd := by
      intro k hk hkc
      rcases List.mem_append.1 hk with hk | hk
      · have := (List.pairwise_append.1 hks).2.2 k hk (bedKey q) (List.mem_cons_self _ _)
        rcases this with h | ⟨_, h⟩
        · exact absurd hkc (strcmp_lt_ne h)
        · exact le_trans h hq1
      · rcases List.mem_cons.1 hk with rfl | hk
        · exact hq1
        · obtain ⟨x, hx, rfl⟩ := List.mem_map.1 hk
          exact (hq3 x hx).2
    by_cases hc : q.chrom = c.chrom
    · rw [neighborBody_same d before q bt c _ hc] at hstep
      have hfromle : ∀ k ∈ before.map bedKey ++ bedKey q :: bt.map bedKey,
          k.1 = c.chrom → k.2 ≤ c.chromStart := by
        intro k hk hkc
        rcases hle k hk with h | ⟨_, h⟩
        · exact absurd hkc (strcmp_lt_ne h)
        · exact h
      split_ifs at hstep with h1 h2 h3
      · injection hstep with hstep
        subst hstep
        refine ⟨maxLong 0 (c.chromStart - d), ?_, hmax, ?_, by simp, ?_⟩
        · simp [bedKey, trailingEdge_chrom, trailingEdge_chromStart]
        · intro k hk hkc
          have := hA k hk (hkc.trans hc.symm)
          rw [maxLong_eq]; omega
        · intro p bt1 h
          simp only [Option.some.injEq, Prod.mk.injEq] at h
          obtain ⟨rfl, rfl⟩ := h
          have := hte { c with chromStart := maxLong 0 (c.chromStart - d) } hd
          rw [trailingEdge_chromStart]
          simp only at this ⊢
          exact ⟨by omega, by omega, by simp⟩
      · injection hstep with hstep
        subst hstep
        have hmid := tdiv_two_between hq2 (show q.chromEnd ≤ c.chromStart by omega)
        refine ⟨Int.tdiv (c.chromStart + q.chromEnd) 2, ?_, hmid.2, ?_, by simp, ?_⟩
        · simp [bedKey, trailingEdge_chrom, trailingEdge_chromStart]
        · intro k hk hkc
          have := hA k hk (hkc.trans hc.symm)
          omega
        · intro p bt1 h
          simp only [Option.some.injEq, Prod.mk.injEq] at h
          obtain ⟨rfl, rfl⟩ := h
          have := hte { c with chromStart := Int.tdiv (c.chromStart + q.chromEnd) 2 } hd
          rw [trailingEdge_chromStart]
          simp only at this ⊢
          exact ⟨by omega, by omega, by simp⟩
      · injection hstep with hstep
        subst hstep
        refine ⟨c.chromStart, ?_, le_refl _, hfromle, by simp, ?_⟩
        · simp [bedKey, trailingEdge_chrom, trailingEdge_chromStart]
        · intro p bt1 h
          simp only [Option.some.injEq, Prod.mk.injEq] at h
          obtain ⟨rfl, rfl⟩ := h
          have := hte c hd
          rw [trailingEdge_chromStart]
          exact ⟨by omega, by omega, by simp⟩
      · injection hstep with hstep
        subst hstep
        refine ⟨c.chromStart, ?_, le_refl _, hfromle, by simp, ?_⟩
        · simp [bedKey, trailingEdge_chrom, trailingEdge_chromStart]
        · intro p bt1 h
          simp only [Option.some.injEq, Prod.mk.injEq] at h
          obtain ⟨rfl, rfl⟩ := h
          refine ⟨hq1, hq2, ?_⟩
          intro x hx
          rcases List.mem_append.1 hx with hx | hx
          · exact hq3 x hx
          · rw [List.mem_singleton] at hx
            subst hx
            rw [trailingEdge_chrom, trailingEdge_chromStart]
            exact ⟨hc.symm, by omega⟩
    · rw [neighborBody_diff d before q bt c _ hc] at hstep
      injection hstep with hstep
      subst hstep
      refine ⟨maxLong 0 (c.chromStart - d), ?_, hmax, ?_, by simp, ?_⟩
      · simp [neighborSweep.toList, bedKey, trailingEdge_chrom, trailingEdge_chromStart]
      · intro k hk hkc
        exfalso
        have hqc : strcmp q.chrom c.chrom < 0 := by
          rcases hle (bedKey q) (by simp) with h | ⟨h, _⟩
          · exact h
          · exact absurd h hc
        rcases List.mem_append.1 hk with hk | hk
        · have := (List.pairwise_append.1 hks).2.2 k hk (bedKey q) (List.mem_cons_self _ _)
          rcases this with h | ⟨h, _⟩
          · exact strcmp_lt_ne (strcmp_lt_of_lt_of_le h (le_of_lt hqc)) hkc
          · have h2 : strcmp k.1 c.chrom < 0 := by rw [h]; exact hqc
            exact strcmp_lt_ne h2 hkc
        · rcases List.mem_cons.1 hk with rfl | hk
          · exact hc hkc
          · obtain ⟨x, hx, rfl⟩ := List.mem_map.1 hk
            exact hc ((hq3 x hx).1.symm.trans hkc)
      · intro p bt1 h
        simp only [Option.some.injEq, Prod.mk.injEq] at h
        obtain ⟨rfl, rfl⟩ := h
        have := hte { c with chromStart := maxLong 0 (c.chromStart - d) } hd
        rw [trailingEdge_chromStart]
        simp only at this ⊢
        exact ⟨by omega, by omega, by simp⟩

theorem sortedSweep_step (d : Int) (hd : 0 ≤ d) (st : neighborSweep) (c : bedLong)
    (rest : List bedLong) (st1 : neighborSweep) (h : sortedSweep st (c :: rest))
    (hstep : neighborBodyExact d st c rest.isEmpty = .ok st1) : sortedSweep st1 rest := by
  obtain ⟨hks, hle, hnone, hprev, hrest, hv, h0⟩ := h
  obtain ⟨s1, hkeys, hs1, hlow, hnone1, hprev1⟩ := neighborBody_keys d hd st c rest.isEmpty st1
    hks (fun k hk => hle k hk c (List.mem_cons_self _ _)) hnone hprev
    (h0 c (List.mem_cons_self _ _)) (hv c (List.mem_cons_self _ _)) hstep
  refine ⟨?_, ?_, hnone1, hprev1, (List.pairwise_cons.1 hrest).2,
    fun x hx => hv x (List.mem_cons_of_mem _ hx), fun x hx => h0 x (List.mem_cons_of_mem _ hx)⟩
  · rw [hkeys]
    exact pairwise_keys_append hks (fun k hk => hle k hk c (List.mem_cons_self _ _)) hlow
  · intro k hk y hy
    rw [hkeys] at hk
    rcases List.mem_append.1 hk with hk | hk
    · exact hle k hk y (List.mem_cons_of_mem _ hy)
    · rw [List.mem_singleton] at hk
      subst hk
      have hcy := (bedLongCmp_le_iff_keyLe c y).1 ((List.pairwise_cons.1 hrest).1 y hy)
      rcases hcy with h | ⟨e, hs⟩
      · exact Or.inl h
      · exact Or.inr ⟨e, le_trans hs1 hs⟩

theorem expandBedLongListToNeighbor_sorted {l : List bedLong} {d : Int}
    (hs : sortedByStart l) (hv : positiveLength l) (h0 : nonNegStart l) (hd : 0 ≤ d) :
    ∃ r, expandBedLongListToNeighborExact l d = .ok r ∧ sortedByStart r := by
  obtain ⟨stf, hr, hI⟩ := neighborLoop_invariant d sortedSweep
    (fun st c rest st1 h hstep => sortedSweep_step d hd st c rest st1 h hstep) l ⟨[], none⟩
    ⟨by simp [neighborSweep.toList], by simp [neighborSweep.toList], fun _ => rfl,
      by intro p bt h; simp at h, sortedByStart_pairwise hs, hv, h0⟩
  refine ⟨stf.toList, hr, ?_⟩
  have := (pairwise_cmp_iff_keys stf.toList).2 hI.1
  exact List.Pairwise.chain' this

theorem expandBedLongListByDistance_eq_map (l : List bedLong) (d : Int) :
    expandBedLongListByDistanceExact l d = l.map (fun a =>
      { a with chromStart := maxLong 0 (a.chromStart - d), chromEnd := a.chromEnd + d }) := by
  induction l with
  | nil => rfl
  | cons a rest ih => simp [expandBedLongListByDistanceExact, ih]

theorem expandBedLongListByDistance_sorted {l : List bedLong} (d : Int)
    (hs : sortedByStart l) : sortedByStart (expandBedLongListByDistanceExact l d) := by
  unfold sortedByStart at *
  rw [expandBedLongListByDistance_eq_map, List.chain'_map]
  refine List.Chain'.imp ?_ hs
  intro a b hab
  rw [bedLongCmp_le_iff] at hab ⊢
  simp only [maxLong_eq]
  rcases hab with h | ⟨e, h⟩
  · exact Or.inl h
  · exact Or.inr ⟨e, by omega⟩

/-- Over exact integers both expansions keep a list with `0 <= start < end` sorted. -/
theorem expansionExact_keeps_sorted (l : List bedLong) (d : Int)
    (hs : sortedByStart l) (hv : positiveLength l) (h0 : nonNegStart l) (hd : 0 ≤ d) :
    sortedByStart (expandBedLongListByDistanceExact l d) ∧
      ∃ r, expandBedLongListToNeighborExact l d = .ok r ∧ sortedByStart r :=
  ⟨expandBedLongListByDistance_sorted d hs, expandBedLongListToNeighbor_sorted hs hv h0 hd⟩

/-! ## Overlap freedom after neighbour bounded expansion -/

theorem sepBefore_of_sorted_apart {l : List bedLong}
    (hs : l.Pairwise (fun a b => bedLongCmp a b ≤ 0)) (hv : positiveLength l)
    (hdis : noSelfOverlap l) : l.Pairwise sepBefore := by
  refine List.Pairwise.imp_of_mem ?_ (List.Pairwise.and hs hdis)
  intro a b ha hb hab
  obtain ⟨h1, h2⟩ := hab
  rw [bedLongCmp_le_iff] at h1
  rw [Bool.eq_false_iff, ne_eq, bedLongOverlap_iff] at h2
  have va := hv a ha
  have vb := hv b hb
  rcases h1 with h | ⟨e, hst⟩
  · exact Or.inl h
  · refine Or.inr ⟨e, ?_⟩
    by_contra hcon
    exact h2 ⟨e, va, by omega, by omega, vb⟩

theorem apartSweep_step (d : Int) (hd : 0 ≤ d) (st : neighborSweep) (c : bedLong)
    (rest : List bedLong) (st1 : neighborSweep) (h : apartSweep st (c :: rest))
    (hstep : neighborBodyExact d st c rest.isEmpty = .ok st1) : apartSweep st1 rest := by
  obtain ⟨hpw, hval, hnone, hprev, hrest, hv, h0⟩ := h
  obtain ⟨before, prev⟩ := st
  have hc0 := h0 c (List.mem_cons_self _ _)
  have hcv := hv c (List.mem_cons_self _ _)
  have hmax : maxLong 0 (c.chromStart - d) ≤ c.chromStart := by rw [maxLong_eq]; omega
  have hte := trailingEdge_chromEnd_ge d rest.isEmpty
  have hrest1 := (List.pairwise_cons.1 hrest).2
  have hv1 : positiveLength rest := fun x hx => hv x (List.mem_cons_of_mem _ hx)
  have h01 : nonNegStart rest := fun x hx => h0 x (List.mem_cons_of_mem _ hx)
  -- the new `prev` lies before the records still ahead
  have hahead : ∀ c1 : bedLong, c1.chrom = c.chrom →
      ∀ y ∈ rest, sepBefore (trailingEdgeExact d rest.isEmpty c1) y ∨ c1.chromEnd ≠ c.chromEnd := by
    intro c1 hch y hy
    by_cases he : c1.chromEnd = c.chromEnd
    · left
      have hne : rest.isEmpty = false := by
        cases rest with
        | nil => simp at hy
        | cons _ _ => rfl
      rw [hne, trailingEdge_false]
      have := (List.pairwise_cons.1 hrest).1 y hy
      unfold sepBefore at this ⊢
      rw [hch, he]
      exact this
    · exact Or.inr he
  have hnew : ∀ c1 : bedLong, c1.chrom = c.chrom → c1.chromEnd = c.chromEnd →
      ∀ p bt, some (trailingEdgeExact d rest.isEmpty c1, ([] : List bedLong)) = some (p, bt) →
        bt = [] ∧ 0 ≤ p.chromEnd ∧ ∀ y ∈ rest, sepBefore p y := by
    intro c1 hch he p bt h
    simp only [Option.some.injEq, Prod.mk.injEq] at h
    obtain ⟨rfl, rfl⟩ := h
    refine ⟨rfl, ?_, ?_⟩
    · have := hte c1 hd
      omega
    · intro y hy
      rcases hahead c1 hch y hy with h | h
      · exact h
      · exact absurd he h
  cases prev with
  | none =>
    have hb : before = [] := hnone rfl
    subst hb
    rw [neighborBody_none] at hstep
    injection hstep with hstep
    subst hstep
    refine ⟨by simp [neighborSweep.toList], ?_, by simp, ?_, hrest1, hv1, h01⟩
    · intro x hx
      simp only [neighborSweep.toList, List.nil_append, List.mem_singleton] at hx
      subst hx
      have := hte { c with chromStart := maxLong 0 (c.chromStart - d) } hd
      rw [trailingEdge_chromStart]
      simp only at this ⊢
      omega
    · exact hnew _ rfl rfl
  | some qb =>
    obtain ⟨q, bt⟩ := qb
    obtain ⟨hbt, hq0, hqrest⟩ := hprev q bt rfl
    subst hbt
    have hqc := hqrest c (List.mem_cons_self _ _)
    simp only [neighborSweep.toList] at hpw hval
    have hqv : q.chromStart ≤ q.chromEnd := hval q (by simp)
    have hbq : ∀ x ∈ before, sepBefore x q := fun x hx =>
      (List.pairwise_append.1 hpw).2.2 x hx q (List.mem_singleton_self _)
    have hbb : before.Pairwise sepBefore := (List.pairwise_append.1 hpw).1
    -- shape shared by the three reachable branches
    have key : ∀ (q1 c1 : bedLong), q1.chrom = q.chrom → q1.chromStart = q.chromStart →
        q.chromEnd ≤ q1.chromEnd → c1.chrom = c.chrom → c1.chromEnd = c.chromEnd →
        c1.chromStart ≤ c.chromStart → (q.chrom = c.chrom → q1.chromEnd ≤ c1.chromStart) →
        apartSweep ⟨before ++ [q1], some (trailingEdgeExact d rest.isEmpty c1, [])⟩ rest := by
      intro q1 c1 hq1c hq1s hq1e hc1c hc1e hc1s hgap
      have hq1c1 : sepBefore q1 (trailingEdgeExact d rest.isEmpty c1) := by
        unfold sepBefore at hqc ⊢
        rw [trailingEdge_chrom, trailingEdge_chromStart, hq1c, hc1c]
        rcases hqc with h | ⟨e, _⟩
        · exact Or.inl h
        · exact Or.inr ⟨e, hgap e⟩
      refine ⟨?_, ?_, by simp, hnew c1 hc1c hc1e, hrest1, hv1, h01⟩
      · simp only [neighborSweep.toList, List.append_assoc, List.singleton_append]
        rw [List.pairwise_append]
        refine ⟨hbb, ?_, ?_⟩
        · rw [List.pairwise_cons]
          exact ⟨fun y hy => by rw [List.mem_singleton] at hy; subst hy; exact hq1c1,
            List.pairwise_singleton _ _⟩
        · intro x hx y hy
          have hxq := hbq x hx
          rcases List.mem_cons.1 hy with rfl | hy
          · unfold sepBefore at hxq ⊢
            rw [hq1c, hq1s]; exact hxq
          · rw [List.mem_singleton] at hy
            subst hy
            unfold sepBefore at hxq hqc hq1c1 ⊢
            rw [trailingEdge_chrom, trailingEdge_chromStart, hc1c] at hq1c1 ⊢
            rw [hq1c] at hq1c1
            rcases hxq with h | ⟨e, hx1⟩
            · rcases hqc with h2 | ⟨e2, _⟩
              · exact Or.inl (strcmp_lt_of_lt_of_le h (le_of_lt h2))
              · rw [← e2]; exact Or.inl h
            · rcases hq1c1 with h2 | ⟨e2, h3⟩
              · rw [e]; exact Or.inl h2
              · exact Or.inr ⟨e.trans e2, by omega⟩
      · intro x hx
        simp only [neighborSweep.toList, List.append_assoc, List.singleton_append,
          List.mem_append, List.mem_cons, List.mem_singleton, List.not_mem_nil, or_false] at hx
        rcases hx with hx | rfl | rfl
        · exact hval x (by simp [hx])
        · omega
        · have := hte c1 hd
          rw [trailingEdge_chromStart]
          omega
    by_cases hc : q.chrom = c.chrom
    · have hgap : q.chromEnd ≤ c.chromStart := by
        rcases hqc with h | ⟨_, h⟩
        · exact absurd hc (strcmp_lt_ne h)
        · exact h
      rw [neighborBody_same d before q [] c _ hc] at hstep
      by_cases h1 : c.chromStart - q.chromEnd ≥ 2 * d
      · rw [if_pos h1] at hstep
        injection hstep with hstep
        subst hstep
        exact key { q with chromEnd := q.chromEnd + d }
          { c with chromStart := maxLong 0 (c.chromStart - d) } rfl rfl
          (by show q.chromEnd ≤ q.chromEnd + d; omega) rfl rfl hmax
          (fun _ => by
            show q.chromEnd + d ≤ maxLong 0 (c.chromStart - d)
            rw [maxLong_eq]; omega)
      · rw [if_neg h1, if_pos (show c.chromStart - q.chromEnd ≥ 0 by omega)] at hstep
        injection hstep with hstep
        subst hstep
        have hmid := tdiv_two_between hq0 hgap
        exact key { q with chromEnd := Int.tdiv (c.chromStart + q.chromEnd) 2 }
          { c with chromStart := Int.tdiv (c.chromStart + q.chromEnd) 2 } rfl rfl
          hmid.1 rfl rfl hmid.2 (fun _ => le_refl _)
    · rw [neighborBody_diff d before q [] c _ hc] at hstep
      injection hstep with hstep
      subst hstep
      exact key { q with chromEnd := q.chromEnd + d }
        { c with chromStart := maxLong 0 (c.chromStart - d) } rfl rfl
        (by show q.chromEnd ≤ q.chromEnd + d; omega) rfl rfl hmax
        (fun e => absurd e hc)

theorem expandBedLongListToNeighbor_apart {l : List bedLong} {d : Int}
    (hs : sortedByStart l) (hv : positiveLength l) (h0 : nonNegStart l)
    (hdis : noSelfOverlap l) (hd : 0 ≤ d) :
    ∃ r, expandBedLongListToNeighborExact l d = .ok r ∧ r.Pairwise sepBefore := by
  obtain ⟨stf, hr, hI⟩ := neighborLoop_invariant d apartSweep
    (fun st c rest st1 h hstep => apartSweep_step d hd st c rest st1 h hstep) l ⟨[], none⟩
    ⟨by simp [neighborSweep.toList], by simp [neighborSweep.toList], fun _ => rfl,
      by intro p bt h; simp at h,
      sepBefore_of_sorted_apart (sortedByStart_pairwise hs) hv hdis, hv, h0⟩
  exact ⟨stf.toList, hr, hI.1⟩

theorem not_overlap_of_sepBefore {a b : bedLong} (h : sepBefore a b) :
    bedLongOverlap a b = false := by
  rw [Bool.eq_false_iff, ne_eq, bedLongOverlap_iff]
  rintro ⟨e, _, _, h4, _⟩
  rcases h with h | ⟨_, h⟩
  · exact strcmp_lt_ne h e
  · omega

/-- Over exact integers the neighbour bounded expansion keeps a sorted list without overlaps
free of overlaps. -/
theorem expandBedLongListToNeighborExact_keeps_apart (l : List bedLong) (d : Int)
    (hs : sortedByStart l) (hv : positiveLength l) (h0 : nonNegStart l)
    (hdis : noSelfOverlap l) (hd : 0 ≤ d) :
    ∃ r, expandBedLongListToNeighborExact l d = .ok r ∧ noSelfOverlap r ∧
      List.Chain' (fun prev curr => prev.chrom = curr.chrom →
        prev.chromEnd ≤ curr.chromStart) r := by
  obtain ⟨r, hr, hpw⟩ := expandBedLongListToNeighbor_apart hs hv h0 hdis hd
  refine ⟨r, hr, List.Pairwise.imp not_overlap_of_sepBefore hpw, ?_⟩
  refine List.Chain'.imp ?_ (List.Pairwise.chain' hpw)
  intro a b hab e
  rcases hab with h | ⟨_, h⟩
  · exact absurd e (strcmp_lt_ne h)
  · exact h

/-! ## Bonferroni correction and the binomial scenario -/

theorem bonferroniCorrection_length (head : List slNameDouble) (n : Int) :
    (bonferroniCorrection head n).length = head.length := by
  induction head with
  | nil => rfl
  | cons a rest ih => simp [bonferroniCorrection, ih]

theorem bonferroniCorrection_getElem? (n : Int) : ∀ (head : List slNameDouble) (i : Nat),
    (bonferroniCorrection head n)[i]? =
      (head[i]?).map (fun curr =>
        { curr with
          number :=
            if curr.number * (n : ℚ) > 1 then 1 else curr.number * (n : ℚ) })
  | [], i => by simp [bonferroniCorrection]
  | a :: rest, 0 => by simp [bonferroniCorrection]
  | a :: rest, i + 1 => by
    simp only [bonferroniCorrection, List.getElem?_cons_succ]
    exact bonferroniCorrection_getElem? n rest i

/-- C14: for every result list and every test count `n`, `bonferroniCorrection` keeps the
number of entries, their order and their terms, and replaces each p-value `p` by
`min 1 (p * n)`, in exact arithmetic. -/
theorem bonferroniCorrection_spec (head : List slNameDouble) (n : Int) :
    (bonferroniCorrection head n).length = head.length ∧
    ∀ (i : Nat) (e : slNameDouble), head[i]? = some e →
      ∃ e1 : slNameDouble, (bonferroniCorrection head n)[i]? = some e1 ∧
        e1.name = e.name ∧ e1.number = min 1 (e.number * (n : ℚ)) := by
  refine ⟨bonferroniCorrection_length head n, ?_⟩
  intro i e hi
  refine ⟨{ e with number := if e.number * (n : ℚ) > 1 then 1 else e.number * (n : ℚ) },
    by rw [bonferroniCorrection_getElem?, hi]; rfl, rfl, ?_⟩
  show (if e.number * (n : ℚ) > 1 then 1 else e.number * (n : ℚ)) = min 1 (e.number * (n : ℚ))
  split_ifs with h
  · exact (min_eq_left (le_of_lt h)).symm
  · exact (min_eq_right (not_lt.1 h)).symm

/-- C16: for elements `[chr1 100 200]`, genes `[chr1 150 250 geneA termX]`, allowed regions
`[chr1 0 1000]`, no expansion and the unassigned-count flag off: `bedLongBases` gives
`totalBalls = 1000`, `bedLongIntersectGoBases` gives `whiteBalls = 100`, `totalPicks = 1`,
`whiteBallsPicked = 1`; `binomialStyle` hands `whiteBallsPicked - 1 = 0`, `prob = 1/10` and
`totalPicks = 1` to whatever tail function it is given, and with the binomial upper tail the
p-value of `termX` is `1/10`. -/
theorem binomialStyle_scenario :
    bedLongBases [⟨"chr1", 0, 1000, none, [], '+'⟩] = some 1000 ∧
    bedLongIntersectGoBases [⟨"chr1", 150, 250, some "geneA", ["termX"], '+'⟩] "termX"
      [⟨"chr1", 0, 1000, none, [], '+'⟩] = some 100 ∧
    bedLongIntersectCount [⟨"chr1", 100, 200, none, [], '+'⟩]
      [⟨"chr1", 150, 250, some "geneA", ["termX"], '+'⟩] = 1 ∧
    bedLongIntersectGoCount [⟨"chr1", 100, 200, none, [], '+'⟩] none
      [⟨"chr1", 150, 250, some "geneA", ["termX"], '+'⟩] (some "termX") none none =
      .ok ⟨1, none, none⟩ ∧
    (∀ tail : Nat → ℚ → Nat → ℚ,
      binomialStyle tail false [⟨"chr1", 100, 200, none, [], '+'⟩]
        [⟨"chr1", 150, 250, some "geneA", ["termX"], '+'⟩] ["termX"]
        [⟨"chr1", 0, 1000, none, [], '+'⟩] none =
      .ok ⟨[⟨"termX", tail 0 (1 / 10) 1⟩], none⟩) ∧
    binomialUpperTail 0 (1 / 10) 1 = 1 / 10 ∧
    binomialStyle binomialUpperTail false [⟨"chr1", 100, 200, none, [], '+'⟩]
      [⟨"chr1", 150, 250, some "geneA", ["termX"], '+'⟩] ["termX"]
      [⟨"chr1", 0, 1000, none, [], '+'⟩] none =
      .ok ⟨[⟨"termX", 1 / 10⟩], none⟩ := by
  have htail : binomialUpperTail 0 (1 / 10) 1 = 1 / 10 := by
    simp [binomialUpperTail, List.range_succ]
  have hstyle : ∀ tail : Nat → ℚ → Nat → ℚ,
      binomialStyle tail false [⟨"chr1", 100, 200, none, [], '+'⟩]
        [⟨"chr1", 150, 250, some "geneA", ["termX"], '+'⟩] ["termX"]
        [⟨"chr1", 0, 1000, none, [], '+'⟩] none =
      .ok ⟨[⟨"termX", tail 0 (1 / 10) 1⟩], none⟩ := by
    intro tail
    simp [binomialStyle, binomialStyleLoop, bedLongBases, bedLongBasesLoop, basesBody,
      resetWatermark, bedLongIntersectGoBases, bedLongIntersectGoBasesLoop, bedLongHasGoTerm,
      slNameInList, intersectBasesBody, addOverlap, bedLongOverlap, bedLongCmpEnd,
      bedLongIntersectGoCount, bedLongIntersectGoCountLoop, termAllows, addHit,
      bedLongIntersectCount, bedLongIntersectCountLoop, strcmp, strcmpAux, minLong, maxLong,
      toUnsigned, wrapLong]
    norm_num
  refine ⟨by decide, ?_, ?_, ?_, hstyle, htail, ?_⟩
  · simp [bedLongIntersectGoBases, bedLongIntersectGoBasesLoop, bedLongHasGoTerm,
      slNameInList, intersectBasesBody, addOverlap, resetWatermark, bedLongOverlap,
      bedLongCmpEnd, strcmp, strcmpAux, minLong, maxLong, wrapLong]
  · simp [bedLongIntersectCount, bedLongIntersectCountLoop, bedLongOverlap, bedLongCmpEnd,
      strcmp, strcmpAux, minLong, maxLong]
  · simp [bedLongIntersectGoCount, bedLongIntersectGoCountLoop, termAllows, addHit,
      bedLongHasGoTerm, slNameInList, bedLongOverlap, bedLongCmpEnd, strcmp, strcmpAux,
      minLong, maxLong]
  · rw [hstyle, htail]

/-! ## The three test styles -/

/-- The hit table `retHitsHash` can be used on the list `l` under the term `t` without an
`errAbort`: there is no table, or there is a term and every record has a name. -/
theorem addHit_ok {h : Option (List (String × String))} {t : Option String} {b : bedLong}
    (hok : h = none ∨ (t ≠ none ∧ b.name ≠ none)) :
    ∃ h1, addHit h t b = .ok h1 ∧ (h = none → h1 = none) := by
  rcases hok with rfl | ⟨ht, hb⟩
  · exact ⟨none, rfl, fun _ => rfl⟩
  · cases h with
    | none => exact ⟨none, rfl, fun _ => rfl⟩
    | some hash =>
      cases hn : b.name with
      | none => exact absurd hn hb
      | some n =>
        cases ht1 : t with
        | none => exact absurd ht1 ht
        | some t1 =>
          refine ⟨some (hashAdd hash t1 n), ?_, fun h => by simp at h⟩
          simp [addHit, hn]

theorem bedLongIntersectGoCountLoop_ok (t1 t2 : Option String) (st : goCounter)
    (A B : List bedLong) :
    (st.hitsOne = none ∨ (t1 ≠ none ∧ ∀ a ∈ A, a.name ≠ none)) →
    (st.hitsTwo = none ∨ (t2 ≠ none ∧ ∀ b ∈ B, b.name ≠ none)) →
    ∃ r, bedLongIntersectGoCountLoop t1 t2 st A B = .ok r ∧
      (st.hitsOne = none → r.hitsOne = none) ∧ (st.hitsTwo = none → r.hitsTwo = none) := by
  induction st, A, B using bedLongIntersectGoCountLoop.induct t1 t2 with
  | case1 st B => intro _ _; exact ⟨st, by simp [bedLongIntersectGoCountLoop], id, id⟩
  | case2 st a as => intro _ _; exact ⟨st, by simp [bedLongIntersectGoCountLoop], id, id⟩
  | case3 st a as b bs h1 h2 hov e he =>
    intro hA _
    exfalso
    obtain ⟨x, hx, _⟩ := addHit_ok (h := st.hitsOne) (t := t1) (b := a)
      (hA.imp id (fun h => ⟨h.1, h.2 a (List.mem_cons_self _ _)⟩))
    rw [he] at hx
    cases hx
  | case4 st a as b bs h1 h2 hov x hx e he =>
    intro _ hB
    exfalso
    obtain ⟨y, hy, _⟩ := addHit_ok (h := st.hitsTwo) (t := t2) (b := b)
      (hB.imp id (fun h => ⟨h.1, h.2 b (List.mem_cons_self _ _)⟩))
    rw [he] at hy
    cases hy
  | case5 st a as b bs h1 h2 hov x hx y hy ih =>
    intro hA hB
    obtain ⟨x1, hx1, hxn⟩ := addHit_ok (h := st.hitsOne) (t := t1) (b := a)
      (hA.imp id (fun h => ⟨h.1, h.2 a (List.mem_cons_self _ _)⟩))
    obtain ⟨y1, hy1, hyn⟩ := addHit_ok (h := st.hitsTwo) (t := t2) (b := b)
      (hB.imp id (fun h => ⟨h.1, h.2 b (List.mem_cons_self _ _)⟩))
    rw [hx] at hx1
    rw [hy] at hy1
    injection hx1 with hx1
    injection hy1 with hy1
    subst hx1 hy1
    obtain ⟨r, hr, hr1, hr2⟩ := ih
      (by
        rcases hA with h | h
        · exact Or.inl (hxn h)
        · exact Or.inr ⟨h.1, fun z hz => h.2 z (List.mem_cons_of_mem _ hz)⟩)
      (by
        rcases hB with h | h
        · exact Or.inl (hyn h)
        · exact Or.inr h)
    refine ⟨r, ?_, fun h => hr1 (hxn h), fun h => hr2 (hyn h)⟩
    rw [bedLongIntersectGoCountLoop, if_pos h1, if_pos h2, if_pos hov]
    simp only [hx, hy]
    exact hr
  | case6 st a as b bs h1 h2 hov hcmp ih =>
    intro hA hB
    obtain ⟨r, hr, hr1, hr2⟩ := ih
      (hA.imp id (fun h => ⟨h.1, fun z hz => h.2 z (List.mem_cons_of_mem _ hz)⟩)) hB
    refine ⟨r, ?_, hr1, hr2⟩
    rw [bedLongIntersectGoCountLoop, if_pos h1, if_pos h2, if_neg hov, if_pos hcmp]
    exact hr
  | case7 st a as b bs h1 h2 hov hcmp ih =>
    intro hA hB
    obtain ⟨r, hr, hr1, hr2⟩ := ih hA
      (hB.imp id (fun h => ⟨h.1, fun z hz => h.2 z (List.mem_cons_of_mem _ hz)⟩))
    refine ⟨r, ?_, hr1, hr2⟩
    rw [bedLongIntersectGoCountLoop, if_pos h1, if_pos h2, if_neg hov, if_neg hcmp]
    exact hr
  | case8 st a as b bs h1 h2 ih =>
    intro hA hB
    obtain ⟨r, hr, hr1, hr2⟩ := ih hA
      (hB.imp id (fun h => ⟨h.1, fun z hz => h.2 z (List.mem_cons_of_mem _ hz)⟩))
    refine ⟨r, ?_, hr1, hr2⟩
    rw [bedLongIntersectGoCountLoop, if_pos h1, if_neg h2]
    exact hr
  | case9 st a as b bs h1 ih =>
    intro hA hB
    obtain ⟨r, hr, hr1, hr2⟩ := ih
      (hA.imp id (fun h => ⟨h.1, fun z hz => h.2 z (List.mem_cons_of_mem _ hz)⟩)) hB
    refine ⟨r, ?_, hr1, hr2⟩
    rw [bedLongIntersectGoCountLoop, if_neg h1]
    exact hr

theorem bedLongIntersectGoCountLoop_count (t1 t2 : Option String) (st : goCounter)
    (A B : List bedLong) :
    ∀ r, bedLongIntersectGoCountLoop t1 t2 st A B = .ok r →
      ∀ c, ∃ g, bedLongIntersectGoCountLoop t1 t2 ⟨c, none, none⟩ A B = .ok g ∧
        r.count + c = st.count + g.count := by
  induction st, A, B using bedLongIntersectGoCountLoop.induct t1 t2 with
  | case1 st B =>
    intro r hr c
    simp only [bedLongIntersectGoCountLoop, Except.ok.injEq] at hr
    subst hr
    exact ⟨⟨c, none, none⟩, by simp [bedLongIntersectGoCountLoop], rfl⟩
  | case2 st a as =>
    intro r hr c
    simp only [bedLongIntersectGoCountLoop, Except.ok.injEq] at hr
    subst hr
    exact ⟨⟨c, none, none⟩, by simp [bedLongIntersectGoCountLoop], rfl⟩
  | case3 st a as b bs h1 h2 hov e he =>
    intro r hr c
    rw [bedLongIntersectGoCountLoop, if_pos h1, if_pos h2, if_pos hov] at hr
    simp only [he] at hr
    cases hr
  | case4 st a as b bs h1 h2 hov x hx e he =>
    intro r hr c
    rw [bedLongIntersectGoCountLoop, if_pos h1, if_pos h2, if_pos hov] at hr
    simp only [hx, he] at hr
    cases hr
  | case5 st a as b bs h1 h2 hov x hx y hy ih =>
    intro r hr c
    rw [bedLongIntersectGoCountLoop, if_pos h1, if_pos h2, if_pos hov] at hr
    simp only [hx, hy] at hr
    obtain ⟨g, hg, hcount⟩ := ih r hr (c + 1)
    refine ⟨g, ?_, by simp only at hcount; omega⟩
    rw [bedLongIntersectGoCountLoop, if_pos h1, if_pos h2, if_pos hov]
    simp only [addHit]
    exact hg
  | case6 st a as b bs h1 h2 hov hcmp ih =>
    intro r hr c
    rw [bedLongIntersectGoCountLoop, if_pos h1, if_pos h2, if_neg hov, if_pos hcmp] at hr
    obtain ⟨g, hg, hcount⟩ := ih r hr c
    refine ⟨g, ?_, hcount⟩
    rw [bedLongIntersectGoCountLoop, if_pos h1, if_pos h2, if_neg hov, if_pos hcmp]
    exact hg
  | case7 st a as b bs h1 h2 hov hcmp ih =>
    intro r hr c
    rw [bedLongIntersectGoCountLoop, if_pos h1, if_pos h2, if_neg hov, if_neg hcmp] at hr
    obtain ⟨g, hg, hcount⟩ := ih r hr c
    refine ⟨g, ?_, hcount⟩
    rw [bedLongIntersectGoCountLoop, if_pos h1, if_pos h2, if_neg hov, if_neg hcmp]
    exact hg
  | case8 st a as b bs h1 h2 ih =>
    intro r hr c
    rw [bedLongIntersectGoCountLoop, if_pos h1, if_neg h2] at hr
    obtain ⟨g, hg, hcount⟩ := ih r hr c
    refine ⟨g, ?_, hcount⟩
    rw [bedLongIntersectGoCountLoop, if_pos h1, if_neg h2]
    exact hg
  | case9 st a as b bs h1 ih =>
    intro r hr c
    rw [bedLongIntersectGoCountLoop, if_neg h1] at hr
    obtain ⟨g, hg, hcount⟩ := ih r hr c
    refine ⟨g, ?_, hcount⟩
    rw [bedLongIntersectGoCountLoop, if_neg h1]
    exact hg

/-- The count that `bedLongIntersectGoCount` returns does not depend on the hit tables: it is
the count of the call without tables. -/
theorem bedLongIntersectGoCount_count {A B : List bedLong} {t1 t2 : Option String}
    {h1 h2 : Option (List (String × String))} {r : goCounter}
    (hr : bedLongIntersectGoCount A t1 B t2 h1 h2 = .ok r) :
    ∃ g, bedLongIntersectGoCount A t1 B t2 none none = .ok g ∧ g.count = r.count := by
  unfold bedLongIntersectGoCount at hr ⊢
  split_ifs at hr with hchk
  obtain ⟨g, hg, hcount⟩ := bedLongIntersectGoCountLoop_count t1 t2 _ A B r hr 0
  refine ⟨g, ?_, by simp only at hcount; omega⟩
  simp only [ne_eq, not_true_eq_false, false_and, or_self, if_false]
  exact hg

/-- `bedLongIntersectGoCount` returns when each hit table it is handed comes with a term and
a list whose records all have names; a call without a table leaves no table. -/
theorem bedLongIntersectGoCount_ok {A B : List bedLong} {t1 t2 : Option String}
    {h1 h2 : Option (List (String × String))}
    (hA : h1 = none ∨ (t1 ≠ none ∧ ∀ a ∈ A, a.name ≠ none))
    (hB : h2 = none ∨ (t2 ≠ none ∧ ∀ b ∈ B, b.name ≠ none)) :
    ∃ r, bedLongIntersectGoCount A t1 B t2 h1 h2 = .ok r ∧
      (h1 = none → r.hitsOne = none) ∧ (h2 = none → r.hitsTwo = none) := by
  unfold bedLongIntersectGoCount
  have hchk : ¬ ((h1 ≠ none ∧ t1 = none) ∨ (h2 ≠ none ∧ t2 = none)) := by
    rintro (⟨n1, e1⟩ | ⟨n2, e2⟩)
    · rcases hA with h | h
      · exact n1 h
      · exact h.1 e1
    · rcases hB with h | h
      · exact n2 h
      · exact h.1 e2
  rw [if_neg hchk]
  exact bedLongIntersectGoCountLoop_ok t1 t2 _ A B hA hB

theorem binomialStyleLoop_spec (Q : Nat → ℚ → Nat → ℚ) (els gns oks : List bedLong)
    (tb : Int) (tp : Nat) : ∀ (terms : List String) (st r : styleState),
    binomialStyleLoop Q els gns oks tb tp st terms = .ok r →
    r.termAndPvalue.map (fun e => e.name) =
        terms.reverse ++ st.termAndPvalue.map (fun e => e.name) ∧
      ∀ e ∈ r.termAndPvalue, e ∈ st.termAndPvalue ∨
        ∀ g, bedLongIntersectGoCount els none gns (some e.name) none none = .ok g →
          g.count = 0 → e.number = 1
  | [], st, r => by
    intro h
    simp only [binomialStyleLoop, Except.ok.injEq] at h
    subst h
    exact ⟨by simp, fun e he => Or.inl he⟩
  | t :: rest, st, r => by
    intro h
    rw [binomialStyleLoop] at h
    cases hwb : bedLongIntersectGoBases gns t oks with
    | none => simp only [hwb] at h; cases h
    | some wb =>
      cases hc : bedLongIntersectGoCount els none gns (some t) none st.retHitsHash with
      | error e => simp only [hwb, hc] at h; cases h
      | ok counted =>
        simp only [hwb, hc] at h
        obtain ⟨hn, he⟩ := binomialStyleLoop_spec Q els gns oks tb tp rest _ r h
        refine ⟨by simpa using hn, ?_⟩
        intro e hmem
        rcases he e hmem with h1 | h1
        · rcases List.mem_cons.1 h1 with rfl | h2
          · right
            intro g hg hg0
            obtain ⟨g1, hg1, hcount⟩ := bedLongIntersectGoCount_count hc
            simp only at hg
            rw [hg1] at hg
            injection hg with hg
            subst hg
            simp only
            rw [if_pos (by omega)]
          · exact Or.inl h2
        · exact Or.inr h1

theorem binomialStyleLoop_ok (Q : Nat → ℚ → Nat → ℚ) (els gns oks : List bedLong)
    (tb : Int) (tp : Nat) (hg : gns ≠ []) : ∀ (terms : List String) (st : styleState),
    (st.retHitsHash = none ∨ ∀ g ∈ gns, g.name ≠ none) →
    ∃ r, binomialStyleLoop Q els gns oks tb tp st terms = .ok r
  | [], st => fun _ => ⟨st, rfl⟩
  | t :: rest, st => by
    intro hh
    obtain ⟨wb, hwb⟩ : ∃ wb, bedLongIntersectGoBases gns t oks = some wb := by
      cases gns with
      | nil => exact absurd rfl hg
      | cons a as => exact ⟨_, rfl⟩
    obtain ⟨counted, hc, _, h2⟩ := @bedLongIntersectGoCount_ok els gns
      none (some t) none st.retHitsHash (Or.inl rfl)
      (hh.imp id (fun h => ⟨by simp, h⟩))
    obtain ⟨r, hr⟩ := binomialStyleLoop_ok Q els gns oks tb tp hg rest
      { termAndPvalue :=
          { name := t
            number :=
              if counted.count = 0 then 1
              else Q (toUnsigned ((counted.count : Int) - 1)) ((wb : ℚ) / (tb : ℚ))
                (toUnsigned tp) } :: st.termAndPvalue
        retHitsHash := counted.hitsTwo }
      (by
        rcases hh with h | h
        · exact Or.inl (h2 h)
        · exact Or.inr h)
    refine ⟨r, ?_⟩
    rw [binomialStyleLoop]
    simp only [hwb, hc]
    exact hr

theorem hypergeometricStyleLoop_spec (Q : Nat → Nat → Nat → Nat → ℚ) (els gns : List bedLong)
    (tb : Nat) : ∀ (terms : List String) (st r : styleState),
    hypergeometricStyleLoop Q els gns tb st terms = .ok r →
    r.termAndPvalue.map (fun e => e.name) =
        terms.reverse ++ st.termAndPvalue.map (fun e => e.name) ∧
      ∀ e ∈ r.termAndPvalue, e ∈ st.termAndPvalue ∨
        ∀ g, bedLongIntersectGoCount gns (some e.name) els none none none = .ok g →
          g.count = 0 → e.number = 1
  | [], st, r => by
    intro h
    simp only [hypergeometricStyleLoop, Except.ok.injEq] at h
    subst h
    exact ⟨by simp, fun e he => Or.inl he⟩
  | t :: rest, st, r => by
    intro h
    rw [hypergeometricStyleLoop] at h
    cases hc : bedLongIntersectGoCount gns (some t) els none st.retHitsHash none with
    | error e => simp only [hc] at h; cases h
    | ok counted =>
      simp only [hc] at h
      obtain ⟨hn, he⟩ := hypergeometricStyleLoop_spec Q els gns tb rest _ r h
      refine ⟨by simpa using hn, ?_⟩
      intro e hmem
      rcases he e hmem with h1 | h1
      · rcases List.mem_cons.1 h1 with rfl | h2
        · right
          intro g hg hg0
          obtain ⟨g1, hg1, hcount⟩ := bedLongIntersectGoCount_count hc
          simp only at hg
          rw [hg1] at hg
          injection hg with hg
          subst hg
          simp only
          rw [if_pos (by omega)]
        · exact Or.inl h2
      · exact Or.inr h1

theorem hypergeometricStyleLoop_ok (Q : Nat → Nat → Nat → Nat → ℚ) (els gns : List bedLong)
    (tb : Nat) : ∀ (terms : List String) (st : styleState),
    (st.retHitsHash = none ∨ ∀ g ∈ gns, g.name ≠ none) →
    ∃ r, hypergeometricStyleLoop Q els gns tb st terms = .ok r
  | [], st => fun _ => ⟨st, rfl⟩
  | t :: rest, st => by
    intro hh
    obtain ⟨counted, hc, h1, _⟩ := @bedLongIntersectGoCount_ok gns els
      (some t) none st.retHitsHash none
      (hh.imp id (fun h => ⟨by simp, h⟩)) (Or.inl rfl)
    obtain ⟨r, hr⟩ := hypergeometricStyleLoop_ok Q els gns tb rest
      { termAndPvalue :=
          { name := t
            number :=
              if counted.count = 0 then 1
              else Q (toUnsigned ((counted.count : Int) - 1))
                (toUnsigned (countGoTermAppearanceInBedLong gns t))
                (toUnsigned ((tb : Int) - (countGoTermAppearanceInBedLong gns t : Int)))
                (toUnsigned (bedLongIntersectCount gns els)) } :: st.termAndPvalue
        retHitsHash := counted.hitsOne }
      (by
        rcases hh with h | h
        · exact Or.inl (h1 h)
        · exact Or.inr h)
    refine ⟨r, ?_⟩
    rw [hypergeometricStyleLoop]
    simp only [hc]
    exact hr

theorem hypergeometricNullModelStyleLoop_spec (Q : Nat → Nat → Nat → Nat → ℚ)
    (els large gns : List bedLong) (tb tp : Nat) :
    ∀ (terms : List String) (acc : List slNameDouble),
    ∃ r, hypergeometricNullModelStyleLoop Q els large gns tb tp acc terms = .ok r ∧
      r.map (fun e => e.name) = terms.reverse ++ acc.map (fun e => e.name) ∧
      ∀ e ∈ r, e ∈ acc ∨
        (bedLongIntersectThreeGoCount large none gns (some e.name) els none = 0 →
          e.number = 1)
  | [], acc => ⟨acc, rfl, by simp, fun e he => Or.inl he⟩
  | t :: rest, acc => by
    obtain ⟨wb, hwb, _, _⟩ := @bedLongIntersectGoCount_ok large gns
      none (some t) none none (Or.inl rfl) (Or.inl rfl)
    obtain ⟨r, hr, hn, he⟩ := hypergeometricNullModelStyleLoop_spec Q els large gns tb tp rest
      ({ name := t
         number :=
           if bedLongIntersectThreeGoCount large none gns (some t) els none = 0 then 1
           else Q (toUnsigned ((bedLongIntersectThreeGoCount large none gns (some t) els
                none : Int) - 1))
             (toUnsigned wb.count) (toUnsigned ((tb : Int) - (wb.count : Int)))
             (toUnsigned tp) } :: acc)
    refine ⟨r, ?_, by simpa using hn, ?_⟩
    · rw [hypergeometricNullModelStyleLoop]
      simp only [hwb]
      exact hr
    · intro e hmem
      rcases he e hmem with h1 | h1
      · rcases List.mem_cons.1 h1 with rfl | h2
        · right
          intro h0
          simp only
          rw [if_pos h0]
        · exact Or.inl h2
      · exact Or.inr h1

/-- C15: in each of `binomialStyle`, `hypergeometricStyle` and `hypergeometricNullModelStyle`,
whatever tail function is plugged in, a returned result holds one entry per tested term (the
terms in reverse order, as `slAddHead` builds the list), and the entry of a term whose
observed hit count `whiteBallsPicked` is 0 has p-value exactly 1. The functions return
whenever no hit table is requested or every gene has a name (the binomial one also
needs non-empty genes and allowed regions, whose heads it reads); the null model one always
returns. -/
theorem zero_hits_give_pvalue_one (tailB : Nat → ℚ → Nat → ℚ)
    (tailH : Nat → Nat → Nat → Nat → ℚ) (optCountUnassigned : Bool)
    (elements genes okRegions largeSet : List bedLong) (goTerms : List String)
    (retHitsHash : Option (List (String × String))) :
    ((∀ r, binomialStyle tailB optCountUnassigned elements genes goTerms okRegions
          retHitsHash = .ok r →
        r.termAndPvalue.map (fun e => e.name) = goTerms.reverse ∧
        ∀ e ∈ r.termAndPvalue,
          ∀ g, bedLongIntersectGoCount elements none genes (some e.name) none none = .ok g →
            g.count = 0 → e.number = 1) ∧
      (okRegions ≠ [] → genes ≠ [] → (retHitsHash = none ∨ ∀ g ∈ genes, g.name ≠ none) →
        ∃ r, binomialStyle tailB optCountUnassigned elements genes goTerms okRegions
          retHitsHash = .ok r)) ∧
    ((∀ r, hypergeometricStyle tailH elements genes goTerms retHitsHash = .ok r →
        r.termAndPvalue.map (fun e => e.name) = goTerms.reverse ∧
        ∀ e ∈ r.termAndPvalue,
          ∀ g, bedLongIntersectGoCount genes (some e.name) elements none none none = .ok g →
            g.count = 0 → e.number = 1) ∧
      ((retHitsHash = none ∨ ∀ g ∈ genes, g.name ≠ none) →
        ∃ r, hypergeometricStyle tailH elements genes goTerms retHitsHash = .ok r)) ∧
    (∃ r, hypergeometricNullModelStyle tailH elements largeSet genes goTerms = .ok r ∧
      r.map (fun e => e.name) = goTerms.reverse ∧
      ∀ e ∈ r,
        bedLongIntersectThreeGoCount largeSet none genes (some e.name) elements none = 0 →
          e.number = 1) := by
  refine ⟨⟨?_, ?_⟩, ⟨?_, ?_⟩, ?_⟩
  · intro r hr
    unfold binomialStyle at hr
    cases hb : bedLongBases okRegions with
    | none => simp only [hb] at hr; cases hr
    | some tb =>
      simp only [hb] at hr
      obtain ⟨hn, he⟩ := binomialStyleLoop_spec tailB elements genes okRegions tb _ goTerms _ r hr
      refine ⟨by simpa using hn, ?_⟩
      intro e hmem
      rcases he e hmem with h | h
      · simp at h
      · exact h
  · intro hok hg hh
    unfold binomialStyle
    obtain ⟨tb, hb⟩ : ∃ tb, bedLongBases okRegions = some tb := by
      cases okRegions with
      | nil => exact absurd rfl hok
      | cons a as => exact ⟨_, rfl⟩
    simp only [hb]
    exact binomialStyleLoop_ok tailB elements genes okRegions tb _ hg goTerms _ hh
  · intro r hr
    unfold hypergeometricStyle at hr
    obtain ⟨hn, he⟩ := hypergeometricStyleLoop_spec tailH elements genes _ goTerms _ r hr
    refine ⟨by simpa using hn, ?_⟩
    intro e hmem
    rcases he e hmem with h | h
    · simp at h
    · exact h
  · intro hh
    exact hypergeometricStyleLoop_ok tailH elements genes _ goTerms _ hh
  · obtain ⟨r, hr, hn, he⟩ := hypergeometricNullModelStyleLoop_spec tailH elements largeSet
      genes (slCount largeSet) (bedLongIntersectCount largeSet elements) goTerms []
    refine ⟨r, hr, by simpa using hn, ?_⟩
    intro e hmem
    rcases he e hmem with h | h
    · simp at h
    · exact h

/-- Witness for C15: one element, one gene carrying `termX`, and the tested term `termY` that
no gene carries: the binomial style returns one entry, with p-value 1. -/
theorem zero_hits_give_pvalue_one_witness :
    ∃ r, binomialStyle binomialUpperTail false [⟨"chr1", 100, 200, none, [], '+'⟩]
        [⟨"chr1", 150, 250, some "geneA", ["termX"], '+'⟩] ["termY"]
        [⟨"chr1", 0, 1000, none, [], '+'⟩] none = .ok r ∧
      r.termAndPvalue.map (fun e => e.name) = ["termY"] ∧
      ∀ e ∈ r.termAndPvalue, e.number = 1 := by
  have h := (zero_hits_give_pvalue_one binomialUpperTail (fun _ _ _ _ => 0) false
    [⟨"chr1", 100, 200, none, [], '+'⟩] [⟨"chr1", 150, 250, some "geneA", ["termX"], '+'⟩]
    [⟨"chr1", 0, 1000, none, [], '+'⟩] [] ["termY"] none).1
  obtain ⟨r, hr⟩ := h.2 (by simp) (by simp) (Or.inl rfl)
  obtain ⟨hn, he⟩ := h.1 r hr
  refine ⟨r, hr, hn, ?_⟩
  intro e hmem
  have hname : e.name = "termY" := by
    have : e.name ∈ r.termAndPvalue.map (fun e => e.name) := List.mem_map_of_mem _ hmem
    rw [hn] at this
    simpa using this
  refine he e hmem ⟨0, none, none⟩ ?_ rfl
  rw [hname]
  simp [bedLongIntersectGoCount, bedLongIntersectGoCountLoop, termAllows, bedLongHasGoTerm,
    slNameInList]

/-! ## Ranked and filtered output -/

theorem slNameDoubleCmp_le_iff (a b : slNameDouble) :
    slNameDoubleCmp a b ≤ 0 ↔ a.number ≤ b.number := by
  unfold slNameDoubleCmp
  split_ifs with h1 h2
  · simp only [gt_iff_lt] at h1
    constructor
    · intro h; omega
    · intro h; exact absurd h (not_le.2 h1)
  · simp [h2]
  · simp only [gt_iff_lt, not_lt] at h1
    simp [h1]

theorem slSort_perm (l : List slNameDouble) : (slSort slNameDoubleCmp l).Perm l :=
  List.perm_insertionSort _ l

theorem slSort_sorted (l : List slNameDouble) :
    (slSort slNameDoubleCmp l).Pairwise (fun a b => a.number ≤ b.number) := by
  haveI : IsTotal slNameDouble (fun a b => slNameDoubleCmp a b ≤ 0) :=
    ⟨fun a b => by simp only [slNameDoubleCmp_le_iff]; exact le_total _ _⟩
  haveI : IsTrans slNameDouble (fun a b => slNameDoubleCmp a b ≤ 0) :=
    ⟨fun a b c h1 h2 => by
      rw [slNameDoubleCmp_le_iff] at *; exact le_trans h1 h2⟩
  have h := List.sorted_insertionSort (fun a b => slNameDoubleCmp a b ≤ 0) l
  exact List.Pairwise.imp (fun {a b} hab => (slNameDoubleCmp_le_iff a b).1 hab) h

/-! ## Reading numbers -/

theorem stringToLongLoop_snd : ∀ (l : List Char) (res : Int),
    (stringToLongLoop res l).2 = l.dropWhile (fun c => decide ('0' ≤ c ∧ c ≤ '9'))
  | [], res => rfl
  | c :: rest, res => by
    by_cases h : '0' ≤ c ∧ c ≤ '9'
    · rw [stringToLongLoop, if_pos h, stringToLongLoop_snd rest, List.dropWhile_cons_of_pos]
      simpa using h
    · rw [stringToLongLoop, if_neg h, List.dropWhile_cons_of_neg]
      simpa using h

theorem afterSign_minus (rest : List Char) : afterSign ('-' :: rest) = rest := rfl

theorem afterSign_other (l : List Char) (h : l.head? ≠ some '-') : afterSign l = l := by
  unfold afterSign
  split
  · simp at h
  · rfl

/-- `stringToLong` returns exactly when the text after the optional sign is not empty and
holds decimal digits only. -/
theorem stringToLong_ok_iff (s : String) :
    (∃ v, stringToLong s = .ok v) ↔
      afterSign s.data ≠ [] ∧ ∀ c ∈ afterSign s.data, '0' ≤ c ∧ c ≤ '9' := by
  unfold stringToLong
  rw [stringToLongLoop_snd]
  constructor
  · intro ⟨v, hv⟩
    split_ifs at hv with h1
    all_goals
      push_neg at h1
      obtain ⟨h2, h3⟩ := h1
      rw [h2] at h3
      refine ⟨fun e => h3 (by rw [e]), ?_⟩
      intro c hc
      have := (List.dropWhile_eq_nil_iff.1 h2) c hc
      simpa using this
  · intro ⟨hne, hall⟩
    have h2 : (afterSign s.data).dropWhile (fun c => decide ('0' ≤ c ∧ c ≤ '9')) = [] := by
      rw [List.dropWhile_eq_nil_iff]
      intro c hc
      simpa using hall c hc
    have h1 : ¬ ((afterSign s.data).dropWhile (fun c => decide ('0' ≤ c ∧ c ≤ '9')) ≠ [] ∨
        ((afterSign s.data).dropWhile (fun c => decide ('0' ≤ c ∧ c ≤ '9'))).length =
          (afterSign s.data).length) := by
      rw [h2]
      push_neg
      exact ⟨rfl, fun e => hne (List.length_eq_zero.1 e.symm)⟩
    rw [if_neg h1]
    split_ifs
    · exact ⟨_, rfl⟩
    · exact ⟨_, rfl⟩

theorem signedDecimal_iff (s : String) :
    signedDecimal s ↔
      afterSign s.data ≠ [] ∧ ∀ c ∈ afterSign s.data, '0' ≤ c ∧ c ≤ '9' := by
  unfold signedDecimal
  by_cases hm : s.data.head? = some '-'
  · obtain ⟨rest, hrest⟩ : ∃ rest, s.data = '-' :: rest := by
      cases hs : s.data with
      | nil => rw [hs] at hm; simp at hm
      | cons c rest =>
        rw [hs] at hm
        simp only [List.head?_cons, Option.some.injEq] at hm
        exact ⟨rest, by rw [hm]⟩
    rw [hrest, afterSign_minus]
    constructor
    · rintro ⟨ds, hne, hall, h | h⟩
      · exfalso
        have := hall '-' (by rw [← h]; simp)
        exact absurd this (by decide)
      · simp only [List.cons.injEq, true_and] at h
        subst h
        exact ⟨hne, hall⟩
    · rintro ⟨hne, hall⟩
      exact ⟨rest, hne, hall, Or.inr rfl⟩
  · rw [afterSign_other _ hm]
    constructor
    · rintro ⟨ds, hne, hall, h | h⟩
      · rw [h]; exact ⟨hne, hall⟩
      · rw [h] at hm; simp at hm
    · rintro ⟨hne, hall⟩
      exact ⟨s.data, hne, hall, Or.inl rfl⟩

theorem stringToLong_cases (s : String) :
    (∃ v, stringToLong s = .ok v) ∨ (∃ e, stringToLong s = .error e) := by
  cases h : stringToLong s with
  | ok v => exact Or.inl ⟨v, rfl⟩
  | error e => exact Or.inr ⟨e, rfl⟩

theorem stringToLong_error_iff (s : String) :
    (∃ e, stringToLong s = .error e) ↔ ¬ signedDecimal s := by
  rw [signedDecimal_iff, ← stringToLong_ok_iff]
  constructor
  · rintro ⟨e, he⟩ ⟨v, hv⟩
    rw [he] at hv
    cases hv
  · intro h
    rcases stringToLong_cases s with hv | he
    · exact absurd hv h
    · exact he

/-- C18: `stringToLong` fails (aborts) if and only if the string is not an optional single
leading `-` followed by one or more decimal digits and nothing else. In particular it fails
on the empty string, on `-` alone, on a leading `+`, and on any string with a character
that is not a digit after the optional sign. -/
theorem stringToLong_fails_iff (s : String) :
    ((∃ e, stringToLong s = .error e) ↔ ¬ signedDecimal s) ∧
    (∃ e, stringToLong "" = .error e) ∧
    (∃ e, stringToLong "-" = .error e) ∧
    (∀ rest : List Char, ∃ e, stringToLong ⟨'+' :: rest⟩ = .error e) ∧
    (∀ body : List Char, (∃ c ∈ body, ¬ ('0' ≤ c ∧ c ≤ '9')) →
      (∃ e, stringToLong ⟨'-' :: body⟩ = .error e) ∧
      (body.head? ≠ some '-' → ∃ e, stringToLong ⟨body⟩ = .error e)) := by
  refine ⟨stringToLong_error_iff s, ?_, ?_, ?_, ?_⟩
  · rw [stringToLong_error_iff, signedDecimal_iff]
    rintro ⟨h, _⟩
    exact h rfl
  · rw [stringToLong_error_iff, signedDecimal_iff]
    rintro ⟨h, _⟩
    exact h rfl
  · intro rest
    rw [stringToLong_error_iff, signedDecimal_iff]
    rintro ⟨_, h⟩
    have := h '+' (by rw [afterSign_other _ (by simp)]; simp)
    exact absurd this (by decide)
  · rintro body ⟨c, hc, hnd⟩
    constructor
    · rw [stringToLong_error_iff, signedDecimal_iff]
      rintro ⟨_, h⟩
      exact hnd (h c (by rw [afterSign_minus]; exact hc))
    · intro hh
      rw [stringToLong_error_iff, signedDecimal_iff]
      rintro ⟨_, h⟩
      exact hnd (h c (by rw [afterSign_other _ hh]; exact hc))

/-! ## Decimal texts -/

theorem digitChar_spec (d : Nat) (hd : d < 10) :
    ('0' ≤ digitChar d ∧ digitChar d ≤ '9') ∧ (digitChar d).toNat = 48 + d := by
  unfold digitChar
  interval_cases d <;> decide

theorem wrapLong_of_range {x : Int} (h0 : 0 ≤ x) (h1 : x < 9223372036854775808) :
    wrapLong x = x := by
  unfold wrapLong
  omega

theorem wrapLong_neg_of_range {x : Int} (h0 : 0 ≤ x) (h1 : x < 9223372036854775808) :
    wrapLong (-x) = -x := by
  unfold wrapLong
  omega

/-- The number that a list of digit values stands for when read left to right after `res`. -/
theorem foldl_digits_ge : ∀ (ds : List Nat) (res : Int), 0 ≤ res →
    res ≤ ds.foldl appendDigit res
  | [], res, _ => le_refl _
  | d :: ds, res, h => by
    have := foldl_digits_ge ds (res * 10 + (d : Int)) (by positivity)
    simp only [List.foldl_cons, appendDigit]
    omega

theorem stringToLongLoop_digits : ∀ (ds : List Nat) (res : Int), (∀ d ∈ ds, d < 10) →
    0 ≤ res → ds.foldl appendDigit res < 9223372036854775808 →
    stringToLongLoop res (ds.map digitChar) =
      (ds.foldl appendDigit res, [])
  | [], res, _, _, _ => rfl
  | d :: ds, res, hd, h0, hlt => by
    obtain ⟨hdig, hnat⟩ := digitChar_spec d (hd d (List.mem_cons_self _ _))
    have hge := foldl_digits_ge ds (res * 10 + (d : Int)) (by positivity)
    simp only [List.foldl_cons, appendDigit] at hlt
    have hz : ('0' : Char).toNat = 48 := by decide
    have h1 : wrapLong (res * 10) = res * 10 := wrapLong_of_range (by positivity) (by omega)
    have h2 : wrapLong (res * 10 + (d : Int)) = res * 10 + (d : Int) :=
      wrapLong_of_range (by positivity) (by omega)
    rw [List.map_cons, stringToLongLoop, if_pos hdig, hnat, hz, h1]
    have : res * 10 + (((48 + d : Nat) : Int) - ((48 : Nat) : Int)) = res * 10 + (d : Int) := by
      push_cast; ring
    rw [this, h2, List.foldl_cons]
    show _ = (List.foldl appendDigit (res * 10 + (d : Int)) ds, [])
    exact stringToLongLoop_digits ds (res * 10 + (d : Int))
      (fun x hx => hd x (List.mem_cons_of_mem _ hx)) (by positivity) hlt

theorem foldl_digits_reverse : ∀ (L : List Nat) (res : Int),
    L.reverse.foldl appendDigit res =
      res * 10 ^ L.length + ((Nat.ofDigits 10 L : Nat) : Int)
  | [], res => by simp [Nat.ofDigits_nil]
  | d :: L, res => by
    rw [List.reverse_cons, List.foldl_append, foldl_digits_reverse L res]
    simp only [List.foldl_cons, List.foldl_nil, List.length_cons, Nat.ofDigits_cons,
      appendDigit]
    push_cast
    ring

theorem foldl_digits_zeros : ∀ (k : Nat) (ds : List Nat),
    (List.replicate k 0 ++ ds).foldl appendDigit 0 =
      ds.foldl appendDigit 0
  | 0, ds => by simp
  | k + 1, ds => by
    rw [List.replicate_succ, List.cons_append, List.foldl_cons]
    simpa [appendDigit] using foldl_digits_zeros k ds

/-- The digit values behind `decimalText`. -/
theorem decimalText_eq_map (n : Nat) :
    ∃ ds : List Nat, decimalText n = ds.map digitChar ∧ ds ≠ [] ∧ (∀ d ∈ ds, d < 10) ∧
      ds.foldl appendDigit 0 = (n : Int) := by
  unfold decimalText
  by_cases h : n = 0
  · subst h
    exact ⟨[0], by simp [digitChar], by simp, by simp, by simp [appendDigit]⟩
  · rw [if_neg h]
    refine ⟨(Nat.digits 10 n).reverse, rfl, ?_, ?_, ?_⟩
    · simpa using (Nat.digits_ne_nil_iff_ne_zero.2 h)
    · intro d hd
      exact Nat.digits_lt_base (by norm_num) (List.mem_reverse.1 hd)
    · rw [foldl_digits_reverse, Nat.ofDigits_digits]
      simp

theorem stringToLongLoop_text (zeros n : Nat) (hn : (n : Int) < 9223372036854775808) :
    stringToLongLoop 0 (List.replicate zeros '0' ++ decimalText n) = ((n : Int), []) ∧
    List.replicate zeros '0' ++ decimalText n ≠ [] ∧
    (List.replicate zeros '0' ++ decimalText n).head? ≠ some '-' := by
  obtain ⟨ds, htext, hne, hd, hval⟩ := decimalText_eq_map n
  have hz : List.replicate zeros '0' = (List.replicate zeros 0).map digitChar := by
    simp [digitChar]
  have hall : ∀ d ∈ List.replicate zeros 0 ++ ds, d < 10 := by
    intro d hdm
    rcases List.mem_append.1 hdm with h | h
    · rw [List.eq_of_mem_replicate h]; norm_num
    · exact hd d h
  have hfold : (List.replicate zeros 0 ++ ds).foldl appendDigit 0 =
      (n : Int) := by rw [foldl_digits_zeros, hval]
  rw [htext, hz, ← List.map_append]
  refine ⟨?_, ?_, ?_⟩
  · rw [stringToLongLoop_digits _ 0 hall (le_refl _) (by rw [hfold]; exact hn), hfold]
  · simp [hne]
  · intro hh
    cases hl : List.replicate zeros 0 ++ ds with
    | nil => rw [hl] at hh; simp at hh
    | cons d rest =>
      rw [hl] at hh
      simp only [List.map_cons, List.head?_cons, Option.some.injEq] at hh
      have := (digitChar_spec d (hall d (by rw [hl]; simp))).1.1
      rw [hh] at this
      exact absurd this (by decide)

/-- C19: for every integer `n` with `|n| < 2^63`, `stringToLong` applied to a decimal text of
`n` (a `-` sign when `n` is negative, any number of leading zeros, then the digits) succeeds
and returns `n`; no step of the 64 bit arithmetic overflows. -/
theorem stringToLong_decimalText (n : Int) (zeros : Nat) (hn : |n| < 2 ^ 63) :
    stringToLong (signedDecimalText zeros n) = .ok n := by
  have hlt : ((n.natAbs : Nat) : Int) < 9223372036854775808 := by
    have := abs_lt.1 hn
    omega
  obtain ⟨hloop, hne, hhead⟩ := stringToLongLoop_text zeros n.natAbs hlt
  unfold stringToLong signedDecimalText
  by_cases hneg : n < 0
  · simp only [if_pos hneg, List.singleton_append, afterSign_minus, hloop, List.head?_cons]
    have hcond : ¬ (([] : List Char) ≠ [] ∨ ([] : List Char).length =
        (List.replicate zeros '0' ++ decimalText n.natAbs).length) := by
      push_neg
      exact ⟨rfl, fun e => hne (List.length_eq_zero.1 e.symm)⟩
    rw [if_neg hcond, if_pos trivial, wrapLong_neg_of_range (by positivity) hlt]
    congr 1
    omega
  · simp only [if_neg hneg, List.nil_append, afterSign_other _ hhead, hloop]
    have hcond : ¬ (([] : List Char) ≠ [] ∨ ([] : List Char).length =
        (List.replicate zeros '0' ++ decimalText n.natAbs).length) := by
      push_neg
      exact ⟨rfl, fun e => hne (List.length_eq_zero.1 e.symm)⟩
    rw [if_neg hcond, if_neg hhead]
    congr 1
    omega

/-- Witness for C19: the text `-0042` is read as `-42`. -/
theorem stringToLong_decimalText_witness :
    stringToLong (signedDecimalText 2 (-42)) = .ok (-42) :=
  stringToLong_decimalText (-42) 2 (by norm_num)

/-! ## Unique terms of a gene list -/

/-- The loop of `extractUniqGoTermsFromBedLong` collects the terms it started with and the
terms of every record it walked over. -/
theorem mem_extractUniqGoTermsLoop (t : String) (l : List bedLong) :
    ∀ acc : List String,
      t ∈ extractUniqGoTermsLoop acc l ↔ t ∈ acc ∨ ∃ b ∈ l, t ∈ b.goTerms := by
  induction l with
  | nil => intro acc; simp [extractUniqGoTermsLoop]
  | cons futon rest ih =>
    intro acc
    rw [extractUniqGoTermsLoop, ih]
    simp only [slCat, slNameCloneList, List.mem_append, List.mem_cons, exists_eq_or_imp]
    tauto

/-- A term is returned exactly when some record of the list carries it. -/
theorem mem_extractUniqGoTermsFromBedLong (t : String) (l : List bedLong) :
    t ∈ extractUniqGoTermsFromBedLong l ↔ ∃ b ∈ l, t ∈ b.goTerms := by
  simp [extractUniqGoTermsFromBedLong, slUniqify, mem_extractUniqGoTermsLoop]

/-- Lists with the same records up to order and repeats carry the same terms. -/
theorem sameUpToRepeats_terms {l1 l2 : List bedLong} (h : sameUpToRepeats l1 l2) (t : String) :
    (∃ b ∈ l1, t ∈ b.goTerms) ↔ ∃ c ∈ l2, t ∈ c.goTerms := by
  constructor
  · rintro ⟨b, hb, ht⟩
    obtain ⟨c, hc, hbc⟩ := h.1 b hb
    exact ⟨c, hc, (hbc.2.2.2.2.2 t).1 ht⟩
  · rintro ⟨c, hc, ht⟩
    obtain ⟨b, hb, hbc⟩ := h.2 c hc
    exact ⟨b, hb, (hbc.2.2.2.2.2 t).2 ht⟩

/-- C20: for every gene list `extractUniqGoTermsFromBedLong` returns a list without repeated
term, in which a term occurs exactly when it is in the term list of some record of the gene
list; hence a permutation of the gene list, and a gene list that differs only in how often a
record or a term is repeated, give the same set of terms. -/
theorem extractUniqGoTermsFromBedLong_spec (l : List bedLong) :
    (extractUniqGoTermsFromBedLong l).Nodup ∧
      (∀ t, t ∈ extractUniqGoTermsFromBedLong l ↔ ∃ b ∈ l, t ∈ b.goTerms) ∧
      (∀ l2, l.Perm l2 →
        (extractUniqGoTermsFromBedLong l2).toFinset = (extractUniqGoTermsFromBedLong l).toFinset) ∧
      (∀ l2, sameUpToRepeats l l2 →
        (extractUniqGoTermsFromBedLong l2).toFinset =
          (extractUniqGoTermsFromBedLong l).toFinset) := by
  refine ⟨?_, fun t => mem_extractUniqGoTermsFromBedLong t l, ?_, ?_⟩
  · exact List.nodup_dedup _
  · intro l2 hp
    ext t
    simp only [List.mem_toFinset, mem_extractUniqGoTermsFromBedLong]
    constructor
    · rintro ⟨b, hb, ht⟩
      exact ⟨b, hp.mem_iff.2 hb, ht⟩
    · rintro ⟨b, hb, ht⟩
      exact ⟨b, hp.mem_iff.1 hb, ht⟩
  · intro l2 h
    ext t
    simp only [List.mem_toFinset, mem_extractUniqGoTermsFromBedLong]
    exact (sameUpToRepeats_terms h t).symm

/-- C20 at a concrete input: a gene list with a repeated record and a repeated term against
the same records in the other order, each written once. -/
theorem extractUniqGoTermsFromBedLong_spec_witness :
    sameUpToRepeats
        [⟨"chr1", 0, 10, some "g1", ["a", "b", "a"], '+'⟩,
          ⟨"chr1", 20, 30, some "g2", ["b", "c"], '-'⟩,
          ⟨"chr1", 0, 10, some "g1", ["a", "b", "a"], '+'⟩]
        [⟨"chr1", 20, 30, some "g2", ["b", "c"], '-'⟩,
          ⟨"chr1", 0, 10, some "g1", ["a", "b"], '+'⟩] ∧
      (extractUniqGoTermsFromBedLong
        [⟨"chr1", 20, 30, some "g2", ["b", "c"], '-'⟩,
          ⟨"chr1", 0, 10, some "g1", ["a", "b"], '+'⟩]).toFinset =
      (extractUniqGoTermsFromBedLong
        [⟨"chr1", 0, 10, some "g1", ["a", "b", "a"], '+'⟩,
          ⟨"chr1", 20, 30, some "g2", ["b", "c"], '-'⟩,
          ⟨"chr1", 0, 10, some "g1", ["a", "b", "a"], '+'⟩]).toFinset := by
  have hs : sameUpToRepeats
      [⟨"chr1", 0, 10, some "g1", ["a", "b", "a"], '+'⟩,
        ⟨"chr1", 20, 30, some "g2", ["b", "c"], '-'⟩,
        ⟨"chr1", 0, 10, some "g1", ["a", "b", "a"], '+'⟩]
      [⟨"chr1", 20, 30, some "g2", ["b", "c"], '-'⟩,
        ⟨"chr1", 0, 10, some "g1", ["a", "b"], '+'⟩] := by
    simp [sameUpToRepeats, sameUpToTermRepeats]
    intro t
    tauto
  exact ⟨hs, (extractUniqGoTermsFromBedLong_spec _).2.2.2 _ hs⟩

/-! ## Guessing the transcription start -/

theorem carrying_eq_filter (t : Option String) (l : List bedLong) :
    carrying t l = l.filter (termAllows t) := by
  cases t with
  | none => exact (List.filter_eq_self.2 (fun b _ => rfl)).symm
  | some t =>
    unfold carrying
    apply List.filter_congr
    intro b _
    simp [termAllows, bedLongHasGoTerm, slNameInList]

theorem bedLongIntersectCountLoop_nil_right (count : Nat) (A : List bedLong) :
    bedLongIntersectCountLoop count A [] = count := by
  cases A <;> simp [bedLongIntersectCountLoop]

/-- Without hit tables the loop of `bedLongIntersectGoCount` returns, and its count is that of
the `bedLongIntersectCount` loop on the records the term tests let through. -/
theorem bedLongIntersectGoCountLoop_eq (t1 t2 : Option String) (st : goCounter)
    (A B : List bedLong) :
    st.hitsOne = none → st.hitsTwo = none →
      bedLongIntersectGoCountLoop t1 t2 st A B =
        .ok ⟨bedLongIntersectCountLoop st.count (A.filter (termAllows t1))
          (B.filter (termAllows t2)), none, none⟩ := by
  induction st, A, B using bedLongIntersectGoCountLoop.induct t1 t2 with
  | case1 st B =>
    intro e1 e2
    cases st
    simp only at e1 e2
    subst e1 e2
    simp [bedLongIntersectGoCountLoop, bedLongIntersectCountLoop]
  | case2 st a as =>
    intro e1 e2
    cases st
    simp only at e1 e2
    subst e1 e2
    simp [bedLongIntersectGoCountLoop, bedLongIntersectCountLoop_nil_right]
  | case3 st a as b bs h1 h2 hov e he =>
    intro e1 e2
    rw [e1] at he
    simp [addHit] at he
  | case4 st a as b bs h1 h2 hov x hx e he =>
    intro e1 e2
    rw [e2] at he
    simp [addHit] at he
  | case5 st a as b bs h1 h2 hov x hx y hy ih =>
    intro e1 e2
    rw [e1] at hx
    rw [e2] at hy
    simp only [addHit, Except.ok.injEq] at hx hy
    subst hx hy
    rw [bedLongIntersectGoCountLoop, if_pos h1, if_pos h2, if_pos hov, e1, e2]
    simp only [addHit]
    rw [ih rfl rfl, List.filter_cons_of_pos h1, List.filter_cons_of_pos h2]
    conv_rhs => rw [bedLongIntersectCountLoop, if_pos hov]
  | case6 st a as b bs h1 h2 hov hcmp ih =>
    intro e1 e2
    rw [bedLongIntersectGoCountLoop, if_pos h1, if_pos h2, if_neg hov, if_pos hcmp, ih e1 e2,
      List.filter_cons_of_pos h1, List.filter_cons_of_pos h2]
    conv_rhs => rw [bedLongIntersectCountLoop, if_neg hov, if_pos hcmp]
  | case7 st a as b bs h1 h2 hov hcmp ih =>
    intro e1 e2
    rw [bedLongIntersectGoCountLoop, if_pos h1, if_pos h2, if_neg hov, if_neg hcmp, ih e1 e2,
      List.filter_cons_of_pos h1, List.filter_cons_of_pos h2]
    conv_rhs => rw [bedLongIntersectCountLoop, if_neg hov, if_neg hcmp]
  | case8 st a as b bs h1 h2 ih =>
    intro e1 e2
    rw [bedLongIntersectGoCountLoop, if_pos h1, if_neg h2, ih e1 e2,
      List.filter_cons_of_neg h2]
  | case9 st a as b bs h1 ih =>
    intro e1 e2
    rw [bedLongIntersectGoCountLoop, if_neg h1, ih e1 e2, List.filter_cons_of_neg h1]

/-- Without hit tables `bedLongIntersectGoCount` returns the count of `bedLongIntersectCount`
on the sublists of the records that carry the terms. -/
theorem bedLongIntersectGoCount_eq (A B : List bedLong) (tA tB : Option String) :
    bedLongIntersectGoCount A tA B tB none none =
      .ok ⟨bedLongIntersectCount (carrying tA A) (carrying tB B), none, none⟩ := by
  unfold bedLongIntersectGoCount bedLongIntersectCount
  simp only [ne_eq, not_true_eq_false, false_and, or_self, if_false]
  rw [bedLongIntersectGoCountLoop_eq tA tB _ A B rfl rfl, carrying_eq_filter,
    carrying_eq_filter]

/-- C23: for all lists `A` and `B` and all optional terms `tA` and `tB` (an absent term
filters nothing), with no hit tables requested, `bedLongIntersectGoCount` returns the value
of `bedLongIntersectCount` on the sublists (order kept) of the elements of `A` carrying `tA`
and of `B` carrying `tB`; with both terms absent it returns `bedLongIntersectCount A B`. -/
theorem bedLongIntersectGoCount_refines_count (A B : List bedLong) (tA tB : Option String) :
    (∃ r, bedLongIntersectGoCount A tA B tB none none = .ok r ∧
      r.count = bedLongIntersectCount (carrying tA A) (carrying tB B)) ∧
    (∃ r, bedLongIntersectGoCount A none B none none none = .ok r ∧
      r.count = bedLongIntersectCount A B) :=
  ⟨⟨_, bedLongIntersectGoCount_eq A B tA tB, rfl⟩,
    ⟨_, bedLongIntersectGoCount_eq A B none none, rfl⟩⟩

/-! ## Term filtered base count -/

theorem bedLongIntersectBasesLoop_nil_right (st : baseCounter) (A : List bedLong) :
    bedLongIntersectBasesLoop st A [] = st.sum := by
  cases A <;> simp [bedLongIntersectBasesLoop]

/-- The loop of `bedLongIntersectGoBases` is the loop of `bedLongIntersectBases` on the genes
that carry the term, from any state of the counter. -/
theorem bedLongIntersectGoBasesLoop_eq (goTerm : String) (st : baseCounter)
    (G R : List bedLong) :
    bedLongIntersectGoBasesLoop goTerm st G R =
      bedLongIntersectBasesLoop st (G.filter (fun g => bedLongHasGoTerm g goTerm)) R := by
  induction st, G, R using bedLongIntersectGoBasesLoop.induct goTerm with
  | case1 st R => simp [bedLongIntersectGoBasesLoop, bedLongIntersectBasesLoop]
  | case2 st g gs =>
    simp [bedLongIntersectGoBasesLoop, bedLongIntersectBasesLoop_nil_right]
  | case3 st g gs s ss h hcmp ih =>
    have hf : List.filter (fun g => bedLongHasGoTerm g goTerm) (g :: gs) =
        g :: List.filter (fun g => bedLongHasGoTerm g goTerm) gs := by simp [h]
    rw [bedLongIntersectGoBasesLoop, if_pos h, if_pos hcmp, ih, hf]
    conv_rhs => rw [bedLongIntersectBasesLoop, if_pos hcmp]
  | case4 st g gs s ss h hcmp ih =>
    have hf : List.filter (fun g => bedLongHasGoTerm g goTerm) (g :: gs) =
        g :: List.filter (fun g => bedLongHasGoTerm g goTerm) gs := by simp [h]
    rw [bedLongIntersectGoBasesLoop, if_pos h, if_neg hcmp, ih, hf]
    conv_rhs => rw [bedLongIntersectBasesLoop, if_neg hcmp]
  | case5 st g gs s ss h ih =>
    have hf : List.filter (fun g => bedLongHasGoTerm g goTerm) (g :: gs) =
        List.filter (fun g => bedLongHasGoTerm g goTerm) gs := by simp [h]
    rw [bedLongIntersectGoBasesLoop, if_neg h, ih, hf]

/-- The chromosome `prevChr` starts with does not matter as long as sum and watermark start
at zero: the first turn of the loop sets it to the chromosome of the first record. -/
theorem bedLongIntersectBasesLoop_start (c : String) (a : bedLong) (as R : List bedLong) :
    bedLongIntersectBasesLoop ⟨c, 0, 0⟩ (a :: as) R =
      bedLongIntersectBasesLoop ⟨a.chrom, 0, 0⟩ (a :: as) R := by
  have hreset : resetWatermark ⟨c, 0, 0⟩ a.chrom = resetWatermark ⟨a.chrom, 0, 0⟩ a.chrom := by
    unfold resetWatermark
    by_cases h : strcmp c a.chrom = 0
    · rw [(strcmp_eq_zero _ _).1 h]
    · simp [h, strcmp_self]
  cases R with
  | nil => simp [bedLongIntersectBasesLoop]
  | cons b bs =>
    have hbody : intersectBasesBody ⟨c, 0, 0⟩ a b = intersectBasesBody ⟨a.chrom, 0, 0⟩ a b := by
      unfold intersectBasesBody
      rw [hreset]
    rw [bedLongIntersectBasesLoop, bedLongIntersectBasesLoop, hbody]

/-- For a non-empty gene list of which some gene carries the term, `bedLongIntersectGoBases`
is `bedLongIntersectBases` on the genes that carry the term. -/
theorem bedLongIntersectGoBases_eq (genes regions : List bedLong) (term : String)
    (hsome : ∃ g ∈ genes, term ∈ g.goTerms) :
    bedLongIntersectGoBases genes term regions =
      bedLongIntersectBases (carrying (some term) genes) regions ∧
    ∃ v, bedLongIntersectGoBases genes term regions = some v := by
  obtain ⟨g, hg, hterm⟩ := hsome
  have hmem : g ∈ carrying (some term) genes := by
    simp [carrying, hg, hterm]
  cases genes with
  | nil => simp at hg
  | cons g0 gs =>
    refine ⟨?_, _, rfl⟩
    rw [bedLongIntersectGoBases, bedLongIntersectGoBasesLoop_eq]
    have hfil : List.filter (fun g => bedLongHasGoTerm g term) (g0 :: gs) =
        carrying (some term) (g0 :: gs) := (carrying_eq_filter (some term) (g0 :: gs)).symm
    rw [hfil]
    cases hcar : carrying (some term) (g0 :: gs) with
    | nil => rw [hcar] at hmem; simp at hmem
    | cons a as =>
      rw [bedLongIntersectBases, bedLongIntersectBasesLoop_start]

/-- For a non-empty gene list of which no gene carries the term, `bedLongIntersectGoBases`
returns `0`. -/
theorem bedLongIntersectGoBases_eq_zero (genes regions : List bedLong) (term : String)
    (hne : genes ≠ []) (hnone : ∀ g ∈ genes, term ∉ g.goTerms) :
    bedLongIntersectGoBases genes term regions = some 0 := by
  cases genes with
  | nil => exact absurd rfl hne
  | cons g0 gs =>
    rw [bedLongIntersectGoBases, bedLongIntersectGoBasesLoop_eq]
    have hfil : List.filter (fun g => bedLongHasGoTerm g term) (g0 :: gs) = [] := by
      rw [List.filter_eq_nil_iff]
      intro g hg
      simpa [bedLongHasGoTerm, slNameInList] using hnone g hg
    rw [hfil]
    simp [bedLongIntersectBasesLoop]

/-- C22: for every non-empty gene list and every region list (sorted or not) and every term
carried by at least one gene, `bedLongIntersectGoBases genes term regions` returns the value
of `bedLongIntersectBases` on the sublist (order kept) of the genes that carry the term; when
no gene carries the term the result is `0`. -/
theorem bedLongIntersectGoBases_refines_bases (genes regions : List bedLong) (term : String)
    (hne : genes ≠ []) :
    ((∃ g ∈ genes, term ∈ g.goTerms) →
      ∃ v, bedLongIntersectGoBases genes term regions = some v ∧
        bedLongIntersectBases (carrying (some term) genes) regions = some v) ∧
    ((∀ g ∈ genes, term ∉ g.goTerms) →
      bedLongIntersectGoBases genes term regions = some 0) := by
  refine ⟨fun hsome => ?_, bedLongIntersectGoBases_eq_zero genes regions term hne⟩
  obtain ⟨heq, v, hv⟩ := bedLongIntersectGoBases_eq genes regions term hsome
  exact ⟨v, hv, heq ▸ hv⟩

/-- C22 at a concrete input: of three genes the first and the last carry the term, and the
region covers both. -/
theorem bedLongIntersectGoBases_refines_bases_witness :
    bedLongIntersectGoBases
        [⟨"chr1", 0, 10, none, ["t"], '+'⟩, ⟨"chr1", 20, 30, none, ["u"], '+'⟩,
          ⟨"chr2", 5, 9, none, ["t", "u"], '+'⟩] "t"
        [⟨"chr1", 5, 25, none, [], '+'⟩, ⟨"chr2", 0, 100, none, [], '+'⟩] = some 9 ∧
      bedLongIntersectBases
        (carrying (some "t")
          [⟨"chr1", 0, 10, none, ["t"], '+'⟩, ⟨"chr1", 20, 30, none, ["u"], '+'⟩,
            ⟨"chr2", 5, 9, none, ["t", "u"], '+'⟩])
        [⟨"chr1", 5, 25, none, [], '+'⟩, ⟨"chr2", 0, 100, none, [], '+'⟩] = some 9 := by
  obtain ⟨v, hv, hb⟩ := (bedLongIntersectGoBases_refines_bases
    [⟨"chr1", 0, 10, none, ["t"], '+'⟩, ⟨"chr1", 20, 30, none, ["u"], '+'⟩,
      ⟨"chr2", 5, 9, none, ["t", "u"], '+'⟩]
    [⟨"chr1", 5, 25, none, [], '+'⟩, ⟨"chr2", 0, 100, none, [], '+'⟩] "t"
    (by simp)).1 ⟨⟨"chr1", 0, 10, none, ["t"], '+'⟩, by simp, by simp⟩
  have h9 : bedLongIntersectGoBases
      [⟨"chr1", 0, 10, none, ["t"], '+'⟩, ⟨"chr1", 20, 30, none, ["u"], '+'⟩,
        ⟨"chr2", 5, 9, none, ["t", "u"], '+'⟩] "t"
      [⟨"chr1", 5, 25, none, [], '+'⟩, ⟨"chr2", 0, 100, none, [], '+'⟩] = some 9 := by
    simp [bedLongIntersectGoBases, bedLongIntersectGoBasesLoop, bedLongHasGoTerm, slNameInList,
      bedLongCmpEnd, intersectBasesBody, bedLongOverlap, resetWatermark, addOverlap, strcmp,
      strcmpAux, minLong, maxLong, wrapLong]
  rw [h9] at hv
  exact ⟨h9, hv ▸ hb⟩

/-! ## Parameters of the hypergeometric draw -/

theorem reachSweep_of_prev (l : List bedLong) (d : Int)
    {pre1 pre2 rest before bt : List bedLong} {o p : bedLong}
    (hl : l = (pre1 ++ o :: pre2) ++ rest)
    (h1 : List.Forall₂ (withinReach d) pre1 before) (hW : withinReach d o p)
    (hend : rest ≠ [] → p.chromEnd = o.chromEnd)
    (h2 : List.Forall₂ (withinReach d) pre2 bt) :
    reachSweep l d ⟨before, some (p, bt)⟩ rest := by
  refine ⟨pre1 ++ o :: pre2, hl, fun h => by simp at h, ?_⟩
  intro q qt hq
  simp only [Option.some.injEq, Prod.mk.injEq] at hq
  obtain ⟨rfl, rfl⟩ := hq
  exact ⟨pre1, o, pre2, rfl, h1, hW, hend, h2⟩

/-- The record `curr` as the loop body leaves it when it becomes `prev`: with a start `s1`
within reach, and the trailing edge added when it is the last record. -/
theorem withinReach_curr (d : Int) (hd : 0 ≤ d) (c : bedLong) (rest : List bedLong) (s1 : Int)
    (hlo : max 0 (c.chromStart - d) ≤ s1) (hhi : s1 ≤ c.chromStart) :
    withinReach d c (trailingEdgeExact d rest.isEmpty { c with chromStart := s1 }) ∧
      (rest ≠ [] →
        (trailingEdgeExact d rest.isEmpty { c with chromStart := s1 }).chromEnd = c.chromEnd) := by
  cases rest with
  | nil =>
    refine ⟨⟨rfl, hlo, hhi, ?_, ?_⟩, fun h => absurd rfl h⟩
    · show c.chromEnd ≤ c.chromEnd + d
      omega
    · exact le_refl _
  | cons y ys =>
    refine ⟨⟨rfl, hlo, hhi, le_refl _, ?_⟩, fun _ => rfl⟩
    show c.chromEnd ≤ c.chromEnd + d
    omega

theorem withinReach_end (d : Int) {o p : bedLong} (e1 : Int) (hW : withinReach d o p)
    (hlo : o.chromEnd ≤ e1) (hhi : e1 ≤ o.chromEnd + d) :
    withinReach d o { p with chromEnd := e1 } :=
  ⟨hW.1, hW.2.1, hW.2.2.1, hlo, hhi⟩

/-- One turn of the neighbour expansion loop keeps `reachSweep`. -/
theorem reachSweep_step (l : List bedLong) (d : Int) (hd : 0 ≤ d)
    (hv : positiveLength l) (h0 : nonNegStart l)
    (st : neighborSweep) (c : bedLong) (rest : List bedLong) (st1 : neighborSweep)
    (hI : reachSweep l d st (c :: rest))
    (hb : neighborBodyExact d st c rest.isEmpty = .ok st1) : reachSweep l d st1 rest := by
  obtain ⟨pre, hl, hnone, hsome⟩ := hI
  have hc : c ∈ l := by rw [hl]; simp
  have hcv := hv c hc
  have hc0 := h0 c hc
  have hl1 : ∀ (pre1 pre2 : List bedLong) (o : bedLong), pre = pre1 ++ o :: pre2 →
      l = (pre1 ++ o :: (pre2 ++ [c])) ++ rest := by
    intro pre1 pre2 o hp
    rw [hl, hp]
    simp
  have hmaxlo : max 0 (c.chromStart - d) ≤ maxLong 0 (c.chromStart - d) := by
    rw [maxLong_eq]
  have hmaxhi : maxLong 0 (c.chromStart - d) ≤ c.chromStart := by
    rw [maxLong_eq]
    exact max_le hc0 (by omega)
  have hid : max 0 (c.chromStart - d) ≤ c.chromStart := max_le hc0 (by omega)
  obtain ⟨before, prev⟩ := st
  cases prev with
  | none =>
    rw [neighborBody_none] at hb
    simp only [Except.ok.injEq] at hb
    subst hb
    obtain ⟨hW, hend⟩ := withinReach_curr d hd c rest _ hmaxlo hmaxhi
    exact reachSweep_of_prev l d (by rw [hl]; simp) (hnone rfl) hW hend List.Forall₂.nil
  | some pb =>
    obtain ⟨p, bt⟩ := pb
    obtain ⟨pre1, o, pre2, hpre, h1, hWp, hend, h2⟩ := hsome p bt rfl
    have hpe : p.chromEnd = o.chromEnd := hend (by simp)
    have ho : o ∈ l := by rw [hl, hpre]; simp
    have hov := hv o ho
    have ho0 := h0 o ho
    have hlc : l = (pre ++ c :: []) ++ rest := by rw [hl]; simp
    have hgrow : List.Forall₂ (withinReach d) pre
        (before ++ { p with chromEnd := p.chromEnd + d } :: bt) := by
      rw [hpre]
      exact List.rel_append h1 (List.Forall₂.cons
        (withinReach_end d _ hWp (by omega) (by omega)) h2)
    by_cases hch : p.chrom = c.chrom
    · rw [neighborBody_same d before p bt c _ hch] at hb
      split_ifs at hb with hgap hmid hov1
      · simp only [Except.ok.injEq] at hb
        subst hb
        obtain ⟨hW, hend1⟩ := withinReach_curr d hd c rest _ hmaxlo hmaxhi
        exact reachSweep_of_prev l d hlc hgrow hW hend1 List.Forall₂.nil
      · simp only [Except.ok.injEq] at hb
        subst hb
        have hbetween := tdiv_two_between (a := p.chromEnd) (b := c.chromStart)
          (by omega) (by omega)
        have hediv : Int.tdiv (c.chromStart + p.chromEnd) 2 =
            (c.chromStart + p.chromEnd) / 2 := Int.tdiv_eq_ediv (by omega) (by omega)
        obtain ⟨hW, hend1⟩ := withinReach_curr d hd c rest
          (Int.tdiv (c.chromStart + p.chromEnd) 2)
          (max_le (by omega) (by rw [hediv]; omega)) hbetween.2
        refine reachSweep_of_prev l d hlc ?_ hW hend1 List.Forall₂.nil
        rw [hpre]
        exact List.rel_append h1 (List.Forall₂.cons
          (withinReach_end d _ hWp (by omega) (by rw [hediv]; omega)) h2)
      · simp only [Except.ok.injEq] at hb
        subst hb
        obtain ⟨hW, hend1⟩ := withinReach_curr d hd c rest c.chromStart hid (le_refl _)
        refine reachSweep_of_prev l d hlc ?_ hW hend1 List.Forall₂.nil
        rw [hpre]
        exact List.rel_append h1 (List.Forall₂.cons hWp h2)
      · simp only [Except.ok.injEq] at hb
        subst hb
        obtain ⟨hW, _⟩ := withinReach_curr d hd c rest c.chromStart hid (le_refl _)
        exact reachSweep_of_prev l d (hl1 pre1 pre2 o hpre) h1 hWp (fun _ => hpe)
          (List.rel_append h2 (List.Forall₂.cons hW List.Forall₂.nil))
    · rw [neighborBody_diff d before p bt c _ hch] at hb
      simp only [Except.ok.injEq] at hb
      subst hb
      obtain ⟨hW, hend1⟩ := withinReach_curr d hd c rest _ hmaxlo hmaxhi
      exact reachSweep_of_prev l d hlc hgrow hW hend1 List.Forall₂.nil

/-- The neighbour bounded expansion moves each boundary outwards and by at most `d`. -/
theorem expandBedLongListToNeighbor_reach {l : List bedLong} {d : Int}
    (hv : positiveLength l) (h0 : nonNegStart l) (hd : 0 ≤ d) :
    ∃ r, expandBedLongListToNeighborExact l d = .ok r ∧ List.Forall₂ (withinReach d) l r := by
  obtain ⟨stf, hr, pre, hl, hnone, hsome⟩ := neighborLoop_invariant d (reachSweep l d)
    (fun st c rest st1 h hstep => reachSweep_step l d hd hv h0 st c rest st1 h hstep)
    l ⟨[], none⟩
    ⟨[], rfl, fun _ => List.Forall₂.nil, fun p bt h => by simp at h⟩
  refine ⟨stf.toList, hr, ?_⟩
  rw [List.append_nil] at hl
  obtain ⟨before, prev⟩ := stf
  cases prev with
  | none =>
    rw [hl]
    exact hnone rfl
  | some pb =>
    obtain ⟨p, bt⟩ := pb
    obtain ⟨pre1, o, pre2, hpre, h1, hW, _, h2⟩ := hsome p bt rfl
    rw [hl, hpre]
    exact List.rel_append h1 (List.Forall₂.cons hW h2)

/-- A record with boundaries within reach lies within the record that
`expandBedLongListByDistanceExact` makes of it. -/
theorem forall₂_containedIn (d : Int) : ∀ (l r : List bedLong),
    List.Forall₂ (withinReach d) l r →
      List.Forall₂ containedIn r (expandBedLongListByDistanceExact l d)
  | [], _, h => by
    cases h
    exact List.Forall₂.nil
  | x :: xs, _, h => by
    cases h with
    | cons hx hxs =>
      rw [expandBedLongListByDistanceExact]
      refine List.Forall₂.cons ⟨hx.1, ?_, hx.2.2.2.2⟩ (forall₂_containedIn d xs _ hxs)
      show maxLong 0 (x.chromStart - d) ≤ _
      rw [maxLong_eq]
      exact hx.2.1

/-- Over exact integers the neighbour bounded expansion moves each boundary outwards and by at
most `d`, so each result interval lies within the interval the expansion by distance makes
of the same record. -/
theorem expandBedLongListToNeighborExact_within_reach (l : List bedLong) (d : Int)
    (hv : positiveLength l) (h0 : nonNegStart l) (hd : 0 ≤ d) :
    ∃ r, expandBedLongListToNeighborExact l d = .ok r ∧ List.Forall₂ (withinReach d) l r ∧
      List.Forall₂ containedIn r (expandBedLongListByDistanceExact l d) := by
  obtain ⟨r, hr, hreach⟩ := expandBedLongListToNeighbor_reach hv h0 hd
  exact ⟨r, hr, hreach, forall₂_containedIn d l r hreach⟩

/-! ## Gene assignments -/

theorem wrapLong_of_inLongRange {x : Int} (h : inLongRange x) : wrapLong x = x := by
  unfold inLongRange at h
  unfold wrapLong
  omega

theorem trailingEdge_eq_exact (d : Int) (isLast : Bool) (c : bedLong)
    (h : inLongRange (c.chromEnd + d)) :
    trailingEdge d isLast c = trailingEdgeExact d isLast c := by
  unfold trailingEdge trailingEdgeExact
  rw [wrapLong_of_inLongRange h]

/-- One turn of the loop body of `expandBedLongListToNeighbor` is the turn over exact integers
when the distance, the coordinates of `curr` and the end of `prev` lie strictly between `-2^62`
and `2^62`. -/
theorem neighborBody_eq_exact (d : Int) (st : neighborSweep) (c : bedLong) (isLast : Bool)
    (hd1 : -4611686018427387904 < d) (hd2 : d < 4611686018427387904)
    (hc : -4611686018427387904 < c.chromStart ∧ c.chromStart < 4611686018427387904 ∧
      -4611686018427387904 < c.chromEnd ∧ c.chromEnd < 4611686018427387904)
    (hp : ∀ p bt, st.prev = some (p, bt) →
      -4611686018427387904 < p.chromEnd ∧ p.chromEnd < 4611686018427387904) :
    neighborBody d st c isLast = neighborBodyExact d st c isLast := by
  obtain ⟨before, prev⟩ := st
  obtain ⟨hc1, hc2, hc3, hc4⟩ := hc
  have hte : ∀ s1 : Int, trailingEdge d isLast { c with chromStart := s1 } =
      trailingEdgeExact d isLast { c with chromStart := s1 } := fun s1 =>
    trailingEdge_eq_exact d isLast _ (by
      show inLongRange (c.chromEnd + d)
      unfold inLongRange
      omega)
  have hte0 : trailingEdge d isLast c = trailingEdgeExact d isLast c :=
    trailingEdge_eq_exact d isLast c (by unfold inLongRange; omega)
  have hw1 : wrapLong (c.chromStart - d) = c.chromStart - d :=
    wrapLong_of_inLongRange (by unfold inLongRange; omega)
  cases prev with
  | none =>
    simp only [neighborBody, neighborBodyExact, neighborChromCheck, neighborChromCheckExact]
    rw [hw1, hte]
  | some pb =>
    obtain ⟨p, bt⟩ := pb
    obtain ⟨hp1, hp2⟩ := hp p bt rfl
    have hw2 : wrapLong (p.chromEnd + d) = p.chromEnd + d :=
      wrapLong_of_inLongRange (by unfold inLongRange; omega)
    have hw3 : wrapLong (c.chromStart - p.chromEnd) = c.chromStart - p.chromEnd :=
      wrapLong_of_inLongRange (by unfold inLongRange; omega)
    have hw4 : wrapLong (2 * d) = 2 * d :=
      wrapLong_of_inLongRange (by unfold inLongRange; omega)
    have hw5 : wrapLong (c.chromStart + p.chromEnd) = c.chromStart + p.chromEnd :=
      wrapLong_of_inLongRange (by unfold inLongRange; omega)
    have hw6 : wrapLong (c.chromEnd - p.chromEnd) = c.chromEnd - p.chromEnd :=
      wrapLong_of_inLongRange (by unfold inLongRange; omega)
    by_cases hch : strcmp p.chrom c.chrom = 0
    · simp only [neighborBody, neighborBodyExact, neighborChromCheck, neighborChromCheckExact,
        hch, ne_eq, not_true_eq_false, if_false, hw1, hw2, hw3, hw4, hw5, hw6, hte, hte0]
    · simp only [neighborBody, neighborBodyExact, neighborChromCheck, neighborChromCheckExact,
        hch, ne_eq, not_false_eq_true, if_true, hw1, hw2, hte]

/-- The loop of `expandBedLongListToNeighbor` is the loop over exact integers when the
distance, the coordinates of the records ahead and, while records are ahead, the end of `prev`
lie strictly between `-2^62` and `2^62`. -/
theorem neighborLoop_eq_exact (d : Int)
    (hd1 : -4611686018427387904 < d) (hd2 : d < 4611686018427387904) :
    ∀ (rest : List bedLong) (st : neighborSweep), smallCoordinates rest →
      (rest ≠ [] → ∀ p bt, st.prev = some (p, bt) →
        -4611686018427387904 < p.chromEnd ∧ p.chromEnd < 4611686018427387904) →
      expandBedLongListToNeighborLoop d st rest = expandBedLongListToNeighborLoopExact d st rest
  | [], st => by
    intro _ _
    rw [expandBedLongListToNeighborLoop, expandBedLongListToNeighborLoopExact]
  | c :: rest, st => by
    intro hsm hprev
    have hcs := hsm c (List.mem_cons_self _ _)
    have hbody := neighborBody_eq_exact d st c rest.isEmpty hd1 hd2 hcs
      (hprev (List.cons_ne_nil _ _))
    rw [expandBedLongListToNeighborLoop, expandBedLongListToNeighborLoopExact, hbody]
    cases hres : neighborBodyExact d st c rest.isEmpty with
    | error e => rfl
    | ok st1 =>
      simp only []
      apply neighborLoop_eq_exact d hd1 hd2 rest st1
        (fun a ha => hsm a (List.mem_cons_of_mem _ ha))
      intro hne p bt hp
      have hfalse : rest.isEmpty = false := by
        cases rest with
        | nil => exact absurd rfl hne
        | cons y ys => rfl
      rw [hfalse] at hres
      obtain ⟨st2, h2, _, hprev2⟩ := neighborBody_not_last d st c
      rw [hres] at h2
      injection h2 with h2
      subst h2
      rcases hprev2 p bt hp with ⟨bt0, h0⟩ | ⟨_, hend⟩
      · exact hprev (List.cons_ne_nil _ _) p bt0 h0
      · rw [hend]
        exact ⟨hcs.2.2.1, hcs.2.2.2⟩

/-- `expandBedLongListToNeighbor` writes what the sweep over exact integers writes when the
distance and all coordinates lie strictly between `-2^62` and `2^62`. -/
theorem expandBedLongListToNeighbor_eq_exact {l : List bedLong} {d : Int}
    (hsm : smallCoordinates l)
    (hd1 : -4611686018427387904 < d) (hd2 : d < 4611686018427387904) :
    expandBedLongListToNeighbor l d = expandBedLongListToNeighborExact l d :=
  neighborLoop_eq_exact d hd1 hd2 l ⟨[], none⟩ hsm (fun _ p bt h => by simp at h)

/-- `expandBedLongListByDistance` writes what the loop over exact integers writes when
`start - d` and `end + d` are values of a `long` for every record. -/
theorem expandBedLongListByDistance_eq_exact (d : Int) : ∀ l : List bedLong,
    (∀ a ∈ l, inLongRange (a.chromStart - d) ∧ inLongRange (a.chromEnd + d)) →
      expandBedLongListByDistance l d = expandBedLongListByDistanceExact l d
  | [] => fun _ => rfl
  | a :: rest => by
    intro h
    have ha := h a (List.mem_cons_self _ _)
    rw [expandBedLongListByDistance, expandBedLongListByDistanceExact,
      expandBedLongListByDistance_eq_exact d rest (fun x hx => h x (List.mem_cons_of_mem _ hx)),
      wrapLong_of_inLongRange ha.1, wrapLong_of_inLongRange ha.2]

theorem gapRule_of_exact {l : List bedLong} {d : Int} {i : Nat}
    (heq : expandBedLongListToNeighbor l d = expandBedLongListToNeighborExact l d)
    (h : gapRuleExact l d i) : gapRule l d i := by
  unfold gapRule
  rw [heq]
  exact h

theorem trailingRule_of_exact {l : List bedLong} {d : Int} {i : Nat}
    (heq : expandBedLongListToNeighbor l d = expandBedLongListToNeighborExact l d)
    (h : trailingRuleExact l d i) : trailingRule l d i := by
  unfold trailingRule
  rw [heq]
  exact h

/-! ## Expansion by distance in the arithmetic of long -/

/-- C7, as stated, fails: the end of `[chr1 5 9223372036854775807]` expanded by `d = 1` is the
`long` result of `9223372036854775807 + 1`, which is `-9223372036854775808` and not
`end + d`. -/
theorem expandBedLongListByDistance_wraps_at_long_max :
    expandBedLongListByDistance [⟨"chr1", 5, 9223372036854775807, none, [], '+'⟩] 1 =
      [⟨"chr1", 4, -9223372036854775808, none, [], '+'⟩] ∧
    ¬ ∃ a1 : bedLong,
      (expandBedLongListByDistance [⟨"chr1", 5, 9223372036854775807, none, [], '+'⟩] 1)[0]? =
        some a1 ∧ a1.chromEnd = 9223372036854775807 + 1 := by
  have hval : expandBedLongListByDistance [⟨"chr1", 5, 9223372036854775807, none, [], '+'⟩] 1 =
      [⟨"chr1", 4, -9223372036854775808, none, [], '+'⟩] := by decide
  refine ⟨hval, ?_⟩
  rintro ⟨a1, h1, h2⟩
  rw [hval] at h1
  simp only [List.getElem?_cons_zero, Option.some.injEq] at h1
  subst h1
  simp at h2

/-- C7, amended: for every list and every distance `d` for which `start - d` and `end + d`
are values of a `long` for every interval, `expandBedLongListByDistance` keeps the number and
order of the intervals, and the interval at each position comes out with start
`max 0 (start - d)` and end `end + d`, computed from that interval alone, its chrom, name,
terms and strand unchanged. -/
theorem expandBedLongListByDistance_spec (l : List bedLong) (d : Int)
    (hrange : ∀ a ∈ l, inLongRange (a.chromStart - d) ∧ inLongRange (a.chromEnd + d)) :
    (expandBedLongListByDistance l d).length = l.length ∧
    ∀ (i : Nat) (a : bedLong), l[i]? = some a →
      ∃ a1 : bedLong, (expandBedLongListByDistance l d)[i]? = some a1 ∧
        a1.chromStart = max 0 (a.chromStart - d) ∧ a1.chromEnd = a.chromEnd + d ∧
        a1.chrom = a.chrom ∧ a1.name = a.name ∧ a1.goTerms = a.goTerms ∧
        a1.strand = a.strand := by
  rw [expandBedLongListByDistance_eq_exact d l hrange]
  exact expandBedLongListByDistanceExact_spec l d

/-- C7, amended, at a concrete input: two records expanded by 7, the first start stopping
at 0. -/
theorem expandBedLongListByDistance_spec_witness :
    (expandBedLongListByDistance
      [⟨"chr1", 3, 10, some "geneA", ["termX"], '+'⟩, ⟨"chr2", 30, 40, none, [], '-'⟩] 7).length =
      [(⟨"chr1", 3, 10, some "geneA", ["termX"], '+'⟩ : bedLong),
        ⟨"chr2", 30, 40, none, [], '-'⟩].length ∧
    ∀ (i : Nat) (a : bedLong),
      [(⟨"chr1", 3, 10, some "geneA", ["termX"], '+'⟩ : bedLong),
        ⟨"chr2", 30, 40, none, [], '-'⟩][i]? = some a →
      ∃ a1 : bedLong, (expandBedLongListByDistance
        [⟨"chr1", 3, 10, some "geneA", ["termX"], '+'⟩, ⟨"chr2", 30, 40, none, [], '-'⟩] 7)[i]? =
          some a1 ∧
        a1.chromStart = max 0 (a.chromStart - 7) ∧ a1.chromEnd = a.chromEnd + 7 ∧
        a1.chrom = a.chrom ∧ a1.name = a.name ∧ a1.goTerms = a.goTerms ∧
        a1.strand = a.strand :=
  expandBedLongListByDistance_spec _ 7 (by decide)

/-- C8: on a list obeying the data model (here only `0 <= start` is needed),
`expandBedLongListByDistance` with distance 0 returns the list exactly as it was: over exact
integers for every such list, and in the arithmetic of `long` for every such list whose
coordinates are values of a `long`. -/
theorem expandBedLongListByDistance_zero (l : List bedLong) (h0 : nonNegStart l) :
    expandBedLongListByDistanceExact l 0 = l ∧
    ((∀ a ∈ l, inLongRange a.chromStart ∧ inLongRange a.chromEnd) →
      expandBedLongListByDistance l 0 = l) := by
  refine ⟨expandBedLongListByDistanceExact_zero l h0, fun hrange => ?_⟩
  rw [expandBedLongListByDistance_eq_exact 0 l (fun a ha => by
    have := hrange a ha
    simpa using this)]
  exact expandBedLongListByDistanceExact_zero l h0

/-- Witness for C8: a two interval list, one interval starting at 0. -/
theorem expandBedLongListByDistance_zero_witness :
    expandBedLongListByDistanceExact
        [⟨"chr1", 0, 10, some "geneA", ["termX"], '+'⟩, ⟨"chr2", 30, 40, none, [], '-'⟩] 0 =
      [⟨"chr1", 0, 10, some "geneA", ["termX"], '+'⟩, ⟨"chr2", 30, 40, none, [], '-'⟩] ∧
    expandBedLongListByDistance
        [⟨"chr1", 0, 10, some "geneA", ["termX"], '+'⟩, ⟨"chr2", 30, 40, none, [], '-'⟩] 0 =
      [⟨"chr1", 0, 10, some "geneA", ["termX"], '+'⟩, ⟨"chr2", 30, 40, none, [], '-'⟩] :=
  ⟨(expandBedLongListByDistance_zero _ (by decide)).1,
    (expandBedLongListByDistance_zero _ (by decide)).2 (by decide)⟩

/-! ## Gap and trailing edge rules in the arithmetic of long -/

theorem gapRuleExact_of_program {l : List bedLong} {d : Int} {i : Nat}
    (heq : expandBedLongListToNeighbor l d = expandBedLongListToNeighborExact l d)
    (h : gapRule l d i) : gapRuleExact l d i := by
  unfold gapRule at h
  rw [heq] at h
  exact h

theorem trailingRuleExact_of_program {l : List bedLong} {d : Int} {i : Nat}
    (heq : expandBedLongListToNeighbor l d = expandBedLongListToNeighborExact l d)
    (h : trailingRule l d i) : trailingRuleExact l d i := by
  unfold trailingRule at h
  rw [heq] at h
  exact h

/-- C9, as stated, fails in two ways. In the sorted list `[chr1 0 100], [chr1 10 20],
[chr1 30 40]` with `d = 5` the consecutive records `[chr1 10 20]` and `[chr1 30 40]` have gap
`10 >= 2 * 5`, but the second lies inside `[chr1 0 100]`, which stays `prev`, and the two
records are still 10 apart afterwards. In the sorted list `[chr1 0 4611686018427387904],
[chr1 4611686018427387914 4611686018427387924]` with `d = 20` the gap is `10 < 2 * 20`, the
sum `curr.start + prev.end` leaves the range of `long`, and the shared boundary becomes
`-4611686018427387899` instead of the midpoint `4611686018427387909`. -/
theorem gapRule_fails_behind_longer_interval :
    (sortedByStart [⟨"chr1", 0, 100, none, [], '+'⟩, ⟨"chr1", 10, 20, none, [], '+'⟩,
        ⟨"chr1", 30, 40, none, [], '+'⟩] ∧
      positiveLength [⟨"chr1", 0, 100, none, [], '+'⟩, ⟨"chr1", 10, 20, none, [], '+'⟩,
        ⟨"chr1", 30, 40, none, [], '+'⟩] ∧
      nonNegStart [⟨"chr1", 0, 100, none, [], '+'⟩, ⟨"chr1", 10, 20, none, [], '+'⟩,
        ⟨"chr1", 30, 40, none, [], '+'⟩] ∧
      expandBedLongListToNeighbor [⟨"chr1", 0, 100, none, [], '+'⟩,
        ⟨"chr1", 10, 20, none, [], '+'⟩, ⟨"chr1", 30, 40, none, [], '+'⟩] 5 =
        .ok [⟨"chr1", 0, 100, none, [], '+'⟩, ⟨"chr1", 10, 20, none, [], '+'⟩,
          ⟨"chr1", 30, 45, none, [], '+'⟩] ∧
      ¬ gapRule [⟨"chr1", 0, 100, none, [], '+'⟩, ⟨"chr1", 10, 20, none, [], '+'⟩,
        ⟨"chr1", 30, 40, none, [], '+'⟩] 5 1) ∧
    (sortedByStart [⟨"chr1", 0, 4611686018427387904, none, [], '+'⟩,
        ⟨"chr1", 4611686018427387914, 4611686018427387924, none, [], '+'⟩] ∧
      positiveLength [⟨"chr1", 0, 4611686018427387904, none, [], '+'⟩,
        ⟨"chr1", 4611686018427387914, 4611686018427387924, none, [], '+'⟩] ∧
      nonNegStart [⟨"chr1", 0, 4611686018427387904, none, [], '+'⟩,
        ⟨"chr1", 4611686018427387914, 4611686018427387924, none, [], '+'⟩] ∧
      expandBedLongListToNeighbor [⟨"chr1", 0, 4611686018427387904, none, [], '+'⟩,
        ⟨"chr1", 4611686018427387914, 4611686018427387924, none, [], '+'⟩] 20 =
        .ok [⟨"chr1", 0, -4611686018427387899, none, [], '+'⟩,
          ⟨"chr1", -4611686018427387899, 4611686018427387944, none, [], '+'⟩] ∧
      ¬ gapRule [⟨"chr1", 0, 4611686018427387904, none, [], '+'⟩,
        ⟨"chr1", 4611686018427387914, 4611686018427387924, none, [], '+'⟩] 20 0) := by
  refine ⟨⟨by simp [sortedByStart, bedLongCmp, strcmp, strcmpAux], by decide, by decide, rfl,
    ?_⟩, ⟨by simp [sortedByStart, bedLongCmp, strcmp, strcmpAux], by decide, by decide, rfl,
    ?_⟩⟩
  · intro h
    exact gapRuleExact_fails_behind_longer_interval.2.2.2.2
      (gapRuleExact_of_program (expandBedLongListToNeighbor_eq_exact (by decide) (by decide)
        (by decide)) h)
  · intro h
    obtain ⟨r, p1, c1, hr, hp1, hc1, hrule⟩ := h ⟨"chr1", 0, 4611686018427387904, none, [], '+'⟩
      ⟨"chr1", 4611686018427387914, 4611686018427387924, none, [], '+'⟩ rfl rfl rfl (by decide)
    have hval : expandBedLongListToNeighbor [⟨"chr1", 0, 4611686018427387904, none, [], '+'⟩,
        ⟨"chr1", 4611686018427387914, 4611686018427387924, none, [], '+'⟩] 20 =
        .ok [⟨"chr1", 0, -4611686018427387899, none, [], '+'⟩,
          ⟨"chr1", -4611686018427387899, 4611686018427387944, none, [], '+'⟩] := rfl
    rw [hval] at hr
    injection hr with hr
    subst hr
    simp only [List.getElem?_cons_succ, List.getElem?_cons_zero, Option.some.injEq] at hp1 hc1
    subst hp1 hc1
    simp at hrule

/-- C9, amended: for every list with `0 <= start < end` whose coordinates lie strictly between
`-2^62` and `2^62`, every `d` strictly between `-2^62` and `2^62`, and two consecutive records
`prev`, `curr` on one chromosome with gap `g = curr.start - prev.end >= 0`, if no record
before `prev` on its chromosome ends beyond `prev.end` (so that `prev` is the record the sweep
compares `curr` with), `expandBedLongListToNeighbor` returns a list in which
`curr.start - prev.end = g - 2 * d` when `g >= 2 * d`, and
`prev.end = curr.start = (curr.start + prev.end) / 2` on the original coordinates otherwise.
Neither sortedness nor `d >= 0` is needed for this. -/
theorem gapRule_of_prev_reaching_furthest (l : List bedLong) (d : Int) (i : Nat)
    (hv : positiveLength l) (h0 : nonNegStart l) (hsm : smallCoordinates l)
    (hd1 : -4611686018427387904 < d) (hd2 : d < 4611686018427387904)
    (hfar : ∀ p, l[i]? = some p →
      ∀ q ∈ l.take i, q.chrom = p.chrom → q.chromEnd ≤ p.chromEnd) :
    gapRule l d i :=
  gapRule_of_exact (expandBedLongListToNeighbor_eq_exact hsm hd1 hd2)
    (gapRuleExact_of_prev_reaching_furthest l d i hv h0 hfar)

/-- Witness for the amended C9: in `[chr1 0 10], [chr1 30 40], [chr1 100 110]` with `d = 20`
the first two records, 20 apart, meet at the midpoint 20. -/
theorem gapRule_of_prev_reaching_furthest_witness :
    ∃ (r : List bedLong) (p1 c1 : bedLong),
      expandBedLongListToNeighbor [⟨"chr1", 0, 10, none, [], '+'⟩,
        ⟨"chr1", 30, 40, none, [], '+'⟩, ⟨"chr1", 100, 110, none, [], '+'⟩] 20 = .ok r ∧
      r[0]? = some p1 ∧ r[1]? = some c1 ∧
      (if (30 : Int) - 10 ≥ 2 * 20 then c1.chromStart - p1.chromEnd = 30 - 10 - 2 * 20
       else p1.chromEnd = (30 + 10) / 2 ∧ c1.chromStart = (30 + 10) / 2) :=
  gapRule_of_prev_reaching_furthest
    [⟨"chr1", 0, 10, none, [], '+'⟩, ⟨"chr1", 30, 40, none, [], '+'⟩,
      ⟨"chr1", 100, 110, none, [], '+'⟩] 20 0 (by decide) (by decide) (by decide) (by decide)
    (by decide) (by intro p _ q hq; simp at hq)
    ⟨"chr1", 0, 10, none, [], '+'⟩ ⟨"chr1", 30, 40, none, [], '+'⟩ rfl rfl rfl (by decide)

/-- C11, as stated, fails in two ways. In the sorted list `[chr1 0 100], [chr1 10 20],
[chr2 30 40]` with `d = 20` the record `[chr1 10 20]` is the last one of `chr1`, but it lies
inside `[chr1 0 100]`, which stays `prev` and is the one that receives `+ 20`: the second
record still ends at 20, not 40. In the list `[chr1 5 9223372036854775807]` with `d = 1` the
end of the last record is the `long` result of `9223372036854775807 + 1`, which is
`-9223372036854775808` and not `end + d`. -/
theorem trailingRule_fails_behind_longer_interval :
    (sortedByStart [⟨"chr1", 0, 100, none, [], '+'⟩, ⟨"chr1", 10, 20, none, [], '+'⟩,
        ⟨"chr2", 30, 40, none, [], '+'⟩] ∧
      expandBedLongListToNeighbor [⟨"chr1", 0, 100, none, [], '+'⟩,
        ⟨"chr1", 10, 20, none, [], '+'⟩, ⟨"chr2", 30, 40, none, [], '+'⟩] 20 =
        .ok [⟨"chr1", 0, 120, none, [], '+'⟩, ⟨"chr1", 10, 20, none, [], '+'⟩,
          ⟨"chr2", 10, 60, none, [], '+'⟩] ∧
      ¬ trailingRule [⟨"chr1", 0, 100, none, [], '+'⟩, ⟨"chr1", 10, 20, none, [], '+'⟩,
        ⟨"chr2", 30, 40, none, [], '+'⟩] 20 1) ∧
    (sortedByStart [⟨"chr1", 5, 9223372036854775807, none, [], '+'⟩] ∧
      expandBedLongListToNeighbor [⟨"chr1", 5, 9223372036854775807, none, [], '+'⟩] 1 =
        .ok [⟨"chr1", 4, -9223372036854775808, none, [], '+'⟩] ∧
      ¬ trailingRule [⟨"chr1", 5, 9223372036854775807, none, [], '+'⟩] 1 0) := by
  refine ⟨⟨by simp [sortedByStart, bedLongCmp, strcmp, strcmpAux], rfl, ?_⟩,
    ⟨by simp [sortedByStart], rfl, ?_⟩⟩
  · intro h
    exact trailingRuleExact_fails_behind_longer_interval.2.2
      (trailingRuleExact_of_program (expandBedLongListToNeighbor_eq_exact (by decide)
        (by decide) (by decide)) h)
  · intro h
    obtain ⟨r, p1, hr, hp1, hend⟩ := h ⟨"chr1", 5, 9223372036854775807, none, [], '+'⟩ rfl
      (Or.inl rfl)
    have hval : expandBedLongListToNeighbor
        [⟨"chr1", 5, 9223372036854775807, none, [], '+'⟩] 1 =
        .ok [⟨"chr1", 4, -9223372036854775808, none, [], '+'⟩] := rfl
    rw [hval] at hr
    injection hr with hr
    subst hr
    simp only [List.getElem?_cons_zero, Option.some.injEq] at hp1
    subst hp1
    simp at hend

/-- C11, amended: for every list whose coordinates lie strictly between `-2^62` and `2^62` and
every `d` strictly between `-2^62` and `2^62`, the last interval of the whole list comes out
of `expandBedLongListToNeighbor` with `end + d`; and an interval that is followed by an
interval of another chromosome comes out with `end + d` provided no interval before it on its
chromosome ends beyond its end (so that it is the record `prev` points at when the chromosome
changes). -/
theorem trailingRule_of_reaching_furthest (l : List bedLong) (d : Int) (i : Nat)
    (hsm : smallCoordinates l)
    (hd1 : -4611686018427387904 < d) (hd2 : d < 4611686018427387904)
    (hfar : ∀ p, l[i]? = some p → l[i + 1]? ≠ none →
      ∀ q ∈ l.take i, q.chrom = p.chrom → q.chromEnd ≤ p.chromEnd) :
    trailingRule l d i :=
  trailingRule_of_exact (expandBedLongListToNeighbor_eq_exact hsm hd1 hd2)
    (trailingRuleExact_of_reaching_furthest l d i hfar)

/-- Witness for the amended C11: in `[chr1 0 10], [chr1 30 40], [chr2 5 8]` with `d = 20` the
second record is the last of `chr1`, reaches further than the first, and ends at 60. -/
theorem trailingRule_of_reaching_furthest_witness :
    ∃ (r : List bedLong) (p1 : bedLong),
      expandBedLongListToNeighbor [⟨"chr1", 0, 10, none, [], '+'⟩,
        ⟨"chr1", 30, 40, none, [], '+'⟩, ⟨"chr2", 5, 8, none, [], '+'⟩] 20 = .ok r ∧
      r[1]? = some p1 ∧ p1.chromEnd = 40 + 20 :=
  trailingRule_of_reaching_furthest
    [⟨"chr1", 0, 10, none, [], '+'⟩, ⟨"chr1", 30, 40, none, [], '+'⟩,
      ⟨"chr2", 5, 8, none, [], '+'⟩] 20 1 (by decide) (by decide) (by decide)
    (by
      intro p hp _ q hq hch
      simp only [List.getElem?_cons_succ, List.getElem?_cons_zero, Option.some.injEq] at hp
      subst hp
      simp only [List.take_succ_cons, List.take_zero, List.mem_singleton] at hq
      subst hq
      decide)
    ⟨"chr1", 30, 40, none, [], '+'⟩ rfl
    (Or.inr ⟨⟨"chr2", 5, 8, none, [], '+'⟩, rfl, by decide⟩)

/-! ## Expansion towards the neighbour in the arithmetic of long -/

theorem small_inLongRange {l : List bedLong} {d : Int} (hsm : smallCoordinates l)
    (hd1 : -4611686018427387904 < d) (hd2 : d < 4611686018427387904) :
    ∀ a ∈ l, inLongRange (a.chromStart - d) ∧ inLongRange (a.chromEnd + d) := by
  intro a ha
  have := hsm a ha
  unfold inLongRange
  omega

/-- C12, as stated, fails: the list `[chr1 0 10], [chr1 20 4611686018427387904],
[chr1 4611686018427387914 4611686018427387924]` is sorted with `0 <= start < end` and without
overlaps; with `d = 20` the sum `curr.start + prev.end` of the last two records leaves the
range of `long`, the third record comes out with start `-4611686018427387899` and overlaps
the first one. -/
theorem expandBedLongListToNeighbor_overlap_after_overflow :
    sortedByStart [⟨"chr1", 0, 10, none, [], '+'⟩,
      ⟨"chr1", 20, 4611686018427387904, none, [], '+'⟩,
      ⟨"chr1", 4611686018427387914, 4611686018427387924, none, [], '+'⟩] ∧
    positiveLength [⟨"chr1", 0, 10, none, [], '+'⟩,
      ⟨"chr1", 20, 4611686018427387904, none, [], '+'⟩,
      ⟨"chr1", 4611686018427387914, 4611686018427387924, none, [], '+'⟩] ∧
    nonNegStart [⟨"chr1", 0, 10, none, [], '+'⟩,
      ⟨"chr1", 20, 4611686018427387904, none, [], '+'⟩,
      ⟨"chr1", 4611686018427387914, 4611686018427387924, none, [], '+'⟩] ∧
    noSelfOverlap [⟨"chr1", 0, 10, none, [], '+'⟩,
      ⟨"chr1", 20, 4611686018427387904, none, [], '+'⟩,
      ⟨"chr1", 4611686018427387914, 4611686018427387924, none, [], '+'⟩] ∧
    expandBedLongListToNeighbor [⟨"chr1", 0, 10, none, [], '+'⟩,
      ⟨"chr1", 20, 4611686018427387904, none, [], '+'⟩,
      ⟨"chr1", 4611686018427387914, 4611686018427387924, none, [], '+'⟩] 20 =
      .ok [⟨"chr1", 0, 15, none, [], '+'⟩, ⟨"chr1", 15, -4611686018427387899, none, [], '+'⟩,
        ⟨"chr1", -4611686018427387899, 4611686018427387944, none, [], '+'⟩] ∧
    ¬ noSelfOverlap [⟨"chr1", 0, 15, none, [], '+'⟩,
      ⟨"chr1", 15, -4611686018427387899, none, [], '+'⟩,
      ⟨"chr1", -4611686018427387899, 4611686018427387944, none, [], '+'⟩] := by
  refine ⟨by simp [sortedByStart, bedLongCmp, strcmp, strcmpAux], by decide, by decide,
    by simp [noSelfOverlap, bedLongOverlap, strcmp, strcmpAux, minLong, maxLong], rfl, ?_⟩
  simp [noSelfOverlap, bedLongOverlap, strcmp, strcmpAux, minLong, maxLong]

/-- C12, amended: for a list sorted ascending by (chrom, start) with `0 <= start < end` in
which no two intervals overlap and whose coordinates are below `2^62`, and `0 <= d < 2^62`,
`expandBedLongListToNeighbor` returns a list that still contains no two overlapping intervals,
and in which consecutive intervals of one chromosome satisfy `prev.end <= curr.start`. -/
theorem expandBedLongListToNeighbor_keeps_apart (l : List bedLong) (d : Int)
    (hs : sortedByStart l) (hv : positiveLength l) (h0 : nonNegStart l)
    (hdis : noSelfOverlap l) (hd : 0 ≤ d)
    (hsm : smallCoordinates l) (hd2 : d < 4611686018427387904) :
    ∃ r, expandBedLongListToNeighbor l d = .ok r ∧ noSelfOverlap r ∧
      List.Chain' (fun prev curr => prev.chrom = curr.chrom →
        prev.chromEnd ≤ curr.chromStart) r := by
  rw [expandBedLongListToNeighbor_eq_exact hsm (by omega) hd2]
  exact expandBedLongListToNeighborExact_keeps_apart l d hs hv h0 hdis hd

/-- Witness for the amended C12: two genes 20 apart, a third far away, and one on another
chromosome, expanded by 20. -/
theorem expandBedLongListToNeighbor_keeps_apart_witness :
    ∃ r, expandBedLongListToNeighbor
        [⟨"chr1", 0, 10, none, [], '+'⟩, ⟨"chr1", 30, 40, none, [], '+'⟩,
          ⟨"chr1", 200, 210, none, [], '+'⟩, ⟨"chr2", 5, 8, none, [], '+'⟩] 20 = .ok r ∧
      noSelfOverlap r ∧
      List.Chain' (fun prev curr => prev.chrom = curr.chrom →
        prev.chromEnd ≤ curr.chromStart) r :=
  expandBedLongListToNeighbor_keeps_apart _ 20
    (by simp [sortedByStart, bedLongCmp, strcmp, strcmpAux]) (by decide) (by decide)
    (by simp [noSelfOverlap, bedLongOverlap, strcmp, strcmpAux, minLong, maxLong])
    (by decide) (by decide) (by decide)

/-- The records that `expandBedLongListByDistance` returns have the sort keys of the records
the loop over exact integers returns, when the starts and `d >= 0` are values of a `long`. -/
theorem expandBedLongListByDistance_keys (d : Int) (hd : 0 ≤ d)
    (hd2 : d < 9223372036854775808) : ∀ l : List bedLong, nonNegStart l →
    (∀ a ∈ l, a.chromStart < 9223372036854775808) →
      (expandBedLongListByDistance l d).map bedKey =
        (expandBedLongListByDistanceExact l d).map bedKey
  | [], _, _ => rfl
  | a :: rest, h0, hr => by
    have ha0 := h0 a (List.mem_cons_self _ _)
    have ha1 := hr a (List.mem_cons_self _ _)
    rw [expandBedLongListByDistance, expandBedLongListByDistanceExact, List.map_cons,
      List.map_cons, expandBedLongListByDistance_keys d hd hd2 rest
        (fun x hx => h0 x (List.mem_cons_of_mem _ hx))
        (fun x hx => hr x (List.mem_cons_of_mem _ hx))]
    have hw : wrapLong (a.chromStart - d) = a.chromStart - d :=
      wrapLong_of_inLongRange (by unfold inLongRange; omega)
    simp only [bedKey, hw]

/-- C13, as stated, fails: the list `[chr1 0 4611686018427387904],
[chr1 4611686018427387914 4611686018427387924]` is sorted with `0 <= start < end`; with
`d = 20` the sum `curr.start + prev.end` leaves the range of `long`, the second record comes
out of `expandBedLongListToNeighbor` with start `-4611686018427387899`, and the result is not
sorted. -/
theorem expandBedLongListToNeighbor_unsorted_after_overflow :
    sortedByStart [⟨"chr1", 0, 4611686018427387904, none, [], '+'⟩,
      ⟨"chr1", 4611686018427387914, 4611686018427387924, none, [], '+'⟩] ∧
    positiveLength [⟨"chr1", 0, 4611686018427387904, none, [], '+'⟩,
      ⟨"chr1", 4611686018427387914, 4611686018427387924, none, [], '+'⟩] ∧
    nonNegStart [⟨"chr1", 0, 4611686018427387904, none, [], '+'⟩,
      ⟨"chr1", 4611686018427387914, 4611686018427387924, none, [], '+'⟩] ∧
    expandBedLongListToNeighbor [⟨"chr1", 0, 4611686018427387904, none, [], '+'⟩,
      ⟨"chr1", 4611686018427387914, 4611686018427387924, none, [], '+'⟩] 20 =
      .ok [⟨"chr1", 0, -4611686018427387899, none, [], '+'⟩,
        ⟨"chr1", -4611686018427387899, 4611686018427387944, none, [], '+'⟩] ∧
    ¬ sortedByStart [⟨"chr1", 0, -4611686018427387899, none, [], '+'⟩,
      ⟨"chr1", -4611686018427387899, 4611686018427387944, none, [], '+'⟩] := by
  refine ⟨by simp [sortedByStart, bedLongCmp, strcmp, strcmpAux], by decide, by decide, rfl, ?_⟩
  simp [sortedByStart, bedLongCmp, strcmp, strcmpAux]

/-- C13, amended: for a list sorted ascending by (chrom, start) with `0 <= start < end` and
`d >= 0`, the starts and `d` being values of a `long`, the list is still sorted after
`expandBedLongListByDistance`; and when moreover all coordinates and `d` are below `2^62` it
is still sorted after `expandBedLongListToNeighbor`. -/
theorem expansion_keeps_sorted (l : List bedLong) (d : Int)
    (hs : sortedByStart l) (hv : positiveLength l) (h0 : nonNegStart l) (hd : 0 ≤ d)
    (hstart : ∀ a ∈ l, a.chromStart < 9223372036854775808) (hdl : d < 9223372036854775808) :
    sortedByStart (expandBedLongListByDistance l d) ∧
      (smallCoordinates l → d < 4611686018427387904 →
        ∃ r, expandBedLongListToNeighbor l d = .ok r ∧ sortedByStart r) := by
  have hexact := expansionExact_keeps_sorted l d hs hv h0 hd
  refine ⟨?_, fun hsm hd2 => ?_⟩
  · have h1 := (pairwise_cmp_iff_keys _).1 (sortedByStart_pairwise hexact.1)
    rw [← expandBedLongListByDistance_keys d hd hdl l h0 hstart] at h1
    exact List.Pairwise.chain' ((pairwise_cmp_iff_keys _).2 h1)
  · rw [expandBedLongListToNeighbor_eq_exact hsm (by omega) hd2]
    exact hexact.2

/-- Witness for the amended C13: genes on two chromosomes expanded by 20, one start
stopping at 0. -/
theorem expansion_keeps_sorted_witness :
    sortedByStart (expandBedLongListByDistance
      [⟨"chr1", 5, 10, none, [], '+'⟩, ⟨"chr1", 30, 40, none, [], '+'⟩,
        ⟨"chr2", 50, 80, none, [], '+'⟩] 20) ∧
    ∃ r, expandBedLongListToNeighbor
      [⟨"chr1", 5, 10, none, [], '+'⟩, ⟨"chr1", 30, 40, none, [], '+'⟩,
        ⟨"chr2", 50, 80, none, [], '+'⟩] 20 = .ok r ∧ sortedByStart r :=
  ⟨(expansion_keeps_sorted _ 20 (by simp [sortedByStart, bedLongCmp, strcmp, strcmpAux])
      (by decide) (by decide) (by decide) (by decide) (by decide)).1,
    (expansion_keeps_sorted _ 20 (by simp [sortedByStart, bedLongCmp, strcmp, strcmpAux])
      (by decide) (by decide) (by decide) (by decide) (by decide)).2 (by decide) (by decide)⟩

/-- C28, as stated, fails: in the list `[chr1 5 9223372036854775807]` with `d = 1` the end
of the record comes out of `expandBedLongListToNeighbor` as the `long` result of
`9223372036854775807 + 1`, which is `-9223372036854775808`: the interval has shrunk below its
own start. -/
theorem expandBedLongListToNeighbor_shrinks_at_long_max :
    sortedByStart [⟨"chr1", 5, 9223372036854775807, none, [], '+'⟩] ∧
    positiveLength [⟨"chr1", 5, 9223372036854775807, none, [], '+'⟩] ∧
    nonNegStart [⟨"chr1", 5, 9223372036854775807, none, [], '+'⟩] ∧
    expandBedLongListToNeighbor [⟨"chr1", 5, 9223372036854775807, none, [], '+'⟩] 1 =
      .ok [⟨"chr1", 4, -9223372036854775808, none, [], '+'⟩] ∧
    ¬ List.Forall₂ (withinReach 1) [⟨"chr1", 5, 9223372036854775807, none, [], '+'⟩]
      [⟨"chr1", 4, -9223372036854775808, none, [], '+'⟩] := by
  refine ⟨by simp [sortedByStart], by decide, by decide, rfl, ?_⟩
  intro h
  rw [List.forall₂_cons] at h
  have := h.1.2.2.2.1
  simp at this

/-- C28, amended: for every list with `0 <= start < end` whose coordinates are below `2^62`
and every `0 <= d < 2^62`, `expandBedLongListToNeighbor` returns a list in which no interval
has shrunk and no boundary has moved by more than `d`: record by record
`max(0, start - d) <= start1 <= start` and `end <= end1 <= end + d`, so that each interval of
the result is contained in the interval that `expandBedLongListByDistance` makes of the same
record. Sortedness is not needed for this. -/
theorem expandBedLongListToNeighbor_within_reach (l : List bedLong) (d : Int)
    (hv : positiveLength l) (h0 : nonNegStart l) (hd : 0 ≤ d)
    (hsm : smallCoordinates l) (hd2 : d < 4611686018427387904) :
    ∃ r, expandBedLongListToNeighbor l d = .ok r ∧ List.Forall₂ (withinReach d) l r ∧
      List.Forall₂ containedIn r (expandBedLongListByDistance l d) := by
  rw [expandBedLongListToNeighbor_eq_exact hsm (by omega) hd2,
    expandBedLongListByDistance_eq_exact d l (small_inLongRange hsm (by omega) hd2)]
  exact expandBedLongListToNeighborExact_within_reach l d hv h0 hd

/-- Witness for the amended C28: a gap below `2 * d`, a nested record, a gap above `2 * d`
and a change of chromosome, with `d = 20`. -/
theorem expandBedLongListToNeighbor_within_reach_witness :
    ∃ r, expandBedLongListToNeighbor
        [⟨"chr1", 5, 10, none, [], '+'⟩, ⟨"chr1", 30, 100, none, [], '+'⟩,
          ⟨"chr1", 40, 50, none, [], '+'⟩, ⟨"chr1", 200, 210, none, [], '+'⟩,
          ⟨"chr2", 5, 8, none, [], '+'⟩] 20 = .ok r ∧
      List.Forall₂ (withinReach 20)
        [⟨"chr1", 5, 10, none, [], '+'⟩, ⟨"chr1", 30, 100, none, [], '+'⟩,
          ⟨"chr1", 40, 50, none, [], '+'⟩, ⟨"chr1", 200, 210, none, [], '+'⟩,
          ⟨"chr2", 5, 8, none, [], '+'⟩] r ∧
      List.Forall₂ containedIn r (expandBedLongListByDistance
        [⟨"chr1", 5, 10, none, [], '+'⟩, ⟨"chr1", 30, 100, none, [], '+'⟩,
          ⟨"chr1", 40, 50, none, [], '+'⟩, ⟨"chr1", 200, 210, none, [], '+'⟩,
          ⟨"chr2", 5, 8, none, [], '+'⟩] 20) :=
  expandBedLongListToNeighbor_within_reach _ 20 (by decide) (by decide) (by decide) (by decide)
    (by decide)

/-! ## Base counts in the arithmetic of long -/

theorem wrapLong_add_of_fit {sum inc : Int} (h0 : 0 ≤ sum) (hinc : 0 < inc)
    (hfit : sum + inc < 9223372036854775808) :
    wrapLong (sum + wrapLong inc) = sum + inc := by
  have h1 : wrapLong inc = inc := wrapLong_of_inLongRange (by unfold inLongRange; omega)
  rw [h1]
  exact wrapLong_of_inLongRange (by unfold inLongRange; omega)

theorem basesBodyExact_sum_ge (st : baseCounter) (a : bedLong)
    (ha : a.chromStart < a.chromEnd) : st.sum ≤ (basesBodyExact st a).sum := by
  have hs := resetWatermark_sum st a.chrom
  simp only [basesBodyExact]
  split_ifs <;> omega

theorem bedLongBasesLoopExact_ge : ∀ (l : List bedLong) (st : baseCounter),
    positiveLength l → st.sum ≤ bedLongBasesLoopExact st l
  | [], st, _ => by simp [bedLongBasesLoopExact]
  | a :: rest, st, hv => by
    rw [bedLongBasesLoopExact]
    exact le_trans (basesBodyExact_sum_ge st a (hv a (List.mem_cons_self _ _)))
      (bedLongBasesLoopExact_ge rest _ (fun x hx => hv x (List.mem_cons_of_mem _ hx)))

/-- One turn of the `bedLongBases` loop is the turn over exact integers as long as the exact
sum still fits a `long`. -/
theorem basesBody_eq_exact (st : baseCounter) (a : bedLong) (ha : a.chromStart < a.chromEnd)
    (h0 : 0 ≤ st.sum) (hfit : (basesBodyExact st a).sum < 9223372036854775808) :
    basesBody st a = basesBodyExact st a := by
  have hs := resetWatermark_sum st a.chrom
  simp only [basesBodyExact] at hfit
  simp only [basesBody, basesBodyExact]
  split_ifs with h1 h2
  · rw [if_pos h1] at hfit
    rw [wrapLong_add_of_fit (by omega) (by omega) hfit]
  · rw [if_neg h1, if_pos h2] at hfit
    rw [wrapLong_add_of_fit (by omega) (by omega) hfit]
  · rfl

theorem bedLongBasesLoop_eq_exact : ∀ (l : List bedLong) (st : baseCounter),
    positiveLength l → 0 ≤ st.sum → bedLongBasesLoopExact st l < 9223372036854775808 →
      bedLongBasesLoop st l = bedLongBasesLoopExact st l
  | [], st, _, _, _ => by simp [bedLongBasesLoop, bedLongBasesLoopExact]
  | a :: rest, st, hv, h0, hfit => by
    have ha := hv a (List.mem_cons_self _ _)
    have hrest : positiveLength rest := fun x hx => hv x (List.mem_cons_of_mem _ hx)
    rw [bedLongBasesLoopExact] at hfit
    have hge := bedLongBasesLoopExact_ge rest (basesBodyExact st a) hrest
    have hbody := basesBody_eq_exact st a ha h0 (by omega)
    rw [bedLongBasesLoop, bedLongBasesLoopExact, hbody]
    exact bedLongBasesLoop_eq_exact rest _ hrest
      (le_trans h0 (basesBodyExact_sum_ge st a ha)) hfit

/-- `bedLongBases` returns the sum over exact integers when that sum fits a `long`. -/
theorem bedLongBases_eq_exact {L : List bedLong} (hv : positiveLength L) {v : Int}
    (hex : bedLongBasesExact L = some v) (hfit : v < 9223372036854775808) :
    bedLongBases L = some v := by
  cases L with
  | nil => simp [bedLongBasesExact] at hex
  | cons a rest =>
    simp only [bedLongBasesExact, Option.some.injEq] at hex
    simp only [bedLongBases]
    rw [bedLongBasesLoop_eq_exact (a :: rest) _ hv (le_refl _) (by rw [hex]; exact hfit), hex]

theorem overlap_span_pos {a b : bedLong} (h : bedLongOverlap a b = true) :
    maxLong a.chromStart b.chromStart < minLong a.chromEnd b.chromEnd := by
  unfold bedLongOverlap at h
  split_ifs at h with h1 h2
  omega

theorem addOverlapExact_sum_ge (st : baseCounter) {s e : Int} (hse : s < e) :
    st.sum ≤ (addOverlapExact st s e).sum := by
  simp only [addOverlapExact]
  split_ifs <;> omega

theorem intersectBasesBodyExact_sum_ge (st : baseCounter) (a b : bedLong) :
    st.sum ≤ (intersectBasesBodyExact st a b).sum := by
  have hs := resetWatermark_sum st a.chrom
  unfold intersectBasesBodyExact
  split_ifs with hov
  · have := addOverlapExact_sum_ge (resetWatermark st a.chrom) (overlap_span_pos hov)
    omega
  · omega

theorem bedLongIntersectBasesLoopExact_ge (st : baseCounter) (A B : List bedLong) :
    st.sum ≤ bedLongIntersectBasesLoopExact st A B := by
  induction st, A, B using bedLongIntersectBasesLoopExact.induct with
  | case1 st B => simp [bedLongIntersectBasesLoopExact]
  | case2 st a as => simp [bedLongIntersectBasesLoopExact]
  | case3 st a as b bs hcmp ih =>
    rw [bedLongIntersectBasesLoopExact, if_pos hcmp]
    exact le_trans (intersectBasesBodyExact_sum_ge st a b) ih
  | case4 st a as b bs hcmp ih =>
    rw [bedLongIntersectBasesLoopExact, if_neg hcmp]
    exact le_trans (intersectBasesBodyExact_sum_ge st a b) ih

/-- The accounting of one pair in `bedLongIntersectBases` is the accounting over exact
integers as long as the exact sum still fits a `long`. -/
theorem intersectBasesBody_eq_exact (st : baseCounter) (a b : bedLong) (h0 : 0 ≤ st.sum)
    (hfit : (intersectBasesBodyExact st a b).sum < 9223372036854775808) :
    intersectBasesBody st a b = intersectBasesBodyExact st a b := by
  have hs := resetWatermark_sum st a.chrom
  unfold intersectBasesBody intersectBasesBodyExact
  unfold intersectBasesBodyExact at hfit
  split_ifs with hov
  · rw [if_pos hov] at hfit
    have hpos := overlap_span_pos hov
    simp only [addOverlapExact] at hfit
    simp only [addOverlap, addOverlapExact]
    split_ifs with h1 h2
    · rw [if_pos h1] at hfit
      rw [wrapLong_add_of_fit (by omega) (by omega) hfit]
    · rw [if_neg h1, if_pos h2] at hfit
      rw [wrapLong_add_of_fit (by omega) (by omega) hfit]
    · rfl
  · rfl

theorem bedLongIntersectBasesLoop_eq_exact (st : baseCounter) (A B : List bedLong) :
    0 ≤ st.sum → bedLongIntersectBasesLoopExact st A B < 9223372036854775808 →
      bedLongIntersectBasesLoop st A B = bedLongIntersectBasesLoopExact st A B := by
  induction st, A, B using bedLongIntersectBasesLoopExact.induct with
  | case1 st B =>
    intro _ _
    simp [bedLongIntersectBasesLoop, bedLongIntersectBasesLoopExact]
  | case2 st a as =>
    intro _ _
    simp [bedLongIntersectBasesLoop, bedLongIntersectBasesLoopExact]
  | case3 st a as b bs hcmp ih =>
    intro h0 hfit
    rw [bedLongIntersectBasesLoopExact, if_pos hcmp] at hfit
    have hge := bedLongIntersectBasesLoopExact_ge (intersectBasesBodyExact st a b) as (b :: bs)
    have hbody := intersectBasesBody_eq_exact st a b h0 (by omega)
    rw [bedLongIntersectBasesLoop, if_pos hcmp, hbody]
    conv_rhs => rw [bedLongIntersectBasesLoopExact, if_pos hcmp]
    exact ih (le_trans h0 (intersectBasesBodyExact_sum_ge st a b)) hfit
  | case4 st a as b bs hcmp ih =>
    intro h0 hfit
    rw [bedLongIntersectBasesLoopExact, if_neg hcmp] at hfit
    have hge := bedLongIntersectBasesLoopExact_ge (intersectBasesBodyExact st a b) (a :: as) bs
    have hbody := intersectBasesBody_eq_exact st a b h0 (by omega)
    rw [bedLongIntersectBasesLoop, if_neg hcmp, hbody]
    conv_rhs => rw [bedLongIntersectBasesLoopExact, if_neg hcmp]
    exact ih (le_trans h0 (intersectBasesBodyExact_sum_ge st a b)) hfit

/-- `bedLongIntersectBases` returns the sum over exact integers when that sum fits a
`long`. -/
theorem bedLongIntersectBases_eq_exact {A : List bedLong} (B : List bedLong) {v : Int}
    (hex : bedLongIntersectBasesExact A B = some v) (hfit : v < 9223372036854775808) :
    bedLongIntersectBases A B = some v := by
  cases A with
  | nil => simp [bedLongIntersectBasesExact] at hex
  | cons a rest =>
    simp only [bedLongIntersectBasesExact, Option.some.injEq] at hex
    simp only [bedLongIntersectBases]
    rw [bedLongIntersectBasesLoop_eq_exact _ (a :: rest) B (le_refl _)
      (by rw [hex]; exact hfit), hex]

/-! ## Base counts against the covered bases in the arithmetic of long -/

/-- C3, as stated, fails: the list `[chr1 0 9223372036854775807],
[chr2 0 9223372036854775807]` is sorted with `0 <= start < end` and covers `2^64 - 2` bases; the
`long` sum of `bedLongBases` comes out as `-2`. -/
theorem bedLongBases_wraps_beyond_long :
    sortedByStart [⟨"chr1", 0, 9223372036854775807, none, [], '+'⟩,
      ⟨"chr2", 0, 9223372036854775807, none, [], '+'⟩] ∧
    positiveLength [⟨"chr1", 0, 9223372036854775807, none, [], '+'⟩,
      ⟨"chr2", 0, 9223372036854775807, none, [], '+'⟩] ∧
    nonNegStart [⟨"chr1", 0, 9223372036854775807, none, [], '+'⟩,
      ⟨"chr2", 0, 9223372036854775807, none, [], '+'⟩] ∧
    bedLongBases [⟨"chr1", 0, 9223372036854775807, none, [], '+'⟩,
      ⟨"chr2", 0, 9223372036854775807, none, [], '+'⟩] = some (-2) ∧
    bedLongBases [⟨"chr1", 0, 9223372036854775807, none, [], '+'⟩,
      ⟨"chr2", 0, 9223372036854775807, none, [], '+'⟩] ≠
      some ((coveredBases [⟨"chr1", 0, 9223372036854775807, none, [], '+'⟩,
        ⟨"chr2", 0, 9223372036854775807, none, [], '+'⟩]).card : Int) := by
  have hval : bedLongBases [⟨"chr1", 0, 9223372036854775807, none, [], '+'⟩,
      ⟨"chr2", 0, 9223372036854775807, none, [], '+'⟩] = some (-2) := by decide
  refine ⟨by simp [sortedByStart, bedLongCmp, strcmp, strcmpAux], by decide, by decide, hval, ?_⟩
  rw [hval]
  intro h
  simp only [Option.some.injEq] at h
  have hnn : (0 : Int) ≤ ((coveredBases [⟨"chr1", 0, 9223372036854775807, none, [], '+'⟩,
      ⟨"chr2", 0, 9223372036854775807, none, [], '+'⟩]).card : Int) := Int.natCast_nonneg _
  omega

/-- C3, amended: for a non-empty list sorted ascending by (chrom, start) with
`0 <= start < end` that covers fewer than `2^63` distinct bases (so that the count fits a
`long`), `bedLongBases` returns the number of distinct (chrom, position) bases covered by at
least one interval. Hence it is the sum of the interval lengths when no two intervals of the
list overlap, and it is the length of `Y` alone when the list consists of `Y` and an interval
`X` contained in `Y`. -/
theorem bedLongBases_eq_covered (L : List bedLong) (hne : L ≠ [])
    (hs : sortedByStart L) (hv : positiveLength L) (h0 : nonNegStart L)
    (hfit : ((coveredBases L).card : Int) < 9223372036854775808) :
    bedLongBases L = some ((coveredBases L).card : Int) ∧
    (L.Pairwise (fun a b => bedLongOverlap a b = false) →
      bedLongBases L = some ((L.map (fun a => a.chromEnd - a.chromStart)).sum)) ∧
    (∀ X Y : bedLong, (L = [Y, X] ∨ L = [X, Y]) → X.chrom = Y.chrom →
      Y.chromStart ≤ X.chromStart → X.chromEnd ≤ Y.chromEnd →
      bedLongBases L = some (Y.chromEnd - Y.chromStart)) := by
  have hexact := bedLongBasesExact_eq_covered L hne hs hv h0
  have heq : bedLongBases L = bedLongBasesExact L := by
    rw [hexact.1]
    exact bedLongBases_eq_exact hv hexact.1 hfit
  rw [heq]
  exact hexact

/-- Witness for the amended C3: two overlapping intervals on one chromosome and one on
another. -/
theorem bedLongBases_eq_covered_witness :
    bedLongBases [⟨"chr1", 0, 10, none, [], '+'⟩, ⟨"chr1", 5, 20, none, [], '+'⟩,
        ⟨"chr2", 3, 4, none, [], '+'⟩] =
      some ((coveredBases [⟨"chr1", 0, 10, none, [], '+'⟩, ⟨"chr1", 5, 20, none, [], '+'⟩,
        ⟨"chr2", 3, 4, none, [], '+'⟩]).card : Int) :=
  (bedLongBases_eq_covered _ (by simp)
    (by simp [sortedByStart, bedLongCmp, strcmp, strcmpAux]) (by decide) (by decide)
    (by
      have h := bedLongBases_eq_card
        (L := [⟨"chr1", 0, 10, none, [], '+'⟩, ⟨"chr1", 5, 20, none, [], '+'⟩,
          ⟨"chr2", 3, 4, none, [], '+'⟩]) (by simp)
        (by simp [sortedByStart, bedLongCmp, strcmp, strcmpAux]) (by decide) (by decide)
      have hval : bedLongBasesExact [⟨"chr1", 0, 10, none, [], '+'⟩,
          ⟨"chr1", 5, 20, none, [], '+'⟩, ⟨"chr2", 3, 4, none, [], '+'⟩] = some 21 := by decide
      rw [hval] at h
      simp only [Option.some.injEq] at h
      omega)).1

/-- C2, as stated, fails: with `A = B = [chr1 0 9223372036854775807],
[chr2 0 9223372036854775807]`, sorted with `0 <= start < end`, the two lists share `2^64 - 2`
bases; the `long` sum of `bedLongIntersectBases` comes out as `-2`. -/
theorem bedLongIntersectBases_wraps_beyond_long :
    sortedByStart [⟨"chr1", 0, 9223372036854775807, none, [], '+'⟩,
      ⟨"chr2", 0, 9223372036854775807, none, [], '+'⟩] ∧
    positiveLength [⟨"chr1", 0, 9223372036854775807, none, [], '+'⟩,
      ⟨"chr2", 0, 9223372036854775807, none, [], '+'⟩] ∧
    nonNegStart [⟨"chr1", 0, 9223372036854775807, none, [], '+'⟩,
      ⟨"chr2", 0, 9223372036854775807, none, [], '+'⟩] ∧
    bedLongIntersectBases [⟨"chr1", 0, 9223372036854775807, none, [], '+'⟩,
        ⟨"chr2", 0, 9223372036854775807, none, [], '+'⟩]
      [⟨"chr1", 0, 9223372036854775807, none, [], '+'⟩,
        ⟨"chr2", 0, 9223372036854775807, none, [], '+'⟩] = some (-2) ∧
    bedLongIntersectBases [⟨"chr1", 0, 9223372036854775807, none, [], '+'⟩,
        ⟨"chr2", 0, 9223372036854775807, none, [], '+'⟩]
      [⟨"chr1", 0, 9223372036854775807, none, [], '+'⟩,
        ⟨"chr2", 0, 9223372036854775807, none, [], '+'⟩] ≠
      some (((coveredBases [⟨"chr1", 0, 9223372036854775807, none, [], '+'⟩,
          ⟨"chr2", 0, 9223372036854775807, none, [], '+'⟩] ∩
        coveredBases [⟨"chr1", 0, 9223372036854775807, none, [], '+'⟩,
          ⟨"chr2", 0, 9223372036854775807, none, [], '+'⟩]).card : Nat) : Int) := by
  have hval : bedLongIntersectBases [⟨"chr1", 0, 9223372036854775807, none, [], '+'⟩,
        ⟨"chr2", 0, 9223372036854775807, none, [], '+'⟩]
      [⟨"chr1", 0, 9223372036854775807, none, [], '+'⟩,
        ⟨"chr2", 0, 9223372036854775807, none, [], '+'⟩] = some (-2) := by
    simp [bedLongIntersectBases, bedLongIntersectBasesLoop, bedLongCmpEnd, intersectBasesBody,
      bedLongOverlap, resetWatermark, addOverlap, strcmp, strcmpAux, minLong, maxLong, wrapLong]
  refine ⟨by simp [sortedByStart, bedLongCmp, strcmp, strcmpAux], by decide, by decide, hval, ?_⟩
  rw [hval]
  intro h
  simp only [Option.some.injEq] at h
  have hnn : (0 : Int) ≤ (((coveredBases [⟨"chr1", 0, 9223372036854775807, none, [], '+'⟩,
      ⟨"chr2", 0, 9223372036854775807, none, [], '+'⟩] ∩
    coveredBases [⟨"chr1", 0, 9223372036854775807, none, [], '+'⟩,
      ⟨"chr2", 0, 9223372036854775807, none, [], '+'⟩]).card : Nat) : Int) :=
    Int.natCast_nonneg _
  omega

/-- C2, amended: for a non-empty list `A` and a list `B`, both sorted ascending by
(chrom, start) with `0 <= start < end`, that share fewer than `2^63` distinct bases (so that
the count fits a `long`), `bedLongIntersectBases A B` is the number of distinct
(chrom, position) bases covered by at least one interval of `A` and by at least one interval
of `B`: the size of the intersection of the two covered regions, no base being counted
twice. (The bound `0 <= start` is only used for `A`, whose cursor drives the watermark.) -/
theorem bedLongIntersectBases_eq_card_inter (A B : List bedLong) (hne : A ≠ [])
    (hA : sortedByStart A) (hB : sortedByStart B)
    (hvA : positiveLength A) (hvB : positiveLength B)
    (h0A : nonNegStart A)
    (hfit : (((coveredBases A ∩ coveredBases B).card : Nat) : Int) < 9223372036854775808) :
    bedLongIntersectBases A B = some (((coveredBases A ∩ coveredBases B).card : Nat) : Int) :=
  bedLongIntersectBases_eq_exact B (bedLongIntersectBases_eq_card A B hne hA hB hvA hvB h0A) hfit

/-- Witness for the amended C2: overlapping intervals inside both lists, on two
chromosomes. -/
theorem bedLongIntersectBases_eq_card_inter_witness :
    bedLongIntersectBases
        [⟨"chr1", 0, 10, none, [], '+'⟩, ⟨"chr1", 5, 20, none, [], '+'⟩,
          ⟨"chr2", 3, 9, none, [], '+'⟩]
        [⟨"chr1", 2, 30, none, [], '+'⟩, ⟨"chr1", 4, 6, none, [], '+'⟩,
          ⟨"chr2", 0, 5, none, [], '+'⟩] =
      some (((coveredBases
        [⟨"chr1", 0, 10, none, [], '+'⟩, ⟨"chr1", 5, 20, none, [], '+'⟩,
          ⟨"chr2", 3, 9, none, [], '+'⟩] ∩
        coveredBases
        [⟨"chr1", 2, 30, none, [], '+'⟩, ⟨"chr1", 4, 6, none, [], '+'⟩,
          ⟨"chr2", 0, 5, none, [], '+'⟩]).card : Nat) : Int) :=
  bedLongIntersectBases_eq_card_inter _ _ (by simp)
    (by simp [sortedByStart, bedLongCmp, strcmp, strcmpAux])
    (by simp [sortedByStart, bedLongCmp, strcmp, strcmpAux])
    (by decide) (by decide) (by decide)
    (by
      have h := bedLongIntersectBases_eq_card
        [⟨"chr1", 0, 10, none, [], '+'⟩, ⟨"chr1", 5, 20, none, [], '+'⟩,
          ⟨"chr2", 3, 9, none, [], '+'⟩]
        [⟨"chr1", 2, 30, none, [], '+'⟩, ⟨"chr1", 4, 6, none, [], '+'⟩,
          ⟨"chr2", 0, 5, none, [], '+'⟩] (by simp)
        (by simp [sortedByStart, bedLongCmp, strcmp, strcmpAux])
        (by simp [sortedByStart, bedLongCmp, strcmp, strcmpAux])
        (by decide) (by decide) (by decide)
      have hval : bedLongIntersectBasesExact
          [⟨"chr1", 0, 10, none, [], '+'⟩, ⟨"chr1", 5, 20, none, [], '+'⟩,
            ⟨"chr2", 3, 9, none, [], '+'⟩]
          [⟨"chr1", 2, 30, none, [], '+'⟩, ⟨"chr1", 4, 6, none, [], '+'⟩,
            ⟨"chr2", 0, 5, none, [], '+'⟩] = some 20 := by
        simp [bedLongIntersectBasesExact, bedLongIntersectBasesLoopExact, bedLongCmpEnd,
          intersectBasesBodyExact, bedLongOverlap, resetWatermark, addOverlapExact, strcmp,
          strcmpAux, minLong, maxLong]
      rw [hval] at h
      simp only [Option.some.injEq] at h
      omega)

/-- C5, as stated, fails: with `A = [chr1 0 9223372036854775807],
[chr2 0 9223372036854775807]` and `B = [chr1 0 10]`, both sorted with `0 <= start < end`,
`bedLongIntersectBases A B` is 10 while the `long` sum of `bedLongBases A` comes out as
`-2`. -/
theorem bedLongIntersectBases_exceeds_wrapped_bases :
    sortedByStart [⟨"chr1", 0, 9223372036854775807, none, [], '+'⟩,
      ⟨"chr2", 0, 9223372036854775807, none, [], '+'⟩] ∧
    sortedByStart [⟨"chr1", 0, 10, none, [], '+'⟩] ∧
    positiveLength [⟨"chr1", 0, 9223372036854775807, none, [], '+'⟩,
      ⟨"chr2", 0, 9223372036854775807, none, [], '+'⟩] ∧
    positiveLength [⟨"chr1", 0, 10, none, [], '+'⟩] ∧
    nonNegStart [⟨"chr1", 0, 9223372036854775807, none, [], '+'⟩,
      ⟨"chr2", 0, 9223372036854775807, none, [], '+'⟩] ∧
    nonNegStart [⟨"chr1", 0, 10, none, [], '+'⟩] ∧
    bedLongIntersectBases [⟨"chr1", 0, 9223372036854775807, none, [], '+'⟩,
        ⟨"chr2", 0, 9223372036854775807, none, [], '+'⟩]
      [⟨"chr1", 0, 10, none, [], '+'⟩] = some 10 ∧
    bedLongBases [⟨"chr1", 0, 9223372036854775807, none, [], '+'⟩,
      ⟨"chr2", 0, 9223372036854775807, none, [], '+'⟩] = some (-2) ∧
    bedLongBases [⟨"chr1", 0, 10, none, [], '+'⟩] = some 10 ∧
    ¬ ((10 : Int) ≤ min (-2) 10) := by
  refine ⟨by simp [sortedByStart, bedLongCmp, strcmp, strcmpAux], by simp [sortedByStart],
    by decide, by decide, by decide, by decide, ?_, by decide, by decide, by decide⟩
  simp [bedLongIntersectBases, bedLongIntersectBasesLoop, bedLongCmpEnd, intersectBasesBody,
    bedLongOverlap, resetWatermark, addOverlap, strcmp, strcmpAux, minLong, maxLong, wrapLong]

/-- C5, amended: for non-empty lists `A` and `B` sorted ascending by (chrom, start) with
`0 <= start < end`, each covering fewer than `2^63` distinct bases (so that the counts fit a
`long`), the three sweeps return results and
`bedLongIntersectBases A B <= min (bedLongBases A) (bedLongBases B)`. -/
theorem bedLongIntersectBases_le_min_bases (A B : List bedLong) (hneA : A ≠ []) (hneB : B ≠ [])
    (hA : sortedByStart A) (hB : sortedByStart B)
    (hvA : positiveLength A) (hvB : positiveLength B)
    (h0A : nonNegStart A) (h0B : nonNegStart B)
    (hfitA : ((coveredBases A).card : Int) < 9223372036854775808)
    (hfitB : ((coveredBases B).card : Int) < 9223372036854775808) :
    ∃ i a b : Int, bedLongIntersectBases A B = some i ∧ bedLongBases A = some a ∧
      bedLongBases B = some b ∧ i ≤ min a b := by
  have h1 : (coveredBases A ∩ coveredBases B).card ≤ (coveredBases A).card :=
    Finset.card_le_card Finset.inter_subset_left
  have h2 : (coveredBases A ∩ coveredBases B).card ≤ (coveredBases B).card :=
    Finset.card_le_card Finset.inter_subset_right
  have h1i : (((coveredBases A ∩ coveredBases B).card : Nat) : Int) ≤
      ((coveredBases A).card : Int) := by exact_mod_cast h1
  have h2i : (((coveredBases A ∩ coveredBases B).card : Nat) : Int) ≤
      ((coveredBases B).card : Int) := by exact_mod_cast h2
  exact ⟨_, _, _,
    bedLongIntersectBases_eq_exact B (bedLongIntersectBases_eq_card A B hneA hA hB hvA hvB h0A)
      (by omega),
    bedLongBases_eq_exact hvA (bedLongBases_eq_card hneA hA hvA h0A) hfitA,
    bedLongBases_eq_exact hvB (bedLongBases_eq_card hneB hB hvB h0B) hfitB,
    le_min h1i h2i⟩

/-- Witness for the amended C5: the shared bases of two lists on two chromosomes. -/
theorem bedLongIntersectBases_le_min_bases_witness :
    ∃ i a b : Int,
      bedLongIntersectBases
        [⟨"chr1", 0, 10, none, [], '+'⟩, ⟨"chr1", 5, 20, none, [], '+'⟩,
          ⟨"chr2", 3, 9, none, [], '+'⟩]
        [⟨"chr1", 2, 30, none, [], '+'⟩, ⟨"chr2", 0, 5, none, [], '+'⟩] = some i ∧
      bedLongBases
        [⟨"chr1", 0, 10, none, [], '+'⟩, ⟨"chr1", 5, 20, none, [], '+'⟩,
          ⟨"chr2", 3, 9, none, [], '+'⟩] = some a ∧
      bedLongBases [⟨"chr1", 2, 30, none, [], '+'⟩, ⟨"chr2", 0, 5, none, [], '+'⟩] = some b ∧
      i ≤ min a b :=
  bedLongIntersectBases_le_min_bases _ _ (by simp) (by simp)
    (by simp [sortedByStart, bedLongCmp, strcmp, strcmpAux])
    (by simp [sortedByStart, bedLongCmp, strcmp, strcmpAux])
    (by decide) (by decide) (by decide) (by decide)
    (by
      have h := bedLongBases_eq_card
        (L := [⟨"chr1", 0, 10, none, [], '+'⟩, ⟨"chr1", 5, 20, none, [], '+'⟩,
          ⟨"chr2", 3, 9, none, [], '+'⟩]) (by simp)
        (by simp [sortedByStart, bedLongCmp, strcmp, strcmpAux]) (by decide) (by decide)
      have hval : bedLongBasesExact [⟨"chr1", 0, 10, none, [], '+'⟩,
          ⟨"chr1", 5, 20, none, [], '+'⟩, ⟨"chr2", 3, 9, none, [], '+'⟩] = some 26 := by decide
      rw [hval] at h
      simp only [Option.some.injEq] at h
      omega)
    (by
      have h := bedLongBases_eq_card
        (L := [⟨"chr1", 2, 30, none, [], '+'⟩, ⟨"chr2", 0, 5, none, [], '+'⟩]) (by simp)
        (by simp [sortedByStart, bedLongCmp, strcmp, strcmpAux]) (by decide) (by decide)
      have hval : bedLongBasesExact [⟨"chr1", 2, 30, none, [], '+'⟩,
          ⟨"chr2", 0, 5, none, [], '+'⟩] = some 33 := by decide
      rw [hval] at h
      simp only [Option.some.injEq] at h
      omega)

/-! ## Rows of the ranked output -/

theorem hashMustFindVal_ok {table : List (String × String)} {name val : String}
    (h : (name, val) ∈ table) : ∃ v, hashMustFindVal table name = .ok v := by
  unfold hashMustFindVal
  cases hfind : table.find? (fun kv => decide (kv.1 = name)) with
  | some kv => exact ⟨kv.2, rfl⟩
  | none =>
    rw [List.find?_eq_none] at hfind
    have := hfind (name, val) h
    simp at this

theorem mustFindColumn_ok {hash : Option (List (String × String))} {name : String}
    (h : hasKey hash name) : ∃ col, mustFindColumn hash name = .ok col := by
  cases hash with
  | none => exact ⟨none, rfl⟩
  | some table =>
    obtain ⟨val, hval⟩ := h table rfl
    obtain ⟨v, hv⟩ := hashMustFindVal_ok hval
    exact ⟨some v, by simp [mustFindColumn, hv]⟩

/-- The loop of `displayResults` on a list whose entries within the threshold can be looked
up: it returns, and it adds to the lines written so far one line for each entry within the
threshold, in order. -/
theorem displayResultsLoop_spec (m : ℚ)
    (english hits params : Option (List (String × String))) :
    ∀ (l : List slNameDouble) (printed : List resultRow),
      (∀ e ∈ l, e.number ≤ m → hasKey params e.name ∧ hasKey english e.name) →
      ∃ rows, displayResultsLoop m english hits params printed l = .ok (printed ++ rows) ∧
        rows.map (fun r => (⟨r.name, r.number⟩ : slNameDouble)) =
          l.filter (fun e => decide (e.number ≤ m))
  | [], printed, _ => ⟨[], by simp [displayResultsLoop], rfl⟩
  | curr :: rest, printed, h => by
    have hrest : ∀ e ∈ rest, e.number ≤ m → hasKey params e.name ∧ hasKey english e.name :=
      fun e he => h e (List.mem_cons_of_mem _ he)
    rw [displayResultsLoop]
    by_cases hle : curr.number ≤ m
    · obtain ⟨hp, he⟩ := h curr (List.mem_cons_self _ _) hle
      obtain ⟨pcol, hpcol⟩ := mustFindColumn_ok hp
      obtain ⟨ecol, hecol⟩ := mustFindColumn_ok he
      obtain ⟨rows, hrows, hmap⟩ := displayResultsLoop_spec m english hits params rest
        (printed ++ [⟨curr.name, curr.number, pcol, ecol,
          hits.map (fun table => hashKeyToString table curr.name)⟩]) hrest
      refine ⟨(⟨curr.name, curr.number, pcol, ecol,
        hits.map (fun table => hashKeyToString table curr.name)⟩ : resultRow) :: rows, ?_, ?_⟩
      · rw [if_pos hle]
        simp only [hpcol, hecol]
        rw [hrows]
        simp
      · rw [List.map_cons, hmap, List.filter_cons_of_pos (by simpa using hle)]
    · obtain ⟨rows, hrows, hmap⟩ := displayResultsLoop_spec m english hits params rest
        printed hrest
      refine ⟨rows, ?_, ?_⟩
      · rw [if_neg hle]
        exact hrows
      · rw [hmap, List.filter_cons_of_neg (by simpa using hle)]

/-- C17, as stated, fails: with a table of English texts that lacks the term `GO:1`, the
entry `(GO:1, 1/100)` is within the threshold `1/20`, `hashMustFindVal` aborts while the
columns of its row are computed, and no row is emitted. -/
theorem displayResults_aborts_on_missing_text :
    displayResults (1 / 20) (some [("GO:2", "text")]) [⟨"GO:1", 1 / 100⟩] none none =
      .error "hashMustFindVal: 'GO:1' not found" ∧
    ¬ ∃ rows, displayResults (1 / 20) (some [("GO:2", "text")]) [⟨"GO:1", 1 / 100⟩] none none =
      .ok rows := by
  have hval : displayResults (1 / 20) (some [("GO:2", "text")]) [⟨"GO:1", 1 / 100⟩] none none =
      .error "hashMustFindVal: 'GO:1' not found" := by
    simp [displayResults, slSort, displayResultsLoop, mustFindColumn, hashMustFindVal]
    norm_num
  refine ⟨hval, ?_⟩
  rintro ⟨rows, hrows⟩
  rw [hval] at hrows
  cases hrows

/-- C17, amended: for every result list and every threshold, if each entry with p-value at
most the threshold has its term in the table of report strings and in the table of English
texts, whenever such a table is given, the rows that `displayResults` prints are exactly the
entries of the list with p-value at most the threshold, each once (a permutation of them),
in non-decreasing order of p-value. -/
theorem displayResults_rows (optMaxPvalue : ℚ)
    (goToEnglishHash : Option (List (String × String))) (head : List slNameDouble)
    (hitsHash paramsHash : Option (List (String × String)))
    (hfound : ∀ e ∈ head, e.number ≤ optMaxPvalue →
      hasKey paramsHash e.name ∧ hasKey goToEnglishHash e.name) :
    ∃ rows, displayResults optMaxPvalue goToEnglishHash head hitsHash paramsHash = .ok rows ∧
      (rows.map (fun r => (⟨r.name, r.number⟩ : slNameDouble))).Perm
        (head.filter (fun e => decide (e.number ≤ optMaxPvalue))) ∧
      rows.Pairwise (fun a b => a.number ≤ b.number) := by
  obtain ⟨rows, hrows, hmap⟩ := displayResultsLoop_spec optMaxPvalue goToEnglishHash hitsHash
    paramsHash (slSort slNameDoubleCmp head) []
    (fun e he => hfound e ((slSort_perm head).mem_iff.1 he))
  refine ⟨rows, by simpa [displayResults] using hrows, ?_, ?_⟩
  · rw [hmap]
    exact List.Perm.filter _ (slSort_perm head)
  · have hsorted : (rows.map (fun r => (⟨r.name, r.number⟩ : slNameDouble))).Pairwise
        (fun a b => a.number ≤ b.number) := by
      rw [hmap]
      exact List.Pairwise.filter _ (slSort_sorted head)
    rw [List.pairwise_map] at hsorted
    exact hsorted

/-- C17, amended, at a concrete input: three entries, two of them within the threshold and
named in the table of English texts. -/
theorem displayResults_rows_witness :
    ∃ rows, displayResults (1 / 20) (some [("GO:1", "one"), ("GO:3", "three")])
        [⟨"GO:1", 1 / 50⟩, ⟨"GO:2", 1 / 2⟩, ⟨"GO:3", 1 / 100⟩] none none = .ok rows ∧
      (rows.map (fun r => (⟨r.name, r.number⟩ : slNameDouble))).Perm
        (List.filter (fun e => decide (e.number ≤ 1 / 20))
          [⟨"GO:1", 1 / 50⟩, ⟨"GO:2", 1 / 2⟩, ⟨"GO:3", 1 / 100⟩]) ∧
      rows.Pairwise (fun a b => a.number ≤ b.number) :=
  displayResults_rows (1 / 20) (some [("GO:1", "one"), ("GO:3", "three")])
    [⟨"GO:1", 1 / 50⟩, ⟨"GO:2", 1 / 2⟩, ⟨"GO:3", 1 / 100⟩] none none
    (by
      intro e he hle
      refine ⟨fun table h => Option.noConfusion h, ?_⟩
      intro table htable
      simp only [Option.some.injEq] at htable
      subst htable
      simp only [List.mem_cons, List.mem_singleton, List.not_mem_nil, or_false] at he
      rcases he with rfl | rfl | rfl
      · exact ⟨"one", by simp⟩
      · norm_num at hle
      · exact ⟨"three", by simp⟩)

/-! ## Exhaustive branches of the neighbour bounded expansion -/

/-- C24: for every interval list, sorted or not, and every distance, with coordinates as
exact integers, the branch conditions of `expandBedLongListToNeighbor` are exhaustive: every
turn of the loop body takes one of the five branches, and the call returns a list instead of
the `errAbort` of the final `else`. In the arithmetic of `long` the same holds whenever the
coordinates and the distance lie strictly between `-2^62` and `2^62`. -/
theorem expandBedLongListToNeighbor_never_aborts (l : List bedLong) (d : Int) :
    (∀ (st : neighborSweep) (curr : bedLong) (isLast : Bool),
      ∃ st1, neighborBodyExact d st curr isLast = .ok st1) ∧
    (∃ r, expandBedLongListToNeighborExact l d = .ok r) ∧
    (∀ e, expandBedLongListToNeighborExact l d ≠ .error e) ∧
    (smallCoordinates l → -4611686018427387904 < d → d < 4611686018427387904 →
      ∃ r, expandBedLongListToNeighbor l d = .ok r) := by
  have hret : ∃ r, expandBedLongListToNeighborExact l d = .ok r := by
    obtain ⟨stf, hr, _⟩ := neighborLoop_invariant d (fun _ _ => True)
      (fun _ _ _ _ _ _ => trivial) l ⟨[], none⟩ trivial
    exact ⟨stf.toList, hr⟩
  refine ⟨fun st curr isLast => neighborBody_total d st curr isLast, hret, ?_, ?_⟩
  · intro e he
    obtain ⟨r, hr⟩ := hret
    rw [hr] at he
    cases he
  · intro hsm hd1 hd2
    rw [expandBedLongListToNeighbor_eq_exact hsm hd1 hd2]
    exact hret

end BedToEnrichments
